import Mathlib

/-!
# Verification of the secret-env-manager resolution core

A shallow embedding, in Lean 4, of the core of `gumi/secret-env-manager`:
the secret-URI grammar (`internal/model/uri`), the line-oriented entry
parser (`internal/parser/plain.go`), the JSON path navigator
(`internal/text/json.go`), the secret-value extraction
(`internal/secret/secret.go`), the per-entry resolution pipeline
(`internal/provider/provider.go`) and the key-ordering/formatting layer
(`internal/env`, `internal/formatting`).

Modelling conventions:
* Go strings are Lean `String`s; all character-level operations are defined
  on `List Char` so that they reduce in the kernel.  Go compares and sorts
  strings by UTF-8 byte order, which coincides with code-point order.
* Go's `error` values are modelled by their message strings (`Except
  String`), because the pipeline inspects messages (`strings.HasPrefix`,
  `strings.Contains`) to classify errors.
* JSON values (`encoding/json`'s `interface{}`) are modelled by the
  inductive `JSON` below.  JSON numbers are modelled as integers rendered
  in decimal; this is faithful to Go's `%v`/`json.Marshal` rendering for
  integral values of magnitude below 10^6, which covers every numeric
  literal appearing in the theorems here.  Fractional numbers and `\u`
  escapes with surrogate pairs are outside the model's JSON text grammar.
* Go maps are modelled as association lists whose key lists are free of
  duplicates; map iteration order is never observable in the modelled
  results (they are maps again, or explicitly sorted lists).
* The per-platform secret caches are not threaded: the backends are
  modelled as pure functions, for which memoisation is semantically
  invisible within one run (the cache starts empty and only successful
  fetches are inserted).
-/

namespace SEM

/-! ## Character and string primitives (Go `strings`/`unicode` subset) -/

/-- Go `unicode.IsSpace` on the Latin-1 range (ASCII whitespace plus NEL
and NBSP); characters outside this range are treated as non-space, which is
faithful for every input considered in the theorems below. -/
def goIsSpace (c : Char) : Bool :=
  c = ' ' || c = '\t' || c = '\n' || c.toNat = 11 || c.toNat = 12 || c = '\r' ||
  c.toNat = 0x85 || c.toNat = 0xA0

/-- Go `unicode.IsControl` (Unicode category Cc). -/
def goIsControl (c : Char) : Bool :=
  c.toNat < 32 || (127 ≤ c.toNat && c.toNat ≤ 0x9F)

/-- Trim characters satisfying `p` from both ends (Go `strings.TrimFunc`). -/
def trimListBy (p : Char → Bool) (l : List Char) : List Char :=
  ((l.dropWhile p).reverse.dropWhile p).reverse

/-- Go `strings.TrimSpace`. -/
def goTrimSpace (s : String) : String :=
  ⟨trimListBy goIsSpace s.data⟩

/-- Go `strings.Trim(s, cutset)` for a one-character cutset. -/
def goTrimChar (s : String) (c : Char) : String :=
  ⟨trimListBy (· = c) s.data⟩

/-- Go `strings.TrimRight(s, cutset)`. -/
def goTrimRightIn (s : String) (cs : List Char) : String :=
  ⟨(s.data.reverse.dropWhile (cs.contains ·)).reverse⟩

/-- Split at the first occurrence of `c`: `some (before, after)` when `c`
occurs, `none` otherwise (the list form of Go `strings.Cut`). -/
def breakAtChar (c : Char) : List Char → Option (List Char × List Char)
  | [] => none
  | x :: xs =>
    if x = c then some ([], xs)
    else (breakAtChar c xs).map (fun p => (x :: p.1, p.2))

/-- Go `strings.Cut(s, sep)` for a one-character separator. -/
def goCut (s : String) (c : Char) : String × String × Bool :=
  match breakAtChar c s.data with
  | some (a, b) => (⟨a⟩, ⟨b⟩, true)
  | none => (s, "", false)

/-- Go `strings.Split(s, sep)` for a one-character separator. -/
def splitChar (c : Char) : List Char → List (List Char)
  | [] => [[]]
  | x :: xs =>
    if x = c then [] :: splitChar c xs
    else
      match splitChar c xs with
      | [] => [[x]]
      | h :: t => (x :: h) :: t

/-- Go `strings.SplitN(s, sep, n)` for a one-character separator. -/
def splitNChar (c : Char) : Nat → List Char → List (List Char)
  | 0, _ => []
  | 1, l => [l]
  | n + 2, l =>
    match breakAtChar c l with
    | none => [l]
    | some (a, b) => a :: splitNChar c (n + 1) b

/-- Go `strings.HasPrefix`. -/
def strStartsWith (s p : String) : Bool :=
  p.data.isPrefixOf s.data

/-- Go `strings.HasSuffix`. -/
def strEndsWith (s p : String) : Bool :=
  p.data.reverse.isPrefixOf s.data.reverse

/-- Substring containment over suffixes (Go `strings.Contains`). -/
def infixOfList (p : List Char) : List Char → Bool
  | [] => p.isPrefixOf []
  | x :: xs => p.isPrefixOf (x :: xs) || infixOfList p xs

/-- Go `strings.Contains`. -/
def strContainsSub (s pat : String) : Bool :=
  infixOfList pat.data s.data

/-- Join a list of strings with a separator (Go `strings.Join`). -/
def joinSep (sep : String) : List String → String
  | [] => ""
  | [x] => x
  | x :: y :: rest => x ++ sep ++ joinSep sep (y :: rest)

/-- Byte-lexicographic `≤` on character lists (how Go compares strings;
UTF-8 byte order coincides with code-point order). -/
def lexLe : List Char → List Char → Bool
  | [], _ => true
  | _ :: _, [] => false
  | a :: as, b :: bs =>
    if a.toNat < b.toNat then true
    else if b.toNat < a.toNat then false
    else lexLe as bs

/-- Go string `≤` (byte order). -/
def strLe (a b : String) : Bool := lexLe a.data b.data

/-- Insert into a `≤`-sorted list of strings. -/
def insSorted (x : String) : List String → List String
  | [] => [x]
  | y :: ys => if strLe x y then x :: y :: ys else y :: insSorted x ys

/-- Sort strings lexicographically; extensionally equal to Go
`sort.Strings` (any sorted permutation of a string list is unique). -/
def isortStr : List String → List String
  | [] => []
  | x :: xs => insSorted x (isortStr xs)

/-- Insert into a list of pairs sorted by first component. -/
def insSortedFst {β : Type} (x : String × β) : List (String × β) → List (String × β)
  | [] => [x]
  | y :: ys => if strLe x.1 y.1 then x :: y :: ys else y :: insSortedFst x ys

/-- Sort pairs by their first (string) component. -/
def isortFst {β : Type} : List (String × β) → List (String × β)
  | [] => []
  | x :: xs => insSortedFst x (isortFst xs)

/-- The decimal digit `n` (`n < 10`) as a character. -/
def digitChar (n : Nat) : Char := Char.ofNat (48 + n)

/-- Decimal digits of `n`, most significant first (fuel-driven; any fuel
above `n` suffices). -/
def natReprAux : Nat → Nat → List Char
  | 0, _ => []
  | fuel + 1, n =>
    if n < 10 then [digitChar n]
    else natReprAux fuel (n / 10) ++ [digitChar (n % 10)]

/-- Decimal rendering of a natural number (Go `%v`/`%d`). -/
def natRepr (n : Nat) : String := ⟨natReprAux (n + 1) n⟩

/-- Decimal rendering of an integer (Go `%v`/`%d`). -/
def intRepr : Int → String
  | .ofNat m => natRepr m
  | .negSucc m => "-" ++ natRepr (m + 1)

/-! ## The JSON value model (Go `encoding/json` `interface{}` values) -/

/-- A parsed JSON value.  Objects carry their members as an association
list with no duplicate keys (Go decodes objects into `map[string]…`,
keeping the last duplicate); numbers are modelled as integers. -/
inductive JSON where
  | str (s : String)
  | num (n : Int)
  | bool (b : Bool)
  | null
  | arr (elems : List JSON)
  | obj (fields : List (String × JSON))

/-- JSON insignificant whitespace. -/
def jsonWs (l : List Char) : List Char :=
  l.dropWhile (fun c => c = ' ' || c = '\t' || c = '\n' || c = '\r')

/-- Hex digit value. -/
def hexVal (c : Char) : Option Nat :=
  if '0' ≤ c ∧ c ≤ '9' then some (c.toNat - '0'.toNat)
  else if 'a' ≤ c ∧ c ≤ 'f' then some (c.toNat - 'a'.toNat + 10)
  else if 'A' ≤ c ∧ c ≤ 'F' then some (c.toNat - 'A'.toNat + 10)
  else none

/-- Body of a JSON string literal, after the opening quote.  Supports the
escapes Go accepts (`\u` without surrogate-pair recombination). -/
def parseJStringAux : List Char → List Char → Option (String × List Char)
  | _, [] => none
  | acc, c :: rest =>
    if c = '"' then some (⟨acc.reverse⟩, rest)
    else if c = '\\' then
      match rest with
      | '"' :: r => parseJStringAux ('"' :: acc) r
      | '\\' :: r => parseJStringAux ('\\' :: acc) r
      | '/' :: r => parseJStringAux ('/' :: acc) r
      | 'b' :: r => parseJStringAux (Char.ofNat 8 :: acc) r
      | 'f' :: r => parseJStringAux (Char.ofNat 12 :: acc) r
      | 'n' :: r => parseJStringAux ('\n' :: acc) r
      | 'r' :: r => parseJStringAux ('\r' :: acc) r
      | 't' :: r => parseJStringAux ('\t' :: acc) r
      | 'u' :: h1 :: h2 :: h3 :: h4 :: r =>
        match hexVal h1, hexVal h2, hexVal h3, hexVal h4 with
        | some a, some b, some c2, some d =>
          parseJStringAux (Char.ofNat (((a * 16 + b) * 16 + c2) * 16 + d) :: acc) r
        | _, _, _, _ => none
      | _ => none
    else if c.toNat < 0x20 then none
    else parseJStringAux (c :: acc) rest

/-- Parse a JSON string literal body (after the opening quote). -/
def parseJString (l : List Char) : Option (String × List Char) :=
  parseJStringAux [] l

/-- Decimal digits to a natural number. -/
def digitsVal : List Char → Nat → Nat
  | [], acc => acc
  | c :: rest, acc => digitsVal rest (acc * 10 + (c.toNat - '0'.toNat))

/-- A JSON number literal; integral numbers only (see the header note). -/
def parseJNumber (l : List Char) : Option (JSON × List Char) :=
  let (neg, l1) := match l with
    | '-' :: r => (true, r)
    | _ => (false, l)
  let digits := l1.takeWhile (fun c => '0' ≤ c && c ≤ '9')
  let rest := l1.drop digits.length
  if digits = [] then none
  else if digits.head? = some '0' ∧ digits.length > 1 then none
  else
    match rest with
    | '.' :: _ => none
    | 'e' :: _ => none
    | 'E' :: _ => none
    | _ =>
      let n : Int := digitsVal digits 0
      some (.num (if neg then -n else n), rest)

/-- Record an object member, letting a later duplicate key win (Go map
assignment). -/
def upsertField (acc : List (String × JSON)) (k : String) (v : JSON) :
    List (String × JSON) :=
  acc.filter (fun p => p.1 ≠ k) ++ [(k, v)]

mutual

/-- Fuel-indexed JSON value parser (the fuel bounds nesting; callers pass
more fuel than the input length, which always suffices). -/
def parseJValue : Nat → List Char → Option (JSON × List Char)
  | 0, _ => none
  | f + 1, l =>
    match jsonWs l with
    | '{' :: rest =>
      match jsonWs rest with
      | '}' :: rest2 => some (.obj [], rest2)
      | rest2 => (parseJMembers f rest2 []).map (fun p => (JSON.obj p.1, p.2))
    | '[' :: rest =>
      match jsonWs rest with
      | ']' :: rest2 => some (.arr [], rest2)
      | rest2 => (parseJElems f rest2 []).map (fun p => (JSON.arr p.1, p.2))
    | '"' :: rest => (parseJString rest).map (fun p => (JSON.str p.1, p.2))
    | 't' :: 'r' :: 'u' :: 'e' :: rest => some (.bool true, rest)
    | 'f' :: 'a' :: 'l' :: 's' :: 'e' :: rest => some (.bool false, rest)
    | 'n' :: 'u' :: 'l' :: 'l' :: rest => some (.null, rest)
    | l2 => parseJNumber l2

/-- Members of a JSON object, after `{` (nonempty member list). -/
def parseJMembers : Nat → List Char → List (String × JSON) →
    Option (List (String × JSON) × List Char)
  | 0, _, _ => none
  | f + 1, l, acc =>
    match jsonWs l with
    | '"' :: rest =>
      match parseJString rest with
      | none => none
      | some (k, rest2) =>
        match jsonWs rest2 with
        | ':' :: rest3 =>
          match parseJValue f rest3 with
          | none => none
          | some (v, rest4) =>
            match jsonWs rest4 with
            | ',' :: rest5 => parseJMembers f rest5 (upsertField acc k v)
            | '}' :: rest5 => some (upsertField acc k v, rest5)
            | _ => none
        | _ => none
    | _ => none

/-- Elements of a JSON array, after `[` (nonempty element list). -/
def parseJElems : Nat → List Char → List JSON → Option (List JSON × List Char)
  | 0, _, _ => none
  | f + 1, l, acc =>
    match parseJValue f l with
    | none => none
    | some (v, rest) =>
      match jsonWs rest with
      | ',' :: rest2 => parseJElems f rest2 (acc ++ [v])
      | ']' :: rest2 => some (acc ++ [v], rest2)
      | _ => none

end

/-- Go `json.Unmarshal` into `interface{}` (within the model's grammar):
a complete JSON value with nothing but whitespace after it. -/
def parseJSON (s : String) : Option JSON :=
  match parseJValue (2 * s.data.length + 2) s.data with
  | some (v, rest) => if jsonWs rest = [] then some v else none
  | none => none

/-- Lower-case hex digit. -/
def hexLower (n : Nat) : Char :=
  if n < 10 then Char.ofNat ('0'.toNat + n) else Char.ofNat ('a'.toNat + n - 10)

/-- Go `encoding/json` string escaping (`"` `\` `\n` `\r` `\t` short forms,
other control characters and `<` `>` `&` as `\u00xx`). -/
def escapeJChar (c : Char) : List Char :=
  if c = '"' then ['\\', '"']
  else if c = '\\' then ['\\', '\\']
  else if c = '\n' then ['\\', 'n']
  else if c = '\r' then ['\\', 'r']
  else if c = '\t' then ['\\', 't']
  else if c.toNat < 0x20 || c = '<' || c = '>' || c = '&' then
    ['\\', 'u', '0', '0', hexLower (c.toNat / 16), hexLower (c.toNat % 16)]
  else [c]

/-- A JSON string literal as Go `json.Marshal` writes it. -/
def quoteJString (s : String) : String :=
  ⟨'"' :: (s.data.flatMap escapeJChar ++ ['"'])⟩

mutual

/-- Go `json.Marshal` of an `interface{}` JSON value (compact form; object
keys sorted, as Go sorts map keys).  Members are rendered before sorting so
that the recursion stays structural; the sort compares raw keys. -/
def marshalJSON : JSON → String
  | .str s => quoteJString s
  | .num n => intRepr n
  | .bool b => if b then "true" else "false"
  | .null => "null"
  | .arr xs => "[" ++ joinSep "," (marshalList xs) ++ "]"
  | .obj fs =>
    "\x7b" ++
      joinSep ","
        ((isortFst (marshalFields fs)).map fun p => quoteJString p.1 ++ ":" ++ p.2) ++
      "\x7d"

/-- Render each array element. -/
def marshalList : List JSON → List String
  | [] => []
  | x :: xs => marshalJSON x :: marshalList xs

/-- Render each object member as `(key, rendered value)`. -/
def marshalFields : List (String × JSON) → List (String × String)
  | [] => []
  | (k, v) :: rest => (k, marshalJSON v) :: marshalFields rest

end

/-! ## Secret URI grammar (`internal/model/uri`) -/

/-- `uri.SecretURI`. -/
structure SecretURI where
  platform : String
  service : String
  account : String
  secretName : String
  key : String := ""
  version : String := ""
  region : String := ""
  deriving DecidableEq

/-- `uri.URIPrefix`. -/
def uriScheme : String := "sem://"

/-- `uri.AwsDefaultVersion`. -/
def awsDefaultVersion : String := "AWSCURRENT"

/-- `uri.GoogleCloudDefaultVersion`. -/
def googleCloudDefaultVersion : String := "latest"

/-- `uri.AwsDefaultRegion`. -/
def awsDefaultRegion : String := "ap-northeast-1"

/-- `uri.cleanURI`. -/
def cleanURI (s : String) : String :=
  goTrimRightIn (goTrimSpace s) ['\r', '\n']

/-- `uri.validatePrefix` (named for the scheme to fit the file's lexical
conventions): checks and strips the `sem://` scheme. -/
def checkScheme (s : String) : Except String String :=
  if strStartsWith s uriScheme then .ok ⟨s.data.drop uriScheme.data.length⟩
  else .error ("invalid URI: must start with '" ++ uriScheme ++ "'")

/-- `uri.splitPathAndQuery`. -/
def splitPathAndQuery (s : String) : String × String :=
  let (path, query, _) := goCut s '?'
  (path, query)

/-- `uri.parsePathComponents`: `platform:service/account/secretName`
(the secret name may contain `/`). -/
def parsePathComponents (path : String) :
    Except String (String × String × String × String) :=
  match splitNChar '/' 3 path.data with
  | [p0, p1, p2] =>
    match breakAtChar ':' p0 with
    | some (pl, sv) =>
      if pl = [] ∨ sv = [] ∨ p1 = [] ∨ p2 = [] then
        .error "invalid URI: missing required fields"
      else .ok (⟨pl⟩, ⟨sv⟩, ⟨p1⟩, ⟨p2⟩)
    | none => .error "invalid URI: missing required fields"
  | _ => .error "invalid URI path: expected format"

/-- `net/url.QueryUnescape`: `%xx` decoding with `+` as space.  Escaped
bytes are mapped to the code point of the same value (faithful below
U+0100, which the round-trip theorems assume). -/
def queryUnescape : List Char → Option (List Char)
  | [] => some []
  | c :: rest =>
    if c = '%' then
      match rest with
      | h1 :: h2 :: rest2 =>
        match hexVal h1, hexVal h2 with
        | some a, some b => (queryUnescape rest2).map (Char.ofNat (a * 16 + b) :: ·)
        | _, _ => none
      | _ => none
    else if c = '+' then (queryUnescape rest).map (' ' :: ·)
    else (queryUnescape rest).map (c :: ·)

/-- One `key=value` query segment (Go splits at the first `=`). -/
def querySegPair (seg : List Char) : Option (String × String) :=
  let (k, v) := match breakAtChar '=' seg with
    | some (a, b) => (a, b)
    | none => (seg, [])
  match queryUnescape k, queryUnescape v with
  | some k2, some v2 => some (⟨k2⟩, ⟨v2⟩)
  | _, _ => none

/-- `net/url.ParseQuery`: fails on a semicolon or a bad escape, skips
empty segments. -/
def goQueryPairs : List (List Char) → Option (List (String × String))
  | [] => some []
  | seg :: rest =>
    if seg.contains ';' then none
    else if seg = [] then goQueryPairs rest
    else
      match querySegPair seg with
      | none => none
      | some p => (goQueryPairs rest).map (p :: ·)

/-- `url.Values.Get`: first value for the name, `""` when absent. -/
def queryGet (pairs : List (String × String)) (name : String) : String :=
  (pairs.lookup name).getD ""

/-- `uri.parseQueryParams`: `(version, region, key)`. -/
def parseQueryParams (query : String) :
    Except String (String × String × String) :=
  if query = "" then .ok ("", "", "")
  else
    match goQueryPairs (splitChar '&' query.data) with
    | none => .error "invalid query"
    | some ps => .ok (queryGet ps "version", queryGet ps "region", queryGet ps "key")

/-- `uri.determineVersion`. -/
def determineVersion (platform queryVersion : String) : String :=
  if queryVersion ≠ "" then queryVersion
  else if platform = "aws" then awsDefaultVersion
  else if platform = "googlecloud" then googleCloudDefaultVersion
  else ""

/-- `uri.determineRegion`. -/
def determineRegion (platform queryRegion : String) : String :=
  if queryRegion ≠ "" then queryRegion
  else if platform = "aws" then awsDefaultRegion
  else ""

/-- `uri.createSecretURI`. -/
def createSecretURI (platform service account secretName : String)
    (queryVersion queryRegion queryKey : String) : SecretURI :=
  let version := determineVersion platform queryVersion
  let region := determineRegion platform queryRegion
  { platform, service, account, secretName
    region := if region ≠ "" then region else ""
    version := if version ≠ "" then version else ""
    key := if queryKey ≠ "" then queryKey else "" }

/-- `uri.ParseResult`. -/
def parseResult (uriString : String) : Except String SecretURI := do
  let trimmed ← checkScheme (cleanURI uriString)
  let (path, query) := splitPathAndQuery trimmed
  let (platform, service, account, secretName) ← parsePathComponents path
  let (version, region, key) ← parseQueryParams query
  return createSecretURI platform service account secretName version region key

/-- `net/url.QueryEscape` of one character (UTF-8 bytes below U+0100;
the round-trip theorems restrict to that range). -/
def queryEscapeChar (c : Char) : List Char :=
  if (65 ≤ c.toNat ∧ c.toNat ≤ 90) ∨ (97 ≤ c.toNat ∧ c.toNat ≤ 122) ∨
      (48 ≤ c.toNat ∧ c.toNat ≤ 57) ∨
      c = '-' ∨ c = '_' ∨ c = '.' ∨ c = '~' then [c]
  else if c = ' ' then ['+']
  else
    ['%', (hexUpper (c.toNat / 16 % 16)), (hexUpper (c.toNat % 16))]
where
  hexUpper (n : Nat) : Char :=
    if n < 10 then Char.ofNat ('0'.toNat + n) else Char.ofNat ('A'.toNat + n - 10)

/-- `net/url.QueryEscape`. -/
def queryEscape (s : String) : String :=
  ⟨s.data.flatMap queryEscapeChar⟩

/-- `uri.collectQueryParams`: `version`, `key`, `region`, in that order,
dropping parameters whose escaped value is empty. -/
def collectQueryParams (u : SecretURI) : List String :=
  ([("version", u.version), ("key", u.key), ("region", u.region)].map
      (fun p => p.1 ++ "=" ++ queryEscape p.2)).filter
    (fun p => !strEndsWith p "=")

/-- `uri.appendQueryParamsIfNeeded`. -/
def appendParamsIfNeeded (baseUri : String) (u : SecretURI) : String :=
  match collectQueryParams u with
  | [] => baseUri
  | ps => baseUri ++ "?" ++ joinSep "&" ps

/-- `uri.SecretURI.GetUri`: serialise back to the `sem://…` form. -/
def getUri (u : SecretURI) : String :=
  appendParamsIfNeeded
    (uriScheme ++ u.platform ++ ":" ++ u.service ++ "/" ++ u.account ++ "/" ++
      u.secretName) u

/-! ## Line classifier and entry parser (`internal/parser/plain.go`) -/

/-- `parser.LineType`. -/
inductive LineType where
  | emptyLine
  | commentLine
  | secretURILine
  | keyValueLine
  | keyOnlyLine
  deriving DecidableEq

/-- `parser.Line`. -/
structure Line where
  content : String
  number : Nat
  type : LineType
  trimmed : String
  deriving DecidableEq

/-- `env.Entry` (`internal/model/env/entry.go`): index is the 1-based
line number recorded by the parser, 0 for the discarded zero entry. -/
structure Entry where
  index : Nat
  key : String
  value : String
  deriving DecidableEq

/-- `parser.classifyLine` (input already trimmed). -/
def classifyLine (line : String) : LineType :=
  if line = "" then .emptyLine
  else if strStartsWith line "#" then .commentLine
  else if strStartsWith line "sem://" then .secretURILine
  else if line.data.contains '=' then .keyValueLine
  else .keyOnlyLine

/-- `parser.NewLine`. -/
def newLine (content : String) (number : Nat) : Line :=
  let trimmed := goTrimSpace content
  ⟨content, number, classifyLine trimmed, trimmed⟩

/-- `parser.parseKeyValueLine`: split at the first `=` of the trimmed
line; the key is trimmed again, the value is everything after the `=`. -/
def parseKeyValueLine (line : Line) : Except String Entry :=
  match breakAtChar '=' line.trimmed.data with
  | none => .error ("invalid key-value line: " ++ line.content)
  | some (pre, post) => .ok ⟨line.number, goTrimSpace ⟨pre⟩, ⟨post⟩⟩

/-- `parser.Line.ToEnvEntry`. -/
def toEnvEntry (l : Line) : Except String Entry :=
  match l.type with
  | .emptyLine => .ok ⟨0, "", ""⟩
  | .commentLine => .ok ⟨0, "", ""⟩
  | .secretURILine => .ok ⟨l.number, l.trimmed, ""⟩
  | .keyValueLine => parseKeyValueLine l
  | .keyOnlyLine => .ok ⟨l.number, l.trimmed, ""⟩

/-- `parser.ParseEnvLine`. -/
def parseEnvLine (content : String) (idx : Nat) : Except String Entry :=
  toEnvEntry (newLine content idx)

/-- `parser.removeBOM` (the UTF-8 BOM bytes are the single code point
U+FEFF). -/
def removeBOM (s : String) : String :=
  if strStartsWith s "\uFEFF" then ⟨s.data.drop 1⟩ else s

/-- First pass of `parser.normalizeLineEndings`: `ReplaceAll "\r\n" "\n"`. -/
def replaceCRLF : List Char → List Char
  | '\r' :: '\n' :: rest => '\n' :: replaceCRLF rest
  | c :: rest => c :: replaceCRLF rest
  | [] => []

/-- `parser.normalizeLineEndings` (CRLF then bare CR to LF). -/
def normalizeLineEndings (s : String) : String :=
  ⟨(replaceCRLF s.data).map (fun c => if c = '\r' then '\n' else c)⟩

/-- `parser.PreprocessContent`. -/
def preprocessContent (s : String) : String :=
  normalizeLineEndings (removeBOM s)

/-- `bufio.Scanner` with `ScanLines` on CR-free input: split at `\n`,
yielding no final empty line for input ending in `\n` and nothing for
empty input. -/
def goScanLines (s : String) : List String :=
  if s.data = [] then []
  else
    let parts := splitChar '\n' s.data
    let parts := if s.data.getLast? = some '\n' then parts.dropLast else parts
    parts.map (fun l => ⟨l⟩)

/-- `parser.NewContentLinesResult`'s numbering loop (from 1). -/
def numberLines : Nat → List String → List Line
  | _, [] => []
  | n, s :: rest => newLine s (n + 1) :: numberLines (n + 1) rest

/-- `parser.FilterValidEntries`: drop entries equal to the zero `Entry`. -/
def filterValidEntries (entries : List Entry) : List Entry :=
  entries.filter (fun e => e ≠ ⟨0, "", ""⟩)

/-- `parser.combineEntryResults`' accumulation, with the 1-based position
wrapped into the first error. -/
def combineAux : Nat → List (Except String Entry) → Except String (List Entry)
  | _, [] => .ok []
  | i, r :: rest =>
    match r with
    | .error e => .error ("error parsing line " ++ natRepr (i + 1) ++ ": " ++ e)
    | .ok entry => (combineAux (i + 1) rest).map (entry :: ·)

/-- `parser.combineEntryResults`. -/
def combineEntryResults (results : List (Except String Entry)) :
    Except String (List Entry) :=
  (combineAux 0 results).map filterValidEntries

/-- `parser.ParsePlainFileContentResult`: the whole-file parse. -/
def parsePlainFileContentResult (content : String) : Except String (List Entry) :=
  combineEntryResults
    ((numberLines 0 (goScanLines (preprocessContent content))).map toEnvEntry)

/-! ## Secret value extraction (`internal/secret/secret.go`,
`internal/text`) -/

/-- `text.CleanControlChars`: drop every Unicode control or whitespace
character except the plain space. -/
def cleanControlChars (s : String) : String :=
  ⟨s.data.filter (fun c => c = ' ' || (!goIsControl c && !goIsSpace c))⟩

/-- `strconv.Atoi` (unbounded; the `int` range never matters below
because indices are compared against small array lengths). -/
def goAtoi (s : List Char) : Option Int :=
  let digitsToNat (l : List Char) : Option Nat :=
    if l = [] ∨ ¬ l.all (fun c => '0' ≤ c && c ≤ '9') then none
    else some (digitsVal l 0)
  match s with
  | '+' :: rest => (digitsToNat rest).map (fun n => (n : Int))
  | '-' :: rest => (digitsToNat rest).map (fun n => -(n : Int))
  | _ => (digitsToNat s).map (fun n => (n : Int))

/-- `text.parseIndex`: array-index syntax of one path segment. -/
def parseIndex (index : String) (arrayLength : Nat) : Except String Int :=
  if strStartsWith index "-" then
    if index = "-" then .ok ((arrayLength : Int) - 1)
    else
      match goAtoi index.data with
      | none => .error ("invalid array index: " ++ index)
      | some val =>
        if -val ≤ (arrayLength : Int) then .ok ((arrayLength : Int) + val)
        else .error ("negative index " ++ intRepr val ++ " out of bounds")
  else
    match goAtoi index.data with
    | none => .error ("invalid array index: " ++ index)
    | some val =>
      if (arrayLength : Int) ≤ val then
        .error ("index " ++ intRepr val ++ " out of bounds")
      else .ok val

/-- `text.NavigatePath`'s loop, carrying the path position. -/
def navigatePathAux : JSON → List String → Nat → Except String JSON
  | data, [], _ => .ok data
  | data, seg :: rest, i =>
    match data with
    | .obj fields =>
      match fields.lookup seg with
      | some v => navigatePathAux v rest (i + 1)
      | none => .error ("key '" ++ seg ++ "' not found at path position " ++ natRepr i)
    | .arr elems =>
      match parseIndex seg elems.length with
      | .error e => .error ("at path position " ++ natRepr i ++ ": " ++ e)
      | .ok idx =>
        if idx < 0 ∨ (elems.length : Int) ≤ idx then
          .error ("array index " ++ intRepr idx ++ " out of bounds at path position "
            ++ natRepr i)
        else navigatePathAux (elems.getD idx.toNat .null) rest (i + 1)
    | _ =>
      .error ("cannot navigate further at path position " ++ natRepr i ++
        ": not an object or array")

/-- `text.NavigatePath`. -/
def navigatePath (data : JSON) (path : List String) : Except String JSON :=
  navigatePathAux data path 0

/-- `secret.formatSecretValue`: strings (cleaned when requested), numbers
and booleans via `%v`, everything else JSON-encoded. -/
def formatSecretValue (value : JSON) (cleanChars : Bool) : String :=
  match value with
  | .str s => if cleanChars then cleanControlChars s else s
  | .num n => intRepr n
  | .bool b => if b then "true" else "false"
  | v => marshalJSON v

/-- `secret.ParseValueWithOptionsResult`: extract the (dotted) key from a
secret string; the error messages matter downstream and follow the Go
`fmt.Errorf` texts. -/
def parseValueWithOptionsResult (secretString key : String) (cleanChars : Bool) :
    Except String String :=
  if secretString = "" then .error "secret value is empty"
  else if key = "" then
    .ok (if cleanChars then cleanControlChars secretString else secretString)
  else
    match parseJSON secretString with
    | none =>
      .error ("invalid secret value format: cannot retrieve key '" ++ key ++
        "' because the specified secret is not in JSON format")
    | some jsonData =>
      match navigatePath jsonData ((splitChar '.' key.data).map (fun l => ⟨l⟩)) with
      | .error e => .error ("key not found in secret: " ++ e)
      | .ok v => .ok (formatSecretValue v cleanChars)

/-- `secret.ParseValueResult` (default options clean control chars). -/
def parseValueResult (secretString key : String) : Except String String :=
  parseValueWithOptionsResult secretString key true

/-! ## Resolution pipeline (`internal/provider`) -/

/-- `provider.SecretResult` (the `Values` map as an association list; a
hard failure carries `nil` values and keys, modelled as `[]`). -/
structure SecretResult where
  values : List (String × String)
  keys : List String
  error : Option String
  deriving DecidableEq

/-- Go map union, later map winning on key collisions (the assignment
loop of `SecretResult.Merge`). -/
def mergeValues (a b : List (String × String)) : List (String × String) :=
  a.filter (fun p => (b.lookup p.1).isNone) ++ b

/-- `provider.SecretResult.Merge`. -/
def mergeResults (r o : SecretResult) : SecretResult :=
  if r.error.isSome then r
  else if o.error.isSome then o
  else ⟨mergeValues r.values o.values, r.keys ++ o.keys, none⟩

/-- A backend's `GetSecrets` is built from the raw fetch
(`RetrieveSecret`, wrapping included, modelled as an opaque function) and
the key extraction of `GetSecretValue`, which rewraps "key not found"
errors (the AWS and Google Cloud providers differ only in the rewrap
text, abstracted as `rewrap`).  The run-scoped cache is dropped: with a
pure fetch a hit returns exactly what the fetch would. -/
def getSecrets (fetch : SecretURI → Except String String)
    (rewrap : SecretURI → String → String) (u : SecretURI) :
    Except String String :=
  match fetch u with
  | .error e => .error e
  | .ok v =>
    match parseValueResult v u.key with
    | .error e =>
      .error (if strContainsSub e "key not found" then rewrap u e else e)
    | .ok s => .ok s

/-- The AWS provider's "key does not exist" rewrap text
(`GetSecretValue` in the AWS provider). -/
def awsKeyRewrap (u : SecretURI) (e : String) : String :=
  "指定されたキー '" ++ u.key ++ "' がシークレット '" ++ u.secretName ++
    "' に存在しません: " ++ e

/-- The platform table: `provider.CreateProviderMap` keyed by platform
name; each provider is its `GetSecrets` function. -/
def Providers : Type := List (String × (SecretURI → Except String String))

/-- `provider.RetrieveSecretResult`. -/
def retrieveSecretResult (u : SecretURI) (provs : Providers) :
    Except String String :=
  match List.lookup u.platform provs with
  | none => .error ("unsupported platform '" ++ u.platform ++ "'")
  | some getS => getS u

/-- `provider.ParseEntryAsSecretURI`: the candidate text is the value when
both key and value are non-empty, else the key. -/
def parseEntryAsSecretURI (entry : Entry) : Except String SecretURI :=
  parseResult (if entry.key ≠ "" ∧ entry.value ≠ "" then entry.value else entry.key)

/-- `provider.DetermineEntryKey`. -/
def determineEntryKey (entry : Entry) : String :=
  if entry.key = "" ∨ entry.value = "" then "" else entry.key

/-- `provider.handleRegularEntry`. -/
def handleRegularEntry (entry : Entry) : List (String × String) :=
  if entry.key ≠ "" ∧ entry.value ≠ "" then [(entry.key, entry.value)]
  else [(entry.key, "")]

/-- `provider.DetermineFinalKey`. -/
def determineFinalKey (entryKey : String) (u : SecretURI) : String :=
  if entryKey ≠ "" then entryKey
  else if u.key ≠ "" then u.key
  else u.secretName

/-- `provider.ExtractKeys` (iteration order of the map is immaterial in
every modelled result; the association order is used). -/
def extractKeys (m : List (String × String)) : List String :=
  m.map Prod.fst

/-- `text.ParseJSONMapResult`: the secret parsed as a JSON object. -/
def parseJSONMap (s : String) : Option (List (String × JSON)) :=
  match parseJSON s with
  | some (.obj fs) => some fs
  | _ => none

/-- `provider.processJSONSecret`: one level of expansion,
`entryKey_member` keys, strings taken as-is, `null` as the empty string,
other values JSON-encoded; surrounding single quotes trimmed. -/
def processJSONSecret (entryKey : String) (_u : SecretURI)
    (jsonValues : List (String × JSON)) : List (String × String) :=
  jsonValues.map fun p =>
    let finalKey := if entryKey ≠ "" then entryKey ++ "_" ++ p.1 else p.1
    let stringValue := match p.2 with
      | .str s => s
      | .null => ""
      | v => marshalJSON v
    (finalKey, goTrimChar stringValue '\'')

/-- `provider.processPlainTextSecret`: optional re-extraction of the
requested key, then all surrounding single quotes trimmed. -/
def processPlainTextSecret (entryKey : String) (u : SecretURI)
    (secretValue : String) : List (String × String) :=
  let finalValue :=
    if u.key ≠ "" then
      match parseValueResult secretValue u.key with
      | .ok v => v
      | .error _ => secretValue
    else secretValue
  [(determineFinalKey entryKey u, goTrimChar finalValue '\'')]

/-- `provider.ProcessSecretWithOptions`. -/
def processSecretWithOptions (entryKey : String) (u : SecretURI)
    (secretValue : String) (noExpandJson : Bool) : List (String × String) :=
  match parseJSONMap secretValue with
  | some fields =>
    if !noExpandJson then processJSONSecret entryKey u fields
    else processPlainTextSecret entryKey u secretValue
  | none => processPlainTextSecret entryKey u secretValue

/-- `provider.ProcessEntryResultWithOptions`: classify, dispatch, expand
(the informational log of skipped entries is a side effect outside the
model). -/
def processEntryResultWithOptions (idx : Nat) (entry : Entry)
    (provs : Providers) (noExpandJson : Bool) : SecretResult :=
  match parseEntryAsSecretURI entry with
  | .error _ => ⟨handleRegularEntry entry, [entry.key], none⟩
  | .ok u =>
    match retrieveSecretResult u provs with
    | .error e =>
      if strStartsWith e "unsupported platform" then
        ⟨handleRegularEntry entry, [entry.key], none⟩
      else
        ⟨[], [], some ("failed to retrieve secret for line " ++ natRepr (idx + 1)
          ++ ": " ++ e)⟩
    | .ok secretValue =>
      let key := determineEntryKey entry
      let vals := processSecretWithOptions key u secretValue noExpandJson
      ⟨vals, extractKeys vals, none⟩

/-- The loop of `provider.ProcessEntriesResult`, carrying the absolute
entry position. -/
def processEntriesAux (provs : Providers) (noExpandJson : Bool) :
    Nat → SecretResult → List Entry → SecretResult
  | _, acc, [] => acc
  | i, acc, e :: rest =>
    let r := processEntryResultWithOptions i e provs noExpandJson
    if r.error.isSome then r
    else processEntriesAux provs noExpandJson (i + 1) (mergeResults acc r) rest

/-- `provider.ProcessEntriesResult` (the `NoExpandJson` option, read from
the first provider's shared config, is an explicit parameter). -/
def processEntriesResult (entries : List Entry) (provs : Providers)
    (noExpandJson : Bool) : SecretResult :=
  processEntriesAux provs noExpandJson 0 ⟨[], [], none⟩ entries

/-! ## Key ordering and formatting (`internal/env`, `internal/formatting`) -/

/-- `env.EnvVarOptions`. -/
structure EnvVarOptions where
  useQuotes : Bool
  sortedKeys : List String
  includeURIs : Bool
  noExpandJson : Bool

/-- `env.FormatResult`. -/
structure FormatResult where
  content : String
  warnings : List String
  deriving DecidableEq

/-- `formatting.FormatKeyValuePair`. -/
def formatKeyValuePair (key value : String) (useQuotes : Bool) : String :=
  if useQuotes then key ++ "='" ++ value ++ "'" else key ++ "=" ++ value

/-- `formatting.UnwrapQuotes`: strip one matching pair of surrounding
single or double quotes (byte length below 2 coincides with character
length below 2 here, a quote being a single byte). -/
def unwrapQuotes (value : String) : String :=
  if value.data.length < 2 then value
  else if (value.data.head? = some '"' && value.data.getLast? = some '"') ||
      (value.data.head? = some '\'' && value.data.getLast? = some '\'') then
    ⟨(value.data.drop 1).dropLast⟩
  else value

/-- `formatting.FormatValueForEnvResult`. -/
def formatValueForEnvResult (value : JSON) : Except String String :=
  match value with
  | .str s => .ok s
  | .num n => .ok (intRepr n)
  | .bool b => .ok (if b then "true" else "false")
  | v => .ok (marshalJSON v)

/-- `formatting.FormatJSONKeyValueResult`: composite `parent_key` name,
value unwrapped of one quote layer. -/
def formatJSONKeyValueResult (parentKey jsonKey : String) (jsonValue : JSON)
    (useQuotes : Bool) : Except String String :=
  match formatValueForEnvResult jsonValue with
  | .error e =>
    .error ("failed to format JSON value for key '" ++ jsonKey ++ "': " ++ e)
  | .ok vs =>
    .ok (formatKeyValuePair (parentKey ++ "_" ++ jsonKey) (unwrapQuotes vs) useQuotes)

/-- `env.IsSecretURI`. -/
def isSecretURI (key : String) : Bool :=
  strStartsWith key "sem://"

/-- `text.IsJSONObject` (syntactic check on the trimmed string). -/
def isJSONObjectStr (s : String) : Bool :=
  let t := (goTrimSpace s).data
  decide (2 ≤ t.length) && t.head? = some '{' && t.getLast? = some '}'

/-- `text.IsJSONArray`. -/
def isJSONArrayStr (s : String) : Bool :=
  let t := (goTrimSpace s).data
  decide (2 ≤ t.length) && t.head? = some '[' && t.getLast? = some ']'

/-- `text.IsJSONData`. -/
def isJSONData (s : String) : Bool :=
  isJSONObjectStr s || isJSONArrayStr s

/-- `text.CompactJSON`: reparse and re-serialise, or the original when it
is not JSON. -/
def compactJSON (s : String) : String :=
  match parseJSON s with
  | none => s
  | some j => marshalJSON j

mutual

/-- `env.processAnyJSONValue`: dispatch on the shape of the value. -/
def processAnyJSONValue (parentKey : String) (jsonData : JSON)
    (useQuotes : Bool) : Except String String :=
  match jsonData with
  | .obj fields =>
    match objMemberChunks parentKey fields useQuotes with
    | .error e => .error e
    | .ok chunks => .ok (joinSep "\n" ((isortFst chunks).map Prod.snd))
  | .arr elems =>
    match arrElemChunks parentKey 0 elems useQuotes with
    | .error e => .error e
    | .ok chunks => .ok (joinSep "\n" chunks)
  | v =>
    match formatValueForEnvResult v with
    | .error e => .error e
    | .ok vs => .ok (formatKeyValuePair parentKey vs useQuotes)

/-- The member loop of `env.processJSONObject`: each member's chunk keyed
by its name (the source sorts the keys first and then recurses; chunks are
computed first and sorted by raw member name after, keeping the recursion
structural — the two orders render identically, member chunks being
independent of their position). -/
def objMemberChunks (parentKey : String)
    (fields : List (String × JSON)) (useQuotes : Bool) :
    Except String (List (String × String)) :=
  match fields with
  | [] => .ok []
  | (k, v) :: rest =>
    let chunkE := match v with
      | .obj fs => processAnyJSONValue (parentKey ++ "_" ++ k) (.obj fs) useQuotes
      | .arr es => processAnyJSONValue (parentKey ++ "_" ++ k) (.arr es) useQuotes
      | leaf => formatJSONKeyValueResult parentKey k leaf useQuotes
    match chunkE with
    | .error e => .error e
    | .ok c =>
      match objMemberChunks parentKey rest useQuotes with
      | .error e => .error e
      | .ok cs => .ok ((k, c) :: cs)

/-- The element loop of `env.processJSONArray` (0-based `parent_index`
keys, leaf values unwrapped of one quote layer). -/
def arrElemChunks (parentKey : String) (i : Nat) (elems : List JSON)
    (useQuotes : Bool) : Except String (List String) :=
  match elems with
  | [] => .ok []
  | item :: rest =>
    let indexKey := parentKey ++ "_" ++ natRepr i
    let chunkE := match item with
      | .obj fs => processAnyJSONValue indexKey (.obj fs) useQuotes
      | .arr es => processAnyJSONValue indexKey (.arr es) useQuotes
      | leaf =>
        match formatValueForEnvResult leaf with
        | .error e =>
          .error ("failed to format array item at index " ++ natRepr i ++ ": " ++ e)
        | .ok vs => .ok (formatKeyValuePair indexKey (unwrapQuotes vs) useQuotes)
    match chunkE with
    | .error e => .error e
    | .ok c =>
      match arrElemChunks parentKey (i + 1) rest useQuotes with
      | .error e => .error e
      | .ok cs => .ok (c :: cs)

end

/-- `env.ProcessJSONValue`. -/
def processJSONValue (parentKey jsonString : String) (useQuotes : Bool) :
    Except String String :=
  match parseJSON jsonString with
  | none => .ok (formatKeyValuePair parentKey jsonString useQuotes)
  | some j => processAnyJSONValue parentKey j useQuotes

/-- `env.SortKeys`. -/
def sortKeys (values : List (String × String)) : List String :=
  isortStr (values.map Prod.fst)

/-- `env.MergeSortedKeys`: requested keys that exist, in request order,
then the remaining keys sorted. -/
def mergeSortedKeys (sortedKeys : List String)
    (values : List (String × String)) : List String :=
  let first := sortedKeys.filter (fun k => (values.lookup k).isSome)
  let remaining := isortStr ((values.map Prod.fst).filter (fun k => !first.contains k))
  first ++ remaining

/-- `env.FilterAndSortKeys`: the final order is always the full key set
sorted. -/
def filterAndSortKeys (values : List (String × String))
    (sortedKeys : List String) : List String :=
  if sortedKeys = [] then sortKeys values
  else isortStr (mergeSortedKeys sortedKeys values)

/-- The loop of `env.FormatEnvVarContent`: write a newline for every
iteration after the first, skip secret-URI keys (unless requested), expand
or compact JSON-shaped values, and format the rest as `key=value`
(or `key='value'`). -/
def formatEnvAux (values : List (String × String)) (opts : EnvVarOptions) :
    Nat → List String → String → List String → Except String (String × List String)
  | _, [], acc, warns => .ok (acc, warns)
  | i, key :: rest, acc, warns =>
    match values.lookup key with
    | none =>
      formatEnvAux values opts (i + 1) rest acc
        (warns ++ ["Key '" ++ key ++ "' not found in secret values"])
    | some value =>
      let acc := if i > 0 then acc ++ "\n" else acc
      if isSecretURI key && !opts.includeURIs then
        formatEnvAux values opts (i + 1) rest acc warns
      else
        let value := unwrapQuotes value
        if isJSONData value then
          if !opts.noExpandJson then
            match processJSONValue key value opts.useQuotes with
            | .error e => .error e
            | .ok chunk => formatEnvAux values opts (i + 1) rest (acc ++ chunk) warns
          else
            formatEnvAux values opts (i + 1) rest
              (acc ++ formatKeyValuePair key (compactJSON value) opts.useQuotes) warns
        else
          formatEnvAux values opts (i + 1) rest
            (acc ++ formatKeyValuePair key value opts.useQuotes) warns

/-- `env.FormatEnvVarContent`. -/
def formatEnvVarContent (values : List (String × String))
    (opts : EnvVarOptions) : Except String FormatResult :=
  match formatEnvAux values opts 0 (filterAndSortKeys values opts.sortedKeys) "" [] with
  | .error e => .error e
  | .ok p => .ok ⟨p.1, p.2⟩

/-! ## General lemmas: the string order and the insertion sorts -/

theorem charToNat_inj {x y : Char} (h : x.toNat = y.toNat) : x = y := by
  have h2 := congrArg Char.ofNat h
  rwa [Char.ofNat_toNat, Char.ofNat_toNat] at h2

theorem lexLe_refl (a : List Char) : lexLe a a = true := by
  induction a with
  | nil => rfl
  | cons x xs ih => simp [lexLe, ih]

theorem lexLe_total (a b : List Char) : lexLe a b = true ∨ lexLe b a = true := by
  induction a generalizing b with
  | nil => left; rfl
  | cons x xs ih =>
    cases b with
    | nil => right; rfl
    | cons y ys =>
      simp only [lexLe]
      rcases Nat.lt_trichotomy x.toNat y.toNat with h | h | h
      · left; simp [h]
      · simp only [h, Nat.lt_irrefl, if_false]
        exact ih ys
      · right; simp [h, Nat.not_lt.mpr (Nat.le_of_lt h)]

theorem lexLe_antisymm {a b : List Char} (hab : lexLe a b = true)
    (hba : lexLe b a = true) : a = b := by
  induction a generalizing b with
  | nil =>
    cases b with
    | nil => rfl
    | cons y ys => simp [lexLe] at hba
  | cons x xs ih =>
    cases b with
    | nil => simp [lexLe] at hab
    | cons y ys =>
      simp only [lexLe] at hab hba
      rcases Nat.lt_trichotomy x.toNat y.toNat with h | h | h
      · simp [h, Nat.not_lt.mpr (Nat.le_of_lt h)] at hba
      · have hx : x = y := charToNat_inj h
        subst hx
        simp only [Nat.lt_irrefl, if_false] at hab hba
        rw [ih hab hba]
      · simp [h, Nat.not_lt.mpr (Nat.le_of_lt h)] at hab

theorem lexLe_trans {a b c : List Char} (hab : lexLe a b = true)
    (hbc : lexLe b c = true) : lexLe a c = true := by
  induction a generalizing b c with
  | nil => rfl
  | cons x xs ih =>
    cases b with
    | nil => simp [lexLe] at hab
    | cons y ys =>
      cases c with
      | nil => simp [lexLe] at hbc
      | cons z zs =>
        simp only [lexLe] at hab hbc ⊢
        rcases Nat.lt_trichotomy x.toNat z.toNat with h | h | h
        · simp [h]
        · rcases Nat.lt_trichotomy x.toNat y.toNat with h1 | h1 | h1
          · rcases Nat.lt_trichotomy y.toNat z.toNat with h2 | h2 | h2
            · omega
            · omega
            · simp [h2, Nat.not_lt.mpr (Nat.le_of_lt h2)] at hbc
          · rcases Nat.lt_trichotomy y.toNat z.toNat with h2 | h2 | h2
            · omega
            · simp only [h, Nat.lt_irrefl, if_false]
              simp only [h1, Nat.lt_irrefl, if_false] at hab
              simp only [h2, Nat.lt_irrefl, if_false] at hbc
              exact ih hab hbc
            · omega
          · simp [h1, Nat.not_lt.mpr (Nat.le_of_lt h1)] at hab
        · rcases Nat.lt_trichotomy x.toNat y.toNat with h1 | h1 | h1
          · rcases Nat.lt_trichotomy y.toNat z.toNat with h2 | h2 | h2
            · omega
            · omega
            · simp [h2, Nat.not_lt.mpr (Nat.le_of_lt h2)] at hbc
          · rcases Nat.lt_trichotomy y.toNat z.toNat with h2 | h2 | h2
            · omega
            · omega
            · simp [h2, Nat.not_lt.mpr (Nat.le_of_lt h2)] at hbc
          · simp [h1, Nat.not_lt.mpr (Nat.le_of_lt h1)] at hab

/-- The propositional form of `strLe`, for `Sorted`. -/
def SLe (a b : String) : Prop := strLe a b = true

instance : IsAntisymm String SLe :=
  ⟨fun a b hab hba => by
    have h := lexLe_antisymm hab hba
    cases a; cases b
    exact congrArg String.mk (by simpa using h)⟩

theorem sle_total (a b : String) : SLe a b ∨ SLe b a := lexLe_total a.data b.data

theorem sle_trans {a b c : String} (hab : SLe a b) (hbc : SLe b c) : SLe a c :=
  lexLe_trans hab hbc

theorem insSorted_perm (x : String) (l : List String) :
    List.Perm (insSorted x l) (x :: l) := by
  induction l with
  | nil => simp [insSorted]
  | cons y ys ih =>
    simp only [insSorted]
    split
    · exact List.Perm.refl _
    · exact (List.Perm.cons y ih).trans (List.Perm.swap x y ys)

theorem isortStr_perm (l : List String) : List.Perm (isortStr l) l := by
  induction l with
  | nil => simp [isortStr]
  | cons x xs ih =>
    exact (insSorted_perm x (isortStr xs)).trans (List.Perm.cons x ih)

theorem insSorted_sorted {x : String} {l : List String}
    (h : l.Sorted SLe) : (insSorted x l).Sorted SLe := by
  induction l with
  | nil => simp [insSorted, List.Sorted]
  | cons y ys ih =>
    simp only [insSorted]
    rcases List.sorted_cons.mp h with ⟨hy, hys⟩
    split
    · rename_i hxy
      refine List.sorted_cons.mpr ⟨?_, h⟩
      intro b hb
      rcases List.mem_cons.mp hb with rfl | hb
      · exact hxy
      · exact sle_trans hxy (hy b hb)
    · rename_i hxy
      have hyx : SLe y x := (sle_total x y).resolve_left hxy
      refine List.sorted_cons.mpr ⟨?_, ih hys⟩
      intro b hb
      rcases List.mem_cons.mp ((insSorted_perm x ys).mem_iff.mp hb) with rfl | hb
      · exact hyx
      · exact hy b hb

theorem isortStr_sorted (l : List String) : (isortStr l).Sorted SLe := by
  induction l with
  | nil => simp [isortStr, List.Sorted]
  | cons x xs ih => exact insSorted_sorted ih

theorem isortStr_eq_of_perm {a b : List String} (h : List.Perm a b) :
    isortStr a = isortStr b :=
  List.eq_of_perm_of_sorted
    (((isortStr_perm a).trans h).trans (isortStr_perm b).symm)
    (isortStr_sorted a) (isortStr_sorted b)

/-- Transforming the second components (in a way that may read the key but
keeps it) commutes with the sort by first component. -/
theorem insSortedFst_map {β γ : Type} (g : String × β → γ) (x : String × β)
    (l : List (String × β)) :
    insSortedFst (x.1, g x) (l.map (fun p => (p.1, g p))) =
      (insSortedFst x l).map (fun p => (p.1, g p)) := by
  induction l with
  | nil => simp [insSortedFst]
  | cons y ys ih =>
    simp only [List.map_cons, insSortedFst]
    split
    · rename_i hle
      simp only [insSortedFst, hle, if_true, List.map_cons]
    · rename_i hle
      simp only [insSortedFst, hle, if_false, List.map_cons, ih]

theorem isortFst_map {β γ : Type} (g : String × β → γ) (l : List (String × β)) :
    isortFst (l.map (fun p => (p.1, g p))) =
      (isortFst l).map (fun p => (p.1, g p)) := by
  induction l with
  | nil => simp [isortFst]
  | cons x xs ih =>
    simp only [List.map_cons, isortFst, ih]
    exact insSortedFst_map g x (isortFst xs)

/-! ## General lemmas: association-list lookups under permutation -/

theorem lookup_isSome_iff_mem (values : List (String × String)) (k : String) :
    (values.lookup k).isSome = true ↔ k ∈ values.map Prod.fst := by
  induction values with
  | nil => simp [List.lookup]
  | cons p rest ih =>
    simp only [List.lookup, List.map_cons, List.mem_cons]
    by_cases h : k = p.1
    · simp [h]
    · have : (k == p.1) = false := by simpa using h
      simp [this, ih, h]

theorem lookup_eq_none_iff (values : List (String × String)) (k : String) :
    values.lookup k = none ↔ k ∉ values.map Prod.fst := by
  rw [← lookup_isSome_iff_mem]
  cases values.lookup k <;> simp

theorem lookup_eq_some_of_mem {values : List (String × String)}
    (hnd : (values.map Prod.fst).Nodup) {k v : String}
    (hm : (k, v) ∈ values) : values.lookup k = some v := by
  induction values with
  | nil => simp at hm
  | cons p rest ih =>
    simp only [List.map_cons, List.nodup_cons] at hnd
    rcases List.mem_cons.mp hm with rfl | hm2
    · simp [List.lookup]
    · have hk : k ≠ p.1 := by
        intro h
        exact hnd.1 (h ▸ (List.mem_map_of_mem Prod.fst hm2))
      have : (k == p.1) = false := by simpa using hk
      simp only [List.lookup, this]
      exact ih hnd.2 hm2

theorem mem_of_lookup_eq_some {values : List (String × String)} {k v : String}
    (h : values.lookup k = some v) : (k, v) ∈ values := by
  induction values with
  | nil => simp [List.lookup] at h
  | cons p rest ih =>
    by_cases hk : k = p.1
    · subst hk
      simp only [List.lookup, beq_self_eq_true] at h
      cases h
      exact List.mem_cons.mpr (Or.inl (by cases p; rfl))
    · have : (k == p.1) = false := by simpa using hk
      simp only [List.lookup, this] at h
      exact List.mem_cons.mpr (Or.inr (ih h))

theorem lookup_eq_of_perm {values values' : List (String × String)}
    (hperm : List.Perm values values') (hnd : (values.map Prod.fst).Nodup)
    (k : String) : values.lookup k = values'.lookup k := by
  cases h : values.lookup k with
  | some v =>
    exact (lookup_eq_some_of_mem (hperm.map Prod.fst |>.nodup_iff.mp hnd)
      (hperm.mem_iff.mp (mem_of_lookup_eq_some h))).symm
  | none =>
    have hnm := (lookup_eq_none_iff values k).mp h
    have : k ∉ values'.map Prod.fst := fun hm =>
      hnm ((hperm.map Prod.fst).mem_iff.mpr hm)
    exact ((lookup_eq_none_iff values' k).mpr this).symm

/-! ## General lemmas: splitting, prefixes, trimming, digits -/

theorem breakAtChar_spec {c : Char} {l a b : List Char}
    (h : breakAtChar c l = some (a, b)) : l = a ++ c :: b ∧ c ∉ a := by
  induction l generalizing a with
  | nil => simp [breakAtChar] at h
  | cons x xs ih =>
    simp only [breakAtChar] at h
    by_cases hx : x = c
    · simp only [hx, if_true, Option.some.injEq, Prod.mk.injEq] at h
      rcases h with ⟨rfl, rfl⟩
      simp [hx]
    · simp only [hx, if_false, Option.map_eq_some'] at h
      rcases h with ⟨⟨a', b'⟩, hab, heq⟩
      simp only [Prod.mk.injEq] at heq
      rcases heq with ⟨rfl, rfl⟩
      rcases ih hab with ⟨rfl, hna⟩
      refine ⟨rfl, ?_⟩
      intro hmem
      rcases List.mem_cons.mp hmem with h1 | h1
      · exact hx h1.symm
      · exact hna h1

theorem breakAtChar_build {c : Char} {a : List Char} (b : List Char)
    (hna : c ∉ a) : breakAtChar c (a ++ c :: b) = some (a, b) := by
  induction a with
  | nil => simp [breakAtChar]
  | cons x xs ih =>
    have hx : x ≠ c := fun h => hna (h ▸ List.mem_cons_self x xs)
    have hxs : c ∉ xs := fun h => hna (List.mem_cons_of_mem x h)
    have hr := ih hxs
    simp only [List.cons_append, breakAtChar, hx, if_false]
    show Option.map _ (breakAtChar c (xs ++ c :: b)) = _
    rw [hr]
    rfl

theorem breakAtChar_none {c : Char} {l : List Char}
    (hna : c ∉ l) : breakAtChar c l = none := by
  induction l with
  | nil => rfl
  | cons x xs ih =>
    have hx : x ≠ c := fun h => hna (h ▸ List.mem_cons_self x xs)
    simp only [breakAtChar, hx, if_false,
      ih (fun h => hna (List.mem_cons_of_mem x h)), Option.map_none']

theorem breakAtChar_isSome_of_mem {c : Char} {l : List Char}
    (h : c ∈ l) : (breakAtChar c l).isSome = true := by
  induction l with
  | nil => simp at h
  | cons x xs ih =>
    simp only [breakAtChar]
    by_cases hx : x = c
    · simp [hx]
    · rcases List.mem_cons.mp h with h1 | h2
      · exact absurd h1.symm hx
      · have := ih h2
        cases hb : breakAtChar c xs with
        | none => rw [hb] at this; simp at this
        | some p => simp [hx, hb]

theorem isPrefixOf_self_append (a t : List Char) :
    a.isPrefixOf (a ++ t) = true := by
  induction a with
  | nil => simp
  | cons x xs ih => simp [List.isPrefixOf, ih]

theorem isPrefixOf_false_of_head {p s : List Char} {pc sc : Char}
    (hp : p = pc :: p.tail) (hs : s = sc :: s.tail) (hne : pc ≠ sc) :
    p.isPrefixOf s = false := by
  rw [hp, hs]
  simp [List.isPrefixOf, hne]

theorem strStartsWith_append_self (p t : String) :
    strStartsWith ⟨p.data ++ t.data⟩ p = true := by
  simp only [strStartsWith]
  exact isPrefixOf_self_append p.data t.data

/-- `dropWhile` leaves a list whose head fails the predicate. -/
theorem dropWhile_head_false {p : Char → Bool} {l : List Char} {x : Char}
    {xs : List Char} (h : l.dropWhile p = x :: xs) : p x = false := by
  induction l with
  | nil => simp at h
  | cons y ys ih =>
    by_cases hy : p y
    · rw [List.dropWhile_cons_of_pos hy] at h
      exact ih h
    · rw [List.dropWhile_cons_of_neg hy] at h
      cases h
      simpa using hy

theorem dropWhile_append_last {p : Char → Bool} {a : Char}
    (h : p a = false) (Y : List Char) :
    ∃ t, (Y ++ [a]).dropWhile p = t ++ [a] := by
  induction Y with
  | nil => exact ⟨[], by simp [List.dropWhile, h]⟩
  | cons y ys ih =>
    by_cases hy : p y
    · rw [List.cons_append, List.dropWhile_cons_of_pos hy]
      exact ih
    · exact ⟨y :: ys, by rw [List.cons_append, List.dropWhile_cons_of_neg hy]⟩

/-- The head of a trimmed list fails the trim predicate. -/
theorem trimListBy_head_false {p : Char → Bool} {l : List Char} {x : Char}
    {xs : List Char} (h : trimListBy p l = x :: xs) : p x = false := by
  unfold trimListBy at h
  cases hA : l.dropWhile p with
  | nil => rw [hA] at h; simp at h
  | cons a as =>
    have hpa : p a = false := dropWhile_head_false hA
    rw [hA] at h
    have hrev : (a :: as).reverse = as.reverse ++ [a] := by simp
    rw [hrev] at h
    rcases dropWhile_append_last hpa as.reverse with ⟨t, ht⟩
    rw [ht] at h
    simp only [List.reverse_append, List.reverse_cons, List.reverse_nil,
      List.nil_append, List.cons_append] at h
    cases h
    exact hpa

theorem trimListBy_eq_nil_all {p : Char → Bool} {l : List Char}
    (h : trimListBy p l = []) : ∀ x ∈ l, p x = true := by
  unfold trimListBy at h
  have h2 : (l.dropWhile p).reverse.dropWhile p = [] := by
    cases hd : (l.dropWhile p).reverse.dropWhile p with
    | nil => rfl
    | cons y ys => rw [hd] at h; simp at h
  have h3 := List.dropWhile_eq_nil_iff.mp h2
  intro x hx
  rcases List.append_of_mem hx with ⟨s, t, rfl⟩
  by_cases hin : x ∈ (s ++ x :: t).dropWhile p
  · exact h3 x (by simpa using List.mem_reverse.mpr hin)
  · -- x was consumed by the first dropWhile, so the prefix up to x satisfies p
    have := List.takeWhile_append_dropWhile (p := p) (l := s ++ x :: t)
    by_cases hxtake : x ∈ (s ++ x :: t).takeWhile p
    · exact List.mem_takeWhile_imp hxtake
    · exfalso
      have hmem : x ∈ (s ++ x :: t).takeWhile p ++ (s ++ x :: t).dropWhile p := by
        rw [this]; exact hx
      rcases List.mem_append.mp hmem with h4 | h4
      · exact hxtake h4
      · exact hin h4

theorem charOfNat_toNat {n : Nat} (h : n < 55296) : (Char.ofNat n).toNat = n := by
  unfold Char.ofNat
  rw [dif_pos]
  · rfl
  · exact Or.inl (by omega)

theorem digitChar_toNat {n : Nat} (h : n < 10) :
    (digitChar n).toNat = 48 + n := by
  unfold digitChar
  exact charOfNat_toNat (by omega)

/-- All characters produced by `natReprAux` are decimal digits, and the
result is nonempty when the fuel exceeds the number. -/
theorem natReprAux_digits :
    ∀ fuel n, n + 1 ≤ fuel →
      ∃ c cs, natReprAux fuel n = c :: cs ∧
        ∀ d ∈ natReprAux fuel n, 48 ≤ d.toNat ∧ d.toNat ≤ 57 := by
  intro fuel
  induction fuel with
  | zero => intro n h; omega
  | succ f ih =>
    intro n hn
    by_cases h10 : n < 10
    · refine ⟨digitChar n, [], by simp [natReprAux, h10], ?_⟩
      intro d hd
      simp only [natReprAux, h10, if_true, List.mem_singleton] at hd
      subst hd
      rw [digitChar_toNat h10]
      omega
    · have hdiv : n / 10 + 1 ≤ f := by
        have : n / 10 < n := Nat.div_lt_self (by omega) (by omega)
        omega
      rcases ih (n / 10) hdiv with ⟨c, cs, hcons, hall⟩
      refine ⟨c, cs ++ [digitChar (n % 10)], ?_, ?_⟩
      · simp [natReprAux, h10, hcons]
      · intro d hd
        simp only [natReprAux, h10, if_false, List.mem_append,
          List.mem_singleton] at hd
        rcases hd with hd | hd
        · exact hall d hd
        · subst hd
          rw [digitChar_toNat (Nat.mod_lt n (by omega))]
          omega

/-- The rendered form of a natural number starts with a digit. -/
theorem natRepr_head (n : Nat) :
    ∃ c cs, (natRepr n).data = c :: cs ∧ 48 ≤ c.toNat ∧ c.toNat ≤ 57 := by
  rcases natReprAux_digits (n + 1) n (Nat.le_refl _) with ⟨c, cs, hcons, hall⟩
  exact ⟨c, cs, by simpa [natRepr] using hcons,
    (hall c (hcons ▸ List.mem_cons_self c cs)).1,
    (hall c (hcons ▸ List.mem_cons_self c cs)).2⟩

/-- The rendered form of an integer starts with a digit or a minus sign;
in particular it never starts (or ends) with a quote character. -/
theorem intRepr_head (n : Int) :
    ∃ c cs, (intRepr n).data = c :: cs ∧
      ((48 ≤ c.toNat ∧ c.toNat ≤ 57) ∨ c = '-') := by
  cases n with
  | ofNat m =>
    rcases natRepr_head m with ⟨c, cs, h, h1, h2⟩
    exact ⟨c, cs, by simpa [intRepr] using h, Or.inl ⟨h1, h2⟩⟩
  | negSucc m =>
    refine ⟨'-', (natRepr (m + 1)).data, ?_, Or.inr rfl⟩
    show (("-" : String) ++ natRepr (m + 1)).data = _
    rw [String.data_append]
    rfl

/-! ## C9: array index navigation -/

theorem navigatePath_arr_single_err {xs : List JSON} {seg : String} {e : String}
    (h : parseIndex seg xs.length = .error e) :
    navigatePath (.arr xs) [seg] =
      .error ("at path position " ++ natRepr 0 ++ ": " ++ e) := by
  simp only [navigatePath, navigatePathAux, h]

theorem navigatePath_arr_single_ok {xs : List JSON} {seg : String} {idx : Int}
    (h : parseIndex seg xs.length = .ok idx) :
    navigatePath (.arr xs) [seg] =
      if idx < 0 ∨ (xs.length : Int) ≤ idx then
        .error ("array index " ++ intRepr idx ++ " out of bounds at path position "
          ++ natRepr 0)
      else .ok (xs.getD idx.toNat .null) := by
  simp only [navigatePath, navigatePathAux, h]

/-- C9: for a JSON array of length `L` addressed by one path segment: the
bare segment `-` and the segment `-1` both resolve to the last element
whenever `L > 0` and fail when `L = 0`; a negative integer segment `-N`
(one that starts with `-` and whose `Atoi` value is `-N`) resolves to
element `L - N` exactly when `0 < N ≤ L` and fails otherwise; a
non-negative integer segment `N` resolves to element `N` exactly when
`N < L` and fails otherwise; and a non-numeric segment (other than the
bare `-`) fails. -/
theorem c9_array_index_navigation (xs : List JSON) :
    (0 < xs.length →
      navigatePath (.arr xs) ["-"] = .ok (xs.getD (xs.length - 1) .null) ∧
      navigatePath (.arr xs) ["-1"] = .ok (xs.getD (xs.length - 1) .null)) ∧
    (xs.length = 0 →
      (navigatePath (.arr xs) ["-"]).isOk = false ∧
      (navigatePath (.arr xs) ["-1"]).isOk = false) ∧
    (∀ seg : String, ∀ N : Nat, strStartsWith seg "-" = true → seg ≠ "-" →
      goAtoi seg.data = some (-(N : Int)) →
      (0 < N ∧ N ≤ xs.length →
        navigatePath (.arr xs) [seg] = .ok (xs.getD (xs.length - N) .null)) ∧
      (N = 0 ∨ xs.length < N → (navigatePath (.arr xs) [seg]).isOk = false)) ∧
    (∀ seg : String, ∀ N : Nat, strStartsWith seg "-" = false →
      goAtoi seg.data = some (N : Int) →
      (N < xs.length → navigatePath (.arr xs) [seg] = .ok (xs.getD N .null)) ∧
      (xs.length ≤ N → (navigatePath (.arr xs) [seg]).isOk = false)) ∧
    (∀ seg : String, seg ≠ "-" → goAtoi seg.data = none →
      (navigatePath (.arr xs) [seg]).isOk = false) := by
  have hpMinus : parseIndex "-" xs.length = .ok ((xs.length : Int) - 1) := rfl
  have hpM1 : parseIndex "-1" xs.length =
      if -(-1 : Int) ≤ (xs.length : Int) then .ok ((xs.length : Int) + -1)
      else .error ("negative index " ++ intRepr (-1) ++ " out of bounds") := rfl
  refine ⟨?_, ?_, ?_, ?_, ?_⟩
  · intro hL
    constructor
    · rw [navigatePath_arr_single_ok hpMinus, if_neg (by omega)]
      have ht : ((xs.length : Int) - 1).toNat = xs.length - 1 := by omega
      rw [ht]
    · have hp2 : parseIndex "-1" xs.length = .ok ((xs.length : Int) + -1) := by
        rw [hpM1, if_pos (by omega)]
      rw [navigatePath_arr_single_ok hp2, if_neg (by omega)]
      have ht : ((xs.length : Int) + -1).toNat = xs.length - 1 := by omega
      rw [ht]
  · intro hL
    constructor
    · rw [navigatePath_arr_single_ok hpMinus, if_pos (by omega)]
      rfl
    · have hp2 : parseIndex "-1" xs.length =
          .error ("negative index " ++ intRepr (-1) ++ " out of bounds") := by
        rw [hpM1, if_neg (by omega)]
      rw [navigatePath_arr_single_err hp2]
      rfl
  · intro seg N hpre hne ha
    have hp : parseIndex seg xs.length =
        if -(-(N : Int)) ≤ (xs.length : Int) then .ok ((xs.length : Int) + -(N : Int))
        else .error ("negative index " ++ intRepr (-(N : Int)) ++ " out of bounds") := by
      unfold parseIndex
      rw [if_pos hpre, if_neg hne, ha]
    constructor
    · intro hNL
      rw [if_pos (by omega)] at hp
      rw [navigatePath_arr_single_ok hp, if_neg (by omega)]
      have ht : ((xs.length : Int) + -(N : Int)).toNat = xs.length - N := by omega
      rw [ht]
    · intro hbad
      rcases hbad with h0 | hgt
      · subst h0
        rw [if_pos (by omega)] at hp
        rw [navigatePath_arr_single_ok hp, if_pos (by omega)]
        rfl
      · rw [if_neg (by omega)] at hp
        rw [navigatePath_arr_single_err hp]
        rfl
  · intro seg N hpre ha
    have hp : parseIndex seg xs.length =
        if (xs.length : Int) ≤ (N : Int) then
          .error ("index " ++ intRepr (N : Int) ++ " out of bounds")
        else .ok (N : Int) := by
      unfold parseIndex
      rw [if_neg (by simp [hpre]), ha]
    constructor
    · intro hlt
      rw [if_neg (by omega)] at hp
      rw [navigatePath_arr_single_ok hp, if_neg (by omega)]
      have ht : ((N : Int)).toNat = N := by omega
      rw [ht]
    · intro hge
      rw [if_pos (by omega)] at hp
      rw [navigatePath_arr_single_err hp]
      rfl
  · intro seg hne ha
    by_cases hpre : strStartsWith seg "-" = true
    · have hp : parseIndex seg xs.length = .error ("invalid array index: " ++ seg) := by
        unfold parseIndex
        rw [if_pos hpre, if_neg hne, ha]
      rw [navigatePath_arr_single_err hp]
      rfl
    · have hp : parseIndex seg xs.length = .error ("invalid array index: " ++ seg) := by
        unfold parseIndex
        rw [if_neg hpre, ha]
      rw [navigatePath_arr_single_err hp]
      rfl

/-- C9 witness: the theorem applied to the concrete array `[5, 6, 7]` and
the segment `"-2"`, which resolves to element `3 - 2 = 1`, the value `6`. -/
theorem c9_array_index_navigation_witness :
    navigatePath (.arr [.num 5, .num 6, .num 7]) ["-2"] = .ok (.num 6) := by
  have h := ((c9_array_index_navigation [.num 5, .num 6, .num 7]).2.2.1
    "-2" 2 (by rfl) (by decide) (by rfl)).1 (by constructor <;> decide)
  exact h.trans (by rfl)

/-! ## C1: hard errors abort the whole resolution at the first offending
entry -/

theorem mergeResults_error_none {a b : SecretResult} (ha : a.error = none)
    (hb : b.error = none) : (mergeResults a b).error = none := by
  simp [mergeResults, ha, hb]

/-- The resolution loop stops at the first entry whose per-entry result is
an error and returns that result unchanged. -/
theorem processEntriesAux_first_error (provs : Providers) (ne : Bool) :
    ∀ (entries : List Entry) (j start : Nat) (acc : SecretResult),
      acc.error = none →
      j < entries.length →
      (∀ i, i < j →
        (processEntryResultWithOptions (start + i) (entries.getD i ⟨0, "", ""⟩)
          provs ne).error = none) →
      (processEntryResultWithOptions (start + j) (entries.getD j ⟨0, "", ""⟩)
        provs ne).error.isSome →
      processEntriesAux provs ne start acc entries =
        processEntryResultWithOptions (start + j) (entries.getD j ⟨0, "", ""⟩)
          provs ne := by
  intro entries
  induction entries with
  | nil => intro j start acc _ hj; simp at hj
  | cons e rest ih =>
    intro j start acc hacc hj hpre hfail
    cases j with
    | zero =>
      simp only [List.getD_cons_zero, Nat.add_zero] at hfail ⊢
      simp only [processEntriesAux]
      rw [if_pos hfail]
    | succ j' =>
      have h0 := hpre 0 (Nat.succ_pos j')
      simp only [List.getD_cons_zero, Nat.add_zero] at h0
      simp only [processEntriesAux, h0, Option.isSome_none, Bool.false_eq_true,
        if_false]
      have hacc' : (mergeResults acc
          (processEntryResultWithOptions start e provs ne)).error = none :=
        mergeResults_error_none hacc h0
      have hres := ih j' (start + 1) _ hacc' (by simpa using hj)
        (fun i hi => by
          have := hpre (i + 1) (Nat.succ_lt_succ hi)
          simpa [Nat.add_assoc, Nat.add_comm 1 i] using this)
        (by
          have := hfail
          simpa [Nat.add_assoc, Nat.add_comm 1 j'] using this)
      rw [hres]
      congr 1
      omega

/-- C1 (amended): if every entry before position `j` resolves without a
hard error and entry `j`'s provider dispatch fails with any error other
than an unsupported platform, the whole resolution returns exactly that
failure: no values at all (also none from earlier entries) and an error
message carrying the 1-based position `j + 1` of the entry in the entry
list passed to the resolver — which equals the input-file line number only
when no blank or comment lines preceded it. -/
theorem c1_first_hard_error_aborts (entries : List Entry) (provs : Providers)
    (ne : Bool) (j : Nat) (u : SecretURI) (cause : String)
    (hj : j < entries.length)
    (hpre : ∀ i, i < j →
      (processEntryResultWithOptions i (entries.getD i ⟨0, "", ""⟩) provs ne).error
        = none)
    (hparse : parseEntryAsSecretURI (entries.getD j ⟨0, "", ""⟩) = .ok u)
    (hfetch : retrieveSecretResult u provs = .error cause)
    (hhard : strStartsWith cause "unsupported platform" = false) :
    processEntriesResult entries provs ne =
      ⟨[], [], some ("failed to retrieve secret for line " ++ natRepr (j + 1)
        ++ ": " ++ cause)⟩ := by
  have hentry : processEntryResultWithOptions j (entries.getD j ⟨0, "", ""⟩)
      provs ne =
      ⟨[], [], some ("failed to retrieve secret for line " ++ natRepr (j + 1)
        ++ ": " ++ cause)⟩ := by
    unfold processEntryResultWithOptions
    rw [hparse]
    simp only [hfetch, hhard, Bool.false_eq_true, if_false]
  have h2 := processEntriesAux_first_error provs ne entries j 0 ⟨[], [], none⟩
    rfl hj (fun i hi => by rw [Nat.zero_add]; exact hpre i hi)
    (by rw [Nat.zero_add, hentry]; rfl)
  rw [Nat.zero_add] at h2
  unfold processEntriesResult
  rw [h2, hentry]

/-- C1 counterexample to the claim as stated: the input file
`"# c\n\nA=sem://aws:sm/acc/n"` yields a single entry recorded with its
originating line number 3, but a failing fetch for it is reported as
`line 1` — the entry's position in the filtered entry list — not `line 3`. -/
theorem c1_line_number_counterexample :
    parsePlainFileContentResult "# c\n\nA=sem://aws:sm/acc/n" =
      .ok [⟨3, "A", "sem://aws:sm/acc/n"⟩] ∧
    processEntriesResult [⟨3, "A", "sem://aws:sm/acc/n"⟩]
      [("aws", getSecrets (fun _ => .error "boom") awsKeyRewrap)] false =
      ⟨[], [], some "failed to retrieve secret for line 1: boom"⟩ ∧
    "failed to retrieve secret for line 1: boom" ≠
      "failed to retrieve secret for line 3: boom" := by
  refine ⟨by rfl, by rfl, by decide⟩

/-- C1 witness: the amended theorem applied to a one-entry list whose
fetch fails with `"boom"`. -/
theorem c1_first_hard_error_aborts_witness :
    processEntriesResult [⟨3, "A", "sem://aws:sm/acc/n"⟩]
      [("aws", getSecrets (fun _ => .error "boom") awsKeyRewrap)] false =
      ⟨[], [], some ("failed to retrieve secret for line " ++ natRepr 1
        ++ ": " ++ "boom")⟩ := by
  exact c1_first_hard_error_aborts [⟨3, "A", "sem://aws:sm/acc/n"⟩]
    [("aws", getSecrets (fun _ => .error "boom") awsKeyRewrap)] false 0
    { platform := "aws", service := "sm", account := "acc", secretName := "n",
      version := "AWSCURRENT", region := "ap-northeast-1" } "boom"
    (by decide) (fun i hi => absurd hi (by omega)) (by rfl) (by rfl) (by rfl)

/-! ## C10: an empty raw secret value is a hard error -/

/-- C10: when the entry at position `j` dispatches to a registered backend
whose raw fetch returns the empty string, the run fails with the
`secret value is empty` error at that entry: the whole resolution aborts
with no output values, so an empty secret is never emitted as a variable
with an empty value — whether or not a specific key was requested, and
for any expansion setting. -/
theorem c10_empty_secret_hard_error (entries : List Entry) (provs : Providers)
    (ne : Bool) (j : Nat) (u : SecretURI)
    (fetch : SecretURI → Except String String)
    (rw : SecretURI → String → String)
    (hj : j < entries.length)
    (hpre : ∀ i, i < j →
      (processEntryResultWithOptions i (entries.getD i ⟨0, "", ""⟩) provs ne).error
        = none)
    (hparse : parseEntryAsSecretURI (entries.getD j ⟨0, "", ""⟩) = .ok u)
    (hprov : List.lookup u.platform provs = some (getSecrets fetch rw))
    (hfetch : fetch u = .ok "") :
    processEntriesResult entries provs ne =
      ⟨[], [], some ("failed to retrieve secret for line " ++ natRepr (j + 1)
        ++ ": secret value is empty")⟩ := by
  have hpv : parseValueResult "" u.key = .error "secret value is empty" := by
    unfold parseValueResult parseValueWithOptionsResult
    rw [if_pos rfl]
  have hret : retrieveSecretResult u provs = .error "secret value is empty" := by
    simp only [retrieveSecretResult, hprov, getSecrets, hfetch, hpv]
    rw [if_neg (by decide)]
  have hentry : processEntryResultWithOptions j (entries.getD j ⟨0, "", ""⟩)
      provs ne =
      ⟨[], [], some ("failed to retrieve secret for line " ++ natRepr (j + 1)
        ++ ": secret value is empty")⟩ := by
    unfold processEntryResultWithOptions
    rw [hparse]
    simp only [hret]
    rw [if_neg (by decide)]
    rw [String.append_assoc]
    rfl
  have h2 := processEntriesAux_first_error provs ne entries j 0 ⟨[], [], none⟩
    rfl hj (fun i hi => by rw [Nat.zero_add]; exact hpre i hi)
    (by rw [Nat.zero_add, hentry]; rfl)
  rw [Nat.zero_add] at h2
  unfold processEntriesResult
  rw [h2, hentry]

/-- C10 witness: a single entry fetching an empty secret, with a key
requested and with no key requested; both abort with the
`secret value is empty` message. -/
theorem c10_empty_secret_hard_error_witness :
    processEntriesResult [⟨1, "A", "sem://aws:sm/acc/n"⟩]
      [("aws", getSecrets (fun _ => .ok "") awsKeyRewrap)] false =
      ⟨[], [], some ("failed to retrieve secret for line " ++ natRepr 1
        ++ ": secret value is empty")⟩ ∧
    processEntriesResult [⟨1, "A", "sem://aws:sm/acc/n?key=k"⟩]
      [("aws", getSecrets (fun _ => .ok "") awsKeyRewrap)] false =
      ⟨[], [], some ("failed to retrieve secret for line " ++ natRepr 1
        ++ ": secret value is empty")⟩ := by
  constructor
  · exact c10_empty_secret_hard_error [⟨1, "A", "sem://aws:sm/acc/n"⟩]
      [("aws", getSecrets (fun _ => .ok "") awsKeyRewrap)] false 0
      { platform := "aws", service := "sm", account := "acc", secretName := "n",
        version := "AWSCURRENT", region := "ap-northeast-1" }
      (fun _ => .ok "") awsKeyRewrap (by decide)
      (fun i hi => absurd hi (by omega)) (by rfl) (by rfl) (by rfl)
  · exact c10_empty_secret_hard_error [⟨1, "A", "sem://aws:sm/acc/n?key=k"⟩]
      [("aws", getSecrets (fun _ => .ok "") awsKeyRewrap)] false 0
      { platform := "aws", service := "sm", account := "acc", secretName := "n",
        key := "k", version := "AWSCURRENT", region := "ap-northeast-1" }
      (fun _ => .ok "") awsKeyRewrap (by decide)
      (fun i hi => absurd hi (by omega)) (by rfl) (by rfl) (by rfl)

/-! ## C4: address-parse and backend-lookup failures fall back to a
literal entry -/

theorem strStartsWith_of_data_append {s p : String} {t : List Char}
    (h : s.data = p.data ++ t) : strStartsWith s p = true := by
  unfold strStartsWith
  rw [h]
  exact isPrefixOf_self_append _ _

theorem unsupported_platform_msg_starts (pl : String) :
    strStartsWith ("unsupported platform '" ++ pl ++ "'")
      "unsupported platform" = true := by
  apply strStartsWith_of_data_append
  show (("unsupported platform '" ++ pl) ++ "'").data = _
  rw [String.data_append, String.data_append]
  have h1 : ("unsupported platform '" : String).data =
      ("unsupported platform" : String).data ++ [' ', '\''] := by rfl
  rw [h1, List.append_assoc, List.append_assoc]

/-- C4 (amended): an entry whose candidate URI text fails to parse as a
secret address, or whose parsed platform has no registered backend, does
not fail: it is emitted as the literal pair `{key: value}` when both its
key and value are non-empty, else as `{key: ""}` (in particular an entry
with an empty key and non-empty value is emitted as `{"": ""}`, not
`{"": value}`), and processing continues with the remaining entries; the
lone malformed line `not-a-valid-sem-uri` is classified KeyOnly and
appears in the output as `not-a-valid-sem-uri=` with an empty value. -/
theorem c4_soft_fallback_literal :
    (∀ (idx : Nat) (entry : Entry) (provs : Providers) (ne : Bool),
      ((∃ m, parseEntryAsSecretURI entry = .error m) ∨
        (∃ u, parseEntryAsSecretURI entry = .ok u ∧
          List.lookup u.platform provs = none)) →
      processEntryResultWithOptions idx entry provs ne =
        ⟨if entry.key ≠ "" ∧ entry.value ≠ "" then [(entry.key, entry.value)]
          else [(entry.key, "")], [entry.key], none⟩ ∧
      ∀ (i : Nat) (acc : SecretResult) (rest : List Entry), acc.error = none →
        processEntriesAux provs ne i acc (entry :: rest) =
          processEntriesAux provs ne (i + 1)
            (mergeResults acc
              ⟨if entry.key ≠ "" ∧ entry.value ≠ "" then [(entry.key, entry.value)]
                else [(entry.key, "")], [entry.key], none⟩) rest) ∧
    (classifyLine (goTrimSpace "not-a-valid-sem-uri") = .keyOnlyLine ∧
      parsePlainFileContentResult "not-a-valid-sem-uri" =
        .ok [⟨1, "not-a-valid-sem-uri", ""⟩] ∧
      (∀ (provs : Providers) (ne : Bool),
        processEntryResultWithOptions 0 ⟨1, "not-a-valid-sem-uri", ""⟩ provs ne =
          ⟨[("not-a-valid-sem-uri", "")], ["not-a-valid-sem-uri"], none⟩) ∧
      formatKeyValuePair "not-a-valid-sem-uri" "" false = "not-a-valid-sem-uri=") := by
  have hmain : ∀ (idx : Nat) (entry : Entry) (provs : Providers) (ne : Bool),
      ((∃ m, parseEntryAsSecretURI entry = .error m) ∨
        (∃ u, parseEntryAsSecretURI entry = .ok u ∧
          List.lookup u.platform provs = none)) →
      processEntryResultWithOptions idx entry provs ne =
        ⟨if entry.key ≠ "" ∧ entry.value ≠ "" then [(entry.key, entry.value)]
          else [(entry.key, "")], [entry.key], none⟩ := by
    intro idx entry provs ne hsoft
    rcases hsoft with ⟨m, hm⟩ | ⟨u, hu, hlk⟩
    · unfold processEntryResultWithOptions
      rw [hm]
      unfold handleRegularEntry
      rfl
    · unfold processEntryResultWithOptions
      rw [hu]
      have hret : retrieveSecretResult u provs =
          .error ("unsupported platform '" ++ u.platform ++ "'") := by
        unfold retrieveSecretResult
        rw [hlk]
      simp only [hret, unsupported_platform_msg_starts, if_true]
      unfold handleRegularEntry
      rfl
  refine ⟨fun idx entry provs ne hsoft => ⟨hmain idx entry provs ne hsoft, ?_⟩,
    by rfl, by rfl, fun provs ne => ?_, by rfl⟩
  · intro i acc rest hacc
    have h := hmain i entry provs ne hsoft
    simp only [processEntriesAux, h, Option.isSome_none, Bool.false_eq_true,
      if_false]
  · have h := hmain 0 ⟨1, "not-a-valid-sem-uri", ""⟩ provs ne
      (Or.inl ⟨"invalid URI: must start with 'sem://'", by rfl⟩)
    simpa using h

/-- C4 counterexample to the claim as stated: an entry with empty key and
non-empty value (produced, e.g., by the input line `"=v"`) falls back to
the literal pair `{"": ""}`, not `{key: value}` = `{"": "v"}` as the claim
prescribes for an entry whose value is non-empty. -/
theorem c4_empty_key_counterexample :
    parsePlainFileContentResult "=v" = .ok [⟨1, "", "v"⟩] ∧
    processEntryResultWithOptions 0 ⟨1, "", "v"⟩ [] false =
      ⟨[("", "")], [""], none⟩ ∧
    [(("" : String), ("" : String))] ≠ [(("" : String), ("v" : String))] := by
  exact ⟨by rfl, by rfl, by decide⟩

/-- C4 witness: the amended theorem applied to a KeyOnly entry with no
registered providers. -/
theorem c4_soft_fallback_literal_witness :
    processEntryResultWithOptions 0 ⟨1, "K", ""⟩ [] false =
      ⟨[("K", "")], ["K"], none⟩ := by
  have h := (c4_soft_fallback_literal.1 0 ⟨1, "K", ""⟩ [] false
    (Or.inl ⟨"invalid URI: must start with 'sem://'", by rfl⟩)).1
  exact h.trans (by rfl)

/-! ## C7: which entries the whole-file parser passes on -/

theorem combineAux_ok_mem :
    ∀ (rs : List (Except String Entry)) (i : Nat) (es : List Entry),
      combineAux i rs = .ok es → ∀ e ∈ es, .ok e ∈ rs := by
  intro rs
  induction rs with
  | nil =>
    intro i es h e he
    simp only [combineAux] at h
    cases h
    simp at he
  | cons r rest ih =>
    intro i es h e he
    cases r with
    | error m => simp [combineAux] at h
    | ok x =>
      simp only [combineAux] at h
      cases htl : combineAux (i + 1) rest with
      | error m => rw [htl] at h; simp [Except.map] at h
      | ok tl =>
        rw [htl] at h
        simp only [Except.map, Except.ok.injEq] at h
        subst h
        rcases List.mem_cons.mp he with rfl | he2
        · exact List.mem_cons_self _ _
        · exact List.mem_cons_of_mem _ (ih (i + 1) tl htl e he2)

theorem mem_numberLines :
    ∀ (lines : List String) (k : Nat) (line : Line), line ∈ numberLines k lines →
      ∃ raw ∈ lines, ∃ m, line = newLine raw m ∧ k + 1 ≤ m := by
  intro lines
  induction lines with
  | nil => intro k line h; simp [numberLines] at h
  | cons s rest ih =>
    intro k line h
    simp only [numberLines] at h
    rcases List.mem_cons.mp h with rfl | h2
    · exact ⟨s, List.mem_cons_self s rest, k + 1, rfl, Nat.le_refl _⟩
    · rcases ih (k + 1) line h2 with ⟨raw, hraw, m, hm, hk⟩
      exact ⟨raw, List.mem_cons_of_mem s hraw, m, hm, by omega⟩

/-- Shape of any entry produced from a numbered line: the index is the
(positive) line number, and a double-empty entry arises only from a line
whose trimmed form is exactly `=`. -/
theorem toEnvEntry_shape (s : String) (n : Nat) (e : Entry) (hn : 1 ≤ n)
    (h : toEnvEntry (newLine s n) = .ok e) (hz : e ≠ ⟨0, "", ""⟩) :
    1 ≤ e.index ∧ ((e.key = "" ∧ e.value = "") → goTrimSpace s = "=") := by
  simp only [newLine, toEnvEntry] at h
  cases hc : classifyLine (goTrimSpace s) with
  | emptyLine =>
    simp only [hc, Except.ok.injEq] at h
    exact absurd h.symm hz
  | commentLine =>
    simp only [hc, Except.ok.injEq] at h
    exact absurd h.symm hz
  | secretURILine =>
    simp only [hc, Except.ok.injEq] at h
    subst h
    refine ⟨hn, fun ⟨hk, _⟩ => ?_⟩
    have hk2 : goTrimSpace s = "" := hk
    rw [hk2] at hc
    simp [classifyLine] at hc
  | keyOnlyLine =>
    simp only [hc, Except.ok.injEq] at h
    subst h
    refine ⟨hn, fun ⟨hk, _⟩ => ?_⟩
    have hk2 : goTrimSpace s = "" := hk
    rw [hk2] at hc
    simp [classifyLine] at hc
  | keyValueLine =>
    simp only [hc, parseKeyValueLine] at h
    cases hb : breakAtChar '=' (goTrimSpace s).data with
    | none => rw [hb] at h; simp at h
    | some p =>
      rcases p with ⟨pre, post⟩
      rw [hb] at h
      simp only [Except.ok.injEq] at h
      subst h
      refine ⟨hn, fun ⟨hk, hv⟩ => ?_⟩
      have hpost : post = [] := congrArg String.data hv
      have hpre0 : trimListBy goIsSpace pre = [] := congrArg String.data hk
      have hall := trimListBy_eq_nil_all hpre0
      rcases breakAtChar_spec hb with ⟨hdec, _⟩
      have hpre_nil : pre = [] := by
        cases hpre : pre with
        | nil => rfl
        | cons c pre' =>
          rw [hpre] at hdec
          have hhead : goIsSpace c = false :=
            trimListBy_head_false (show trimListBy goIsSpace s.data = c :: _ from hdec)
          have : goIsSpace c = true := hall c (hpre ▸ List.mem_cons_self c pre')
          rw [this] at hhead
          cases hhead
      rw [hpre_nil, hpost] at hdec
      show goTrimSpace s = "="
      have : (goTrimSpace s).data = ['='] := by simpa using hdec
      cases hgs : goTrimSpace s
      rw [hgs] at this
      simpa using congrArg String.mk this

/-- C7 (amended): every Entry that the whole-file parser passes on to the
resolver carries a positive line index; one with both `key = ""` and
`value = ""` can reach the resolver, but only from an input line whose
trimmed content is exactly `=` (blank and comment lines produce the
zero-valued Entry, which is discarded). -/
theorem c7_passed_entry_shape (content : String) (entries : List Entry)
    (h : parsePlainFileContentResult content = .ok entries) :
    ∀ e ∈ entries, 1 ≤ e.index ∧ ((e.key = "" ∧ e.value = "") →
      ∃ raw ∈ goScanLines (preprocessContent content), goTrimSpace raw = "=") := by
  intro e he
  unfold parsePlainFileContentResult combineEntryResults at h
  cases hca : combineAux 0
      ((numberLines 0 (goScanLines (preprocessContent content))).map toEnvEntry) with
  | error m => rw [hca] at h; simp [Except.map] at h
  | ok es =>
    rw [hca] at h
    simp only [Except.map, Except.ok.injEq] at h
    subst h
    have hmem := List.mem_filter.mp he
    have hz : e ≠ ⟨0, "", ""⟩ := by
      have := hmem.2
      simpa using this
    have hok := combineAux_ok_mem _ 0 es hca e hmem.1
    rcases List.mem_map.mp hok with ⟨line, hline, hconv⟩
    rcases mem_numberLines _ 0 line hline with ⟨raw, hraw, m, rfl, hm⟩
    have hshape := toEnvEntry_shape raw m e (by omega) hconv hz
    exact ⟨hshape.1, fun hkv => ⟨raw, hraw, hshape.2 hkv⟩⟩

/-- C7 counterexample to the claim as stated: the input `"="` parses to
the single entry `⟨1, "", ""⟩`, which has both key and value empty and is
passed on to the resolver rather than discarded. -/
theorem c7_equals_line_counterexample :
    parsePlainFileContentResult "=" = .ok [⟨1, "", ""⟩] ∧
    (⟨1, "", ""⟩ : Entry).key = "" ∧ (⟨1, "", ""⟩ : Entry).value = "" ∧
    ([⟨1, "", ""⟩] : List Entry) ≠ [] := by
  exact ⟨by rfl, rfl, rfl, by decide⟩

/-- C7 witness: the amended theorem applied to the input `"="`. -/
theorem c7_passed_entry_shape_witness :
    1 ≤ (1 : Nat) ∧
    ∃ raw ∈ goScanLines (preprocessContent "="), goTrimSpace raw = "=" := by
  have h := c7_passed_entry_shape "=" [⟨1, "", ""⟩] (by rfl) ⟨1, "", ""⟩
    (List.mem_singleton.mpr rfl)
  exact ⟨h.1, h.2 ⟨rfl, rfl⟩⟩

/-! ## C8: the shape of KeyValue parsing -/

theorem charListContains_iff {l : List Char} {c : Char} :
    l.contains c = true ↔ c ∈ l := by
  induction l with
  | nil => simp
  | cons x xs ih =>
    simp [List.contains_cons, ih]

theorem classifyLine_keyValue_contains {t : String}
    (h : classifyLine t = .keyValueLine) : '=' ∈ t.data := by
  unfold classifyLine at h
  split_ifs at h with h1 h2 h3 h4
  exact charListContains_iff.mp h4

/-- C8 (amended): a KeyValue line is split at the first `=` of the
whitespace-trimmed line: the value is everything after that `=` verbatim,
including further `=` characters, spaces adjacent to the `=` and embedded
quotes; the key is the part before the `=` trimmed of its own surrounding
whitespace (so whitespace between the key and the `=` is also removed,
while whitespace inside the key is preserved). -/
theorem c8_key_value_split (s : String) (n : Nat)
    (h : classifyLine (goTrimSpace s) = .keyValueLine) :
    ∃ pre post : List Char,
      (goTrimSpace s).data = pre ++ '=' :: post ∧
      '=' ∉ pre ∧
      parseEnvLine s n = .ok ⟨n, goTrimSpace ⟨pre⟩, ⟨post⟩⟩ := by
  have hmem : '=' ∈ (goTrimSpace s).data := classifyLine_keyValue_contains h
  cases hb : breakAtChar '=' (goTrimSpace s).data with
  | none =>
    have := breakAtChar_isSome_of_mem hmem
    rw [hb] at this
    simp at this
  | some p =>
    rcases p with ⟨pre, post⟩
    rcases breakAtChar_spec hb with ⟨hdec, hna⟩
    refine ⟨pre, post, hdec, hna, ?_⟩
    unfold parseEnvLine
    simp only [newLine, toEnvEntry, h, parseKeyValueLine, hb]

/-- C8 counterexample to the claim as stated: the line `"A =B"` has no
surrounding whitespace of its own, so under the claim the key would keep
its trailing space (`"A "`); the parser actually trims it and yields the
key `"A"`. -/
theorem c8_key_trim_counterexample :
    parseEnvLine "A =B" 1 = .ok ⟨1, "A", "B"⟩ ∧
    goTrimSpace "A =B" = "A =B" ∧
    ("A" : String) ≠ "A " := by
  exact ⟨by rfl, by rfl, by decide⟩

/-- C8 witness: the amended theorem applied to `"K = a=b "` (trimmed to
`"K = a=b"`), whose first `=` splits it into the trimmed key `"K"` and
the verbatim value `" a=b"`. -/
theorem c8_key_value_split_witness :
    ∃ pre post : List Char,
      (goTrimSpace "K = a=b ").data = pre ++ '=' :: post ∧
      '=' ∉ pre ∧
      parseEnvLine "K = a=b " 7 = .ok ⟨7, goTrimSpace ⟨pre⟩, ⟨post⟩⟩ :=
  c8_key_value_split "K = a=b " 7 (by rfl)

/-! ## C2: resolution of an entry with a requested key -/

theorem startsWith_false_head (s p : String) {sc pc : Char} {ts tp : List Char}
    (hs : s.data = sc :: ts) (hp : p.data = pc :: tp) (hne : pc ≠ sc) :
    strStartsWith s p = false := by
  unfold strStartsWith
  rw [hs, hp]
  simp [List.isPrefixOf, hne]

theorem infix_of_isPrefixOf {p l : List Char} (h : p.isPrefixOf l = true) :
    infixOfList p l = true := by
  cases l with
  | nil => exact h
  | cons x xs => simp [infixOfList, h]

theorem isPrefixOf_append_left {p q : List Char} (r : List Char)
    (h : p.isPrefixOf q = true) : p.isPrefixOf (q ++ r) = true := by
  induction p generalizing q with
  | nil => simp
  | cons a as ih =>
    cases q with
    | nil => simp [List.isPrefixOf] at h
    | cons b bs =>
      simp only [List.isPrefixOf, Bool.and_eq_true, beq_iff_eq] at h
      simp only [List.cons_append, List.isPrefixOf, Bool.and_eq_true, beq_iff_eq]
      exact ⟨h.1, ih h.2⟩

/-- Any `ParseValue` failure message is one of three shapes. -/
theorem parseValueResult_error_shape {v k e : String}
    (h : parseValueResult v k = .error e) :
    e = "secret value is empty" ∨
    (∃ t, e = "invalid secret value format: " ++ t) ∨
    (∃ t, e = "key not found in secret: " ++ t) := by
  unfold parseValueResult parseValueWithOptionsResult at h
  by_cases hv : v = ""
  · rw [if_pos hv] at h
    simp only [Except.error.injEq] at h
    exact Or.inl h.symm
  · rw [if_neg hv] at h
    by_cases hkk : k = ""
    · rw [if_pos hkk] at h
      cases h
    · rw [if_neg hkk] at h
      cases hp : parseJSON v with
      | none =>
        rw [hp] at h
        simp only [Except.error.injEq] at h
        refine Or.inr (Or.inl ⟨"cannot retrieve key '" ++ k ++
          "' because the specified secret is not in JSON format", ?_⟩)
        rw [← h]
        rw [show ("invalid secret value format: cannot retrieve key '" : String) =
          "invalid secret value format: " ++ "cannot retrieve key '" from rfl]
        simp only [String.append_assoc]
      | some j =>
        rw [hp] at h
        have h2 : (match navigatePath j ((splitChar '.' k.data).map (fun l => ⟨l⟩)) with
            | .error e2 => Except.error ("key not found in secret: " ++ e2)
            | .ok w => Except.ok (formatSecretValue w true)) = Except.error e := h
        cases hn : navigatePath j ((splitChar '.' k.data).map (fun l => ⟨l⟩)) with
        | error e2 =>
          rw [hn] at h2
          simp only [Except.error.injEq] at h2
          exact Or.inr (Or.inr ⟨e2, h2.symm⟩)
        | ok w =>
          rw [hn] at h2
          cases h2

theorem awsKeyRewrap_data (u : SecretURI) (e : String) :
    ∃ t, (awsKeyRewrap u e).data = '指' :: t :=
  ⟨("定されたキー '" : String).data ++ u.key.data ++
    ("' がシークレット '" : String).data ++ u.secretName.data ++
    ("' に存在しません: " : String).data ++ e.data, rfl⟩

/-- A provider error produced by key extraction never has the
`unsupported platform` prefix, so it is always treated as a hard error. -/
theorem hard_error_not_unsupported {v k e : String} (u : SecretURI)
    (h : parseValueResult v k = .error e) :
    strStartsWith (if strContainsSub e "key not found" = true
        then awsKeyRewrap u e else e)
      "unsupported platform" = false := by
  have hp : ("unsupported platform" : String).data =
      'u' :: ("nsupported platform" : String).data := rfl
  by_cases hc : strContainsSub e "key not found" = true
  · rw [if_pos hc]
    rcases awsKeyRewrap_data u e with ⟨t, ht⟩
    exact startsWith_false_head _ _ ht hp (by decide)
  · rw [if_neg hc]
    rcases parseValueResult_error_shape h with h1 | ⟨t, h2⟩ | ⟨t, h3⟩
    · subst h1
      rfl
    · subst h2
      have hs : ("invalid secret value format: " ++ t).data =
          'i' :: (("nvalid secret value format: " : String).data ++ t.data) := rfl
      exact startsWith_false_head _ _ hs hp (by decide)
    · exfalso
      apply hc
      subst h3
      unfold strContainsSub
      rw [String.data_append]
      exact infix_of_isPrefixOf (isPrefixOf_append_left _ (by decide))

theorem determineFinalKey_requested (entry : Entry) (u : SecretURI)
    (hk : u.key ≠ "") :
    determineFinalKey (determineEntryKey entry) u =
      if entry.key ≠ "" ∧ entry.value ≠ "" then entry.key else u.key := by
  unfold determineEntryKey determineFinalKey
  by_cases h1 : entry.key = "" <;> by_cases h2 : entry.value = "" <;>
    simp [h1, h2, hk]

theorem processPlainText_second_extraction_fails (ek : String) (u : SecretURI)
    (ev : String) (hk : u.key ≠ "")
    (hsecond : ∀ w, parseValueResult ev u.key ≠ .ok w) :
    processPlainTextSecret ek u ev =
      [(determineFinalKey ek u, goTrimChar ev '\'')] := by
  unfold processPlainTextSecret
  cases hpv : parseValueResult ev u.key with
  | ok w => exact absurd hpv (hsecond w)
  | error e2 => simp [hk, hpv]

/-- C2 (amended): for an entry whose parsed address requests a key `k`,
the provider extracts `k` from the fetched secret at fetch time (dotted
path navigation over the parsed JSON, string results stripped of control
characters).  When the extracted value does not itself re-expand — it is
not a JSON object (or expansion is off), and re-running the extraction on
it fails — the entry yields exactly one OutputVariable: key = the entry's
export name if both key and value were present, else `k`; value = the
extracted value stripped of all leading and trailing single quotes (not
just one layer).  When the secret does not parse as JSON, or `k` is not
found, the entry is a hard error and the run aborts at it. -/
theorem c2_requested_key_resolution :
    (∀ (idx : Nat) (entry : Entry) (provs : Providers) (ne : Bool)
        (u : SecretURI) (fetch : SecretURI → Except String String) (v ev : String),
      parseEntryAsSecretURI entry = .ok u →
      u.key ≠ "" →
      List.lookup u.platform provs = some (getSecrets fetch awsKeyRewrap) →
      fetch u = .ok v →
      parseValueResult v u.key = .ok ev →
      (parseJSONMap ev = none ∨ ne = true) →
      (∀ w, parseValueResult ev u.key ≠ .ok w) →
      processEntryResultWithOptions idx entry provs ne =
        ⟨[(if entry.key ≠ "" ∧ entry.value ≠ "" then entry.key else u.key,
            goTrimChar ev '\'')],
          [if entry.key ≠ "" ∧ entry.value ≠ "" then entry.key else u.key],
          none⟩) ∧
    (∀ (idx : Nat) (entry : Entry) (provs : Providers) (ne : Bool)
        (u : SecretURI) (fetch : SecretURI → Except String String) (v errE : String),
      parseEntryAsSecretURI entry = .ok u →
      u.key ≠ "" →
      List.lookup u.platform provs = some (getSecrets fetch awsKeyRewrap) →
      fetch u = .ok v →
      parseValueResult v u.key = .error errE →
      processEntryResultWithOptions idx entry provs ne =
        ⟨[], [], some ("failed to retrieve secret for line " ++ natRepr (idx + 1)
          ++ ": " ++ (if strContainsSub errE "key not found" = true
            then awsKeyRewrap u errE else errE))⟩ ∧
      ∀ (acc : SecretResult) (rest : List Entry),
        processEntriesAux provs ne idx acc (entry :: rest) =
          processEntryResultWithOptions idx entry provs ne) := by
  constructor
  · intro idx entry provs ne u fetch v ev hparse hk hprov hfetch hev hnoexp hsecond
    unfold processEntryResultWithOptions
    rw [hparse]
    have hret : retrieveSecretResult u provs = .ok ev := by
      simp only [retrieveSecretResult, hprov, getSecrets, hfetch, hev]
    simp only [hret]
    have hpp := processPlainText_second_extraction_fails
      (determineEntryKey entry) u ev hk hsecond
    have hplain : processSecretWithOptions (determineEntryKey entry) u ev ne =
        [(determineFinalKey (determineEntryKey entry) u, goTrimChar ev '\'')] := by
      rcases hnoexp with hjm | hne
      · simp only [processSecretWithOptions, hjm, hpp]
      · subst hne
        cases hjm2 : parseJSONMap ev with
        | none => simp only [processSecretWithOptions, hjm2, hpp]
        | some fields =>
          simp only [processSecretWithOptions, hjm2, Bool.not_true,
            Bool.false_eq_true, if_false, hpp]
    rw [hplain, determineFinalKey_requested entry u hk]
    rfl
  · intro idx entry provs ne u fetch v errE hparse hk hprov hfetch herr
    have hret : retrieveSecretResult u provs =
        .error (if strContainsSub errE "key not found" = true
          then awsKeyRewrap u errE else errE) := by
      simp only [retrieveSecretResult, hprov, getSecrets, hfetch, herr]
    have hentry : processEntryResultWithOptions idx entry provs ne =
        ⟨[], [], some ("failed to retrieve secret for line " ++ natRepr (idx + 1)
          ++ ": " ++ (if strContainsSub errE "key not found" = true
            then awsKeyRewrap u errE else errE))⟩ := by
      unfold processEntryResultWithOptions
      rw [hparse]
      simp only [hret]
      rw [if_neg (by rw [hard_error_not_unsupported u herr]; simp)]
    refine ⟨hentry, fun acc rest => ?_⟩
    simp only [processEntriesAux, hentry]
    rfl

/-- C2 counterexample to the claim as stated: the secret
`{"k":"''v''"}` with requested key `k` navigates to the string `''v''`;
a single layer of quote unwrapping would give `'v'`, but the pipeline
strips all surrounding single quotes and emits `v`. -/
theorem c2_quote_trim_counterexample :
    processEntryResultWithOptions 0 ⟨1, "X", "sem://aws:sm/acc/n?key=k"⟩
      [("aws", getSecrets (fun _ => .ok "\x7b\"k\":\"''v''\"\x7d") awsKeyRewrap)] false =
      ⟨[("X", "v")], ["X"], none⟩ ∧
    ("v" : String) ≠ "'v'" := by
  exact ⟨by rfl, by decide⟩

/-- C2 witness: the spec's own scenario — `DB_PASSWORD` bound to an
address requesting key `password`, backend returning
`{"username":"u","password":"p"}`, resolving to exactly
`DB_PASSWORD = p`. -/
theorem c2_requested_key_resolution_witness :
    processEntryResultWithOptions 0
      ⟨1, "DB_PASSWORD", "sem://aws:secretsmanager/dev/db/creds?key=password"⟩
      [("aws", getSecrets
        (fun _ => .ok "\x7b\"username\":\"u\",\"password\":\"p\"\x7d") awsKeyRewrap)]
      false =
      ⟨[("DB_PASSWORD", "p")], ["DB_PASSWORD"], none⟩ := by
  have h := c2_requested_key_resolution.1 0
    ⟨1, "DB_PASSWORD", "sem://aws:secretsmanager/dev/db/creds?key=password"⟩
    [("aws", getSecrets
      (fun _ => .ok "\x7b\"username\":\"u\",\"password\":\"p\"\x7d") awsKeyRewrap)]
    false
    { platform := "aws", service := "secretsmanager", account := "dev",
      secretName := "db/creds", key := "password", version := "AWSCURRENT",
      region := "ap-northeast-1" }
    (fun _ => .ok "\x7b\"username\":\"u\",\"password\":\"p\"\x7d") "\x7b\"username\":\"u\",\"password\":\"p\"\x7d" "p"
    (by rfl) (by decide) (by rfl) (by rfl) (by rfl) (Or.inl (by rfl))
    (fun w hw => by
      have : parseValueResult "p" "password" =
          .error ("invalid secret value format: cannot retrieve key '" ++
            "password" ++
            "' because the specified secret is not in JSON format") := by rfl
      rw [this] at hw
      cases hw)
  exact h.trans (by rfl)

/-! ## C5: deterministic sorted formatting -/

theorem contains_iff_mem_str (l : List String) (k : String) :
    l.contains k = true ↔ k ∈ l := by
  induction l with
  | nil => simp [List.contains]
  | cons a as ih =>
    simp only [List.contains_cons, Bool.or_eq_true, beq_iff_eq, List.mem_cons, ih]

/-- `MergeSortedKeys` permutes the full key set when both the requested
ordering and the key set are duplicate-free. -/
theorem mergeSortedKeys_perm (sk : List String) (values : List (String × String))
    (hsk : sk.Nodup) (hnd : (values.map Prod.fst).Nodup) :
    List.Perm (mergeSortedKeys sk values) (values.map Prod.fst) := by
  unfold mergeSortedKeys
  have hfirstmem : ∀ k, k ∈ sk.filter (fun k => (values.lookup k).isSome) ↔
      k ∈ sk ∧ k ∈ values.map Prod.fst := by
    intro k
    rw [List.mem_filter, lookup_isSome_iff_mem]
  have hfnd : (sk.filter (fun k => (values.lookup k).isSome)).Nodup :=
    hsk.filter _
  have hstep : List.Perm
      (sk.filter (fun k => (values.lookup k).isSome) ++
        isortStr ((values.map Prod.fst).filter
          (fun k => !(sk.filter (fun k => (values.lookup k).isSome)).contains k)))
      (sk.filter (fun k => (values.lookup k).isSome) ++
        (values.map Prod.fst).filter
          (fun k => !(sk.filter (fun k => (values.lookup k).isSome)).contains k)) :=
    List.Perm.append_left _ (isortStr_perm _)
  refine hstep.trans ?_
  have hrnd : ((values.map Prod.fst).filter
      (fun k => !(sk.filter (fun k => (values.lookup k).isSome)).contains k)).Nodup :=
    hnd.filter _
  have hdisj : List.Disjoint (sk.filter (fun k => (values.lookup k).isSome))
      ((values.map Prod.fst).filter
        (fun k => !(sk.filter (fun k => (values.lookup k).isSome)).contains k)) := by
    intro x hx hx2
    rcases List.mem_filter.mp hx2 with ⟨_, hq⟩
    rw [Bool.not_eq_eq_eq_not, Bool.not_true] at hq
    exact absurd ((contains_iff_mem_str _ _).mpr hx)
      (by rw [hq]; exact Bool.false_ne_true)
  rw [List.perm_ext_iff_of_nodup (hfnd.append hrnd hdisj) hnd]
  intro x
  constructor
  · intro hx
    rcases List.mem_append.mp hx with hx1 | hx2
    · exact ((hfirstmem x).mp hx1).2
    · exact (List.mem_filter.mp hx2).1
  · intro hx
    by_cases hxf : x ∈ sk.filter (fun k => (values.lookup k).isSome)
    · exact List.mem_append.mpr (Or.inl hxf)
    · refine List.mem_append.mpr (Or.inr (List.mem_filter.mpr ⟨hx, ?_⟩))
      rw [Bool.not_eq_eq_eq_not, Bool.not_true]
      cases hcon : (sk.filter (fun k => (values.lookup k).isSome)).contains x
      · rfl
      · exact absurd ((contains_iff_mem_str _ _).mp hcon) hxf

theorem filterAndSortKeys_eq_sortKeys (values : List (String × String))
    (sk : List String) (hsk : sk.Nodup) (hnd : (values.map Prod.fst).Nodup) :
    filterAndSortKeys values sk = sortKeys values := by
  unfold filterAndSortKeys
  by_cases h : sk = []
  · rw [if_pos h]
  · rw [if_neg h]
    exact isortStr_eq_of_perm (mergeSortedKeys_perm sk values hsk hnd)

theorem formatEnvAux_congr (values values' : List (String × String))
    (opts : EnvVarOptions) (hlk : ∀ k, values.lookup k = values'.lookup k) :
    ∀ (ks : List String) (i : Nat) (acc : String) (ws : List String),
      formatEnvAux values opts i ks acc ws = formatEnvAux values' opts i ks acc ws := by
  intro ks
  induction ks with
  | nil => intro i acc ws; rfl
  | cons k rest ih =>
    intro i acc ws
    simp only [formatEnvAux]
    rw [← hlk k]
    split
    · exact ih _ _ _
    · rename_i v hv
      split_ifs <;>
        first
          | exact ih _ _ _
          | rfl
          | (cases hpj : processJSONValue k (unwrapQuotes v) opts.useQuotes with
              | error e => rfl
              | ok c => exact ih _ _ _)

/-- C5: with duplicate-free keys and a duplicate-free requested ordering,
the emitted key order is always the full key set sorted lexicographically,
and the formatted output is invariant under any permutation of the value
map's iteration order. -/
theorem c5_sorted_deterministic_output
    (values values' : List (String × String)) (opts : EnvVarOptions)
    (hnd : (values.map Prod.fst).Nodup) (hsk : opts.sortedKeys.Nodup)
    (hperm : List.Perm values values') :
    filterAndSortKeys values opts.sortedKeys = sortKeys values ∧
    formatEnvVarContent values opts = formatEnvVarContent values' opts := by
  have hlk : ∀ k, values.lookup k = values'.lookup k :=
    lookup_eq_of_perm hperm hnd
  have hnd' : (values'.map Prod.fst).Nodup :=
    ((hperm.map Prod.fst).nodup_iff).mp hnd
  refine ⟨filterAndSortKeys_eq_sortKeys values opts.sortedKeys hsk hnd, ?_⟩
  have hkeys : filterAndSortKeys values' opts.sortedKeys =
      filterAndSortKeys values opts.sortedKeys := by
    rw [filterAndSortKeys_eq_sortKeys values' opts.sortedKeys hsk hnd',
      filterAndSortKeys_eq_sortKeys values opts.sortedKeys hsk hnd]
    exact isortStr_eq_of_perm (hperm.map Prod.fst).symm
  unfold formatEnvVarContent
  rw [hkeys, formatEnvAux_congr values values' opts hlk]

/-- C5 witness: a two-entry map and its transposition, with `B` as the
caller-preferred first key, format identically with keys sorted. -/
theorem c5_sorted_deterministic_output_witness :
    ([("B", "2"), ("A", "1")].map Prod.fst).Nodup ∧
    (["B"] : List String).Nodup ∧
    List.Perm [("B", "2"), ("A", "1")] [("A", "1"), ("B", "2")] ∧
    (filterAndSortKeys [("B", "2"), ("A", "1")] ["B"] =
        sortKeys [("B", "2"), ("A", "1")] ∧
      formatEnvVarContent [("B", "2"), ("A", "1")] ⟨false, ["B"], true, false⟩ =
        formatEnvVarContent [("A", "1"), ("B", "2")] ⟨false, ["B"], true, false⟩) :=
  ⟨by decide, by decide, List.Perm.swap ("A", "1") ("B", "2") [],
    c5_sorted_deterministic_output
      [("B", "2"), ("A", "1")] [("A", "1"), ("B", "2")]
      ⟨false, ["B"], true, false⟩ (by decide) (by decide)
      (List.Perm.swap ("A", "1") ("B", "2") [])⟩

/-! ## C3: the spec-side model of recursive JSON expansion -/

theorem insSortedFst_perm {β : Type} (x : String × β) (l : List (String × β)) :
    List.Perm (insSortedFst x l) (x :: l) := by
  induction l with
  | nil => exact List.Perm.refl _
  | cons y ys ih =>
    unfold insSortedFst
    split
    · exact List.Perm.refl _
    · exact (List.Perm.cons y ih).trans (List.Perm.swap x y ys)

theorem isortFst_perm {β : Type} (l : List (String × β)) :
    List.Perm (isortFst l) l := by
  induction l with
  | nil => exact List.Perm.refl _
  | cons x xs ih =>
    exact (insSortedFst_perm x (isortFst xs)).trans (List.Perm.cons x ih)

theorem sizeOf_isortFst (l : List (String × JSON)) :
    sizeOf (isortFst l) = sizeOf l :=
  (isortFst_perm l).sizeOf_eq_sizeOf

/-- Whether a JSON value is a bare string: the only leaf whose top-level
rendering (verbatim) differs from its rendering as an object member or
array element (unwrapped of one quote layer). -/
def isStrLeaf : JSON → Bool
  | .str _ => true
  | _ => false

mutual

/-- No empty object or array occurs anywhere in the value (an empty
composite renders as an empty chunk, which the implementation joins as a
blank line while a flat expansion drops it). -/
def noEmpty : JSON → Bool
  | .obj fields => !fields.isEmpty && noEmptyFields fields
  | .arr elems => !elems.isEmpty && noEmptyElems elems
  | _ => true

def noEmptyFields : List (String × JSON) → Bool
  | [] => true
  | (_, v) :: rest => noEmpty v && noEmptyFields rest

def noEmptyElems : List JSON → Bool
  | [] => true
  | v :: rest => noEmpty v && noEmptyElems rest

end

mutual

/-- The spec's recursive expansion contract (§4.4), written from the
spec's words and amended on one point: a string leaf is unwrapped of one
layer of surrounding quotes rather than taken verbatim.  Object members
expand in member-name order; array elements carry 0-based indices;
numbers, booleans and `null` use their natural text forms. -/
def specExpand (px : String) (j : JSON) : List (String × String) :=
  match j with
  | .str s => [(px, unwrapQuotes s)]
  | .num n => [(px, intRepr n)]
  | .bool b => [(px, if b then "true" else "false")]
  | .null => [(px, "null")]
  | .arr elems => specExpandElems px 0 elems
  | .obj fields => specExpandFields px (isortFst fields)
termination_by sizeOf j
decreasing_by
  all_goals simp_wf
  all_goals first
    | omega
    | (simp only [sizeOf_isortFst, JSON.arr.sizeOf_spec, JSON.obj.sizeOf_spec,
        List.cons.sizeOf_spec, Prod.mk.sizeOf_spec]
       omega)

def specExpandFields (px : String) (gs : List (String × JSON)) :
    List (String × String) :=
  match gs with
  | [] => []
  | (k, v) :: rest => specExpand (px ++ "_" ++ k) v ++ specExpandFields px rest
termination_by sizeOf gs
decreasing_by
  all_goals simp_wf
  all_goals first
    | omega
    | (simp only [sizeOf_isortFst, JSON.arr.sizeOf_spec, JSON.obj.sizeOf_spec,
        List.cons.sizeOf_spec, Prod.mk.sizeOf_spec]
       omega)

def specExpandElems (px : String) (i : Nat) (es : List JSON) :
    List (String × String) :=
  match es with
  | [] => []
  | v :: rest =>
    specExpand (px ++ "_" ++ natRepr i) v ++ specExpandElems px (i + 1) rest
termination_by sizeOf es
decreasing_by
  all_goals simp_wf
  all_goals first
    | omega
    | (simp only [sizeOf_isortFst, JSON.arr.sizeOf_spec, JSON.obj.sizeOf_spec,
        List.cons.sizeOf_spec, Prod.mk.sizeOf_spec]
       omega)

end

/-- The chunk the implementation computes for one object member, stated
through the spec-side expansion. -/
def specFieldChunk (px : String) (q : Bool) (p : String × JSON) :
    String × String :=
  (p.1, joinSep "\n"
    ((specExpand (px ++ "_" ++ p.1) p.2).map fun r => formatKeyValuePair r.1 r.2 q))

/-- The chunks the implementation computes for the elements of an array,
stated through the spec-side expansion. -/
def specElemChunks (px : String) (q : Bool) : Nat → List JSON → List String
  | _, [] => []
  | i, v :: rest =>
    joinSep "\n" ((specExpand (px ++ "_" ++ natRepr i) v).map
        fun r => formatKeyValuePair r.1 r.2 q) ::
      specElemChunks px q (i + 1) rest

theorem not_isEmpty_iff {α : Type} (l : List α) : (!l.isEmpty) = true ↔ l ≠ [] := by
  cases l <;> simp

theorem noEmptyFields_iff (gs : List (String × JSON)) :
    noEmptyFields gs = true ↔ ∀ p ∈ gs, noEmpty p.2 = true := by
  induction gs with
  | nil => simp [noEmptyFields]
  | cons g rest ih =>
    obtain ⟨a, b⟩ := g
    simp [noEmptyFields, Bool.and_eq_true, ih]

theorem noEmptyElems_iff (es : List JSON) :
    noEmptyElems es = true ↔ ∀ v ∈ es, noEmpty v = true := by
  induction es with
  | nil => simp [noEmptyElems]
  | cons v rest ih =>
    simp [noEmptyElems, Bool.and_eq_true, ih]

/-- Rendered integers never carry surrounding quotes, so quote unwrapping
leaves them unchanged. -/
theorem unwrapQuotes_intRepr (n : Int) : unwrapQuotes (intRepr n) = intRepr n := by
  rcases intRepr_head n with ⟨c, cs, hd, hc⟩
  have hne1 : c ≠ '"' := by
    rcases hc with ⟨h1, h2⟩ | rfl
    · intro hcq
      subst hcq
      exact absurd h1 (by decide)
    · decide
  have hne2 : c ≠ '\'' := by
    rcases hc with ⟨h1, h2⟩ | rfl
    · intro hcq
      subst hcq
      exact absurd h1 (by decide)
    · decide
  have hhd : (intRepr n).data.head? = some c := by rw [hd]; rfl
  unfold unwrapQuotes
  split_ifs with h1 h2
  · rfl
  · exfalso
    simp only [Bool.or_eq_true, Bool.and_eq_true, decide_eq_true_eq] at h2
    rcases h2 with ⟨ha, _⟩ | ⟨ha, _⟩ <;> rw [hhd] at ha <;>
      exact absurd (Option.some.inj ha) (by assumption)
  · rfl

theorem json_sizeOf_pos (j : JSON) : 1 ≤ sizeOf j := by
  cases j <;> simp_arith

/-- Under `noEmpty`, the spec-side expansion always yields at least one
pair (strong induction on the size of the value). -/
theorem specExpand_ne_nil_aux (n : Nat) : ∀ (px : String) (j : JSON),
    sizeOf j ≤ n → noEmpty j = true → specExpand px j ≠ [] := by
  induction n with
  | zero =>
    intro px j hle h
    have := json_sizeOf_pos j
    omega
  | succ n ih =>
    intro px j hle h
    cases j with
    | str s => simp [specExpand]
    | num n2 => simp [specExpand]
    | bool b => simp [specExpand]
    | null => simp [specExpand]
    | arr elems =>
      simp only [noEmpty, Bool.and_eq_true] at h
      have hne : elems ≠ [] := (not_isEmpty_iff elems).mp h.1
      have hall : ∀ v ∈ elems, noEmpty v = true := (noEmptyElems_iff elems).mp h.2
      obtain ⟨v, vs, rfl⟩ : ∃ v vs, elems = v :: vs := by
        cases elems with
        | nil => exact absurd rfl hne
        | cons v vs => exact ⟨v, vs, rfl⟩
      have hsz : sizeOf v ≤ n := by
        simp only [JSON.arr.sizeOf_spec, List.cons.sizeOf_spec] at hle
        omega
      have hv := ih (px ++ "_" ++ natRepr 0) v hsz (hall v (List.mem_cons_self _ _))
      simp only [specExpand, specExpandElems]
      intro hnil
      exact hv (List.append_eq_nil.mp hnil).1
    | obj fields =>
      simp only [noEmpty, Bool.and_eq_true] at h
      have hne : fields ≠ [] := (not_isEmpty_iff fields).mp h.1
      have hall : ∀ p ∈ fields, noEmpty p.2 = true := (noEmptyFields_iff fields).mp h.2
      have hne2 : isortFst fields ≠ [] := by
        intro hnil
        have hp := isortFst_perm fields
        rw [hnil] at hp
        exact hne hp.symm.eq_nil
      obtain ⟨k, vv, ps, heq⟩ : ∃ k vv ps, isortFst fields = (k, vv) :: ps := by
        cases hh : isortFst fields with
        | nil => exact absurd hh hne2
        | cons p ps => exact ⟨p.1, p.2, ps, rfl⟩
      have hmem : (k, vv) ∈ fields :=
        (isortFst_perm fields).mem_iff.mp (heq ▸ List.mem_cons_self _ _)
      have hszm : sizeOf (k, vv) < sizeOf fields := List.sizeOf_lt_of_mem hmem
      have hsz : sizeOf vv ≤ n := by
        simp only [JSON.obj.sizeOf_spec] at hle
        simp only [Prod.mk.sizeOf_spec] at hszm
        omega
      have hv := ih (px ++ "_" ++ k) vv hsz (hall (k, vv) hmem)
      simp only [specExpand]
      rw [heq]
      simp only [specExpandFields]
      intro hnil
      exact hv (List.append_eq_nil.mp hnil).1

theorem specExpand_ne_nil (px : String) (j : JSON) (h : noEmpty j = true) :
    specExpand px j ≠ [] :=
  specExpand_ne_nil_aux (sizeOf j) px j (Nat.le_refl _) h

theorem specExpandFields_ne_nil (px : String) (gs : List (String × JSON))
    (hne : gs ≠ []) (hall : ∀ p ∈ gs, noEmpty p.2 = true) :
    specExpandFields px gs ≠ [] := by
  obtain ⟨k, v, rest, rfl⟩ : ∃ k v rest, gs = (k, v) :: rest := by
    cases gs with
    | nil => exact absurd rfl hne
    | cons g rest => exact ⟨g.1, g.2, rest, rfl⟩
  have hv := specExpand_ne_nil (px ++ "_" ++ k) v (hall (k, v) (List.mem_cons_self _ _))
  simp only [specExpandFields]
  intro hnil
  exact hv (List.append_eq_nil.mp hnil).1

theorem specExpandElems_ne_nil (px : String) (i : Nat) (es : List JSON)
    (hne : es ≠ []) (hall : ∀ v ∈ es, noEmpty v = true) :
    specExpandElems px i es ≠ [] := by
  obtain ⟨v, rest, rfl⟩ : ∃ v rest, es = v :: rest := by
    cases es with
    | nil => exact absurd rfl hne
    | cons v rest => exact ⟨v, rest, rfl⟩
  have hv := specExpand_ne_nil (px ++ "_" ++ natRepr i) v (hall v (List.mem_cons_self _ _))
  simp only [specExpandElems]
  intro hnil
  exact hv (List.append_eq_nil.mp hnil).1

theorem joinSep_append_ne (sep : String) (a b : List String)
    (ha : a ≠ []) (hb : b ≠ []) :
    joinSep sep (a ++ b) = joinSep sep a ++ sep ++ joinSep sep b := by
  induction a with
  | nil => exact absurd rfl ha
  | cons x xs ih =>
    cases xs with
    | nil =>
      cases b with
      | nil => exact absurd rfl hb
      | cons y ys => simp [joinSep]
    | cons x2 xs2 =>
      have ih2 := ih (by simp)
      simp only [List.cons_append, List.append_eq, joinSep] at ih2 ⊢
      rw [ih2]
      simp [String.append_assoc]

theorem joinSep_fieldChunks (px : String) (q : Bool) (gs : List (String × JSON))
    (hall : ∀ p ∈ gs, noEmpty p.2 = true) :
    joinSep "\n" (gs.map fun p => (specFieldChunk px q p).2) =
      joinSep "\n" ((specExpandFields px gs).map
        fun r => formatKeyValuePair r.1 r.2 q) := by
  induction gs with
  | nil => simp [specExpandFields]
  | cons g rest ih =>
    obtain ⟨k, v⟩ := g
    have hnev : specExpand (px ++ "_" ++ k) v ≠ [] :=
      specExpand_ne_nil (px ++ "_" ++ k) v (hall (k, v) (List.mem_cons_self _ _))
    have hallrest : ∀ p ∈ rest, noEmpty p.2 = true := fun p hp =>
      hall p (List.mem_cons_of_mem _ hp)
    cases hr : rest with
    | nil =>
      simp [specExpandFields, specFieldChunk, joinSep]
    | cons g2 rest2 =>
      subst hr
      have hnerest : specExpandFields px (g2 :: rest2) ≠ [] :=
        specExpandFields_ne_nil px _ (by simp) hallrest
      have hmapne : (specExpand (px ++ "_" ++ k) v).map
          (fun r => formatKeyValuePair r.1 r.2 q) ≠ [] := by
        simpa [List.map_eq_nil] using hnev
      have hmapne2 : (specExpandFields px (g2 :: rest2)).map
          (fun r => formatKeyValuePair r.1 r.2 q) ≠ [] := by
        simpa [List.map_eq_nil] using hnerest
      have hexp : specExpandFields px ((k, v) :: g2 :: rest2) =
          specExpand (px ++ "_" ++ k) v ++ specExpandFields px (g2 :: rest2) := by
        simp [specExpandFields]
      rw [hexp, List.map_append, joinSep_append_ne _ _ _ hmapne hmapne2,
        ← ih hallrest]
      simp [joinSep, specFieldChunk]

theorem joinSep_elemChunks (px : String) (q : Bool) :
    ∀ (i : Nat) (es : List JSON), (∀ v ∈ es, noEmpty v = true) →
    joinSep "\n" (specElemChunks px q i es) =
      joinSep "\n" ((specExpandElems px i es).map
        fun r => formatKeyValuePair r.1 r.2 q) := by
  intro i es
  induction es generalizing i with
  | nil => intro _; simp [specExpandElems, specElemChunks]
  | cons v rest ih =>
    intro hall
    have hnev : specExpand (px ++ "_" ++ natRepr i) v ≠ [] :=
      specExpand_ne_nil _ v (hall v (List.mem_cons_self _ _))
    have hallrest : ∀ w ∈ rest, noEmpty w = true := fun w hw =>
      hall w (List.mem_cons_of_mem _ hw)
    cases hr : rest with
    | nil =>
      subst hr
      simp [specExpandElems, specElemChunks, joinSep]
    | cons v2 rest2 =>
      subst hr
      have hnerest : specExpandElems px (i + 1) (v2 :: rest2) ≠ [] :=
        specExpandElems_ne_nil px (i + 1) _ (by simp) hallrest
      have hmapne : (specExpand (px ++ "_" ++ natRepr i) v).map
          (fun r => formatKeyValuePair r.1 r.2 q) ≠ [] := by
        simpa [List.map_eq_nil] using hnev
      have hmapne2 : (specExpandElems px (i + 1) (v2 :: rest2)).map
          (fun r => formatKeyValuePair r.1 r.2 q) ≠ [] := by
        simpa [List.map_eq_nil] using hnerest
      have hexp : specExpandElems px i (v :: v2 :: rest2) =
          specExpand (px ++ "_" ++ natRepr i) v ++
            specExpandElems px (i + 1) (v2 :: rest2) := by
        simp [specExpandElems]
      rw [hexp, List.map_append, joinSep_append_ne _ _ _ hmapne hmapne2,
        ← ih (i + 1) hallrest]
      simp [specElemChunks, joinSep]

/-- The refinement between the implementation's recursive expansion and
the spec-side model, proved for all three mutual entry points at once by
strong induction on size. -/
theorem processAny_spec_aux (n : Nat) :
    (∀ (px : String) (j : JSON) (q : Bool), sizeOf j ≤ n → noEmpty j = true →
      isStrLeaf j = false →
      processAnyJSONValue px j q =
        .ok (joinSep "\n" ((specExpand px j).map
          fun p => formatKeyValuePair p.1 p.2 q))) ∧
    (∀ (px : String) (fs : List (String × JSON)) (q : Bool), sizeOf fs ≤ n →
      (∀ p ∈ fs, noEmpty p.2 = true) →
      objMemberChunks px fs q = .ok (fs.map (specFieldChunk px q))) ∧
    (∀ (px : String) (i : Nat) (es : List JSON) (q : Bool), sizeOf es ≤ n →
      (∀ v ∈ es, noEmpty v = true) →
      arrElemChunks px i es q = .ok (specElemChunks px q i es)) := by
  induction n with
  | zero =>
    refine ⟨?_, ?_, ?_⟩
    · intro px j q hle
      have := json_sizeOf_pos j
      omega
    · intro px fs q hle
      have : 1 ≤ sizeOf fs := by cases fs <;> simp_arith
      omega
    · intro px i es q hle
      have : 1 ≤ sizeOf es := by cases es <;> simp_arith
      omega
  | succ n ih =>
    obtain ⟨ihA, ihB, ihC⟩ := ih
    refine ⟨?_, ?_, ?_⟩
    · intro px j q hle h hs
      cases j with
      | str s => simp [isStrLeaf] at hs
      | num n2 =>
        simp [processAnyJSONValue, formatValueForEnvResult, specExpand, joinSep]
      | bool b =>
        cases b <;>
          simp [processAnyJSONValue, formatValueForEnvResult, specExpand, joinSep]
      | null =>
        simp [processAnyJSONValue, formatValueForEnvResult, specExpand, joinSep,
          show marshalJSON JSON.null = "null" from rfl]
      | arr elems =>
        simp only [noEmpty, Bool.and_eq_true] at h
        have hsz : sizeOf elems ≤ n := by
          simp only [JSON.arr.sizeOf_spec] at hle
          omega
        have hall := (noEmptyElems_iff elems).mp h.2
        have hC := ihC px 0 elems q hsz hall
        simp only [processAnyJSONValue, hC]
        rw [joinSep_elemChunks px q 0 elems hall]
        simp only [specExpand]
      | obj fields =>
        simp only [noEmpty, Bool.and_eq_true] at h
        have hsz : sizeOf fields ≤ n := by
          simp only [JSON.obj.sizeOf_spec] at hle
          omega
        have hall := (noEmptyFields_iff fields).mp h.2
        have hallsorted : ∀ p ∈ isortFst fields, noEmpty p.2 = true := fun p hp =>
          hall p ((isortFst_perm fields).mem_iff.mp hp)
        have hB := ihB px fields q hsz hall
        simp only [processAnyJSONValue, hB]
        rw [show fields.map (specFieldChunk px q) =
          fields.map (fun p => (p.1, (specFieldChunk px q p).2)) from rfl]
        rw [isortFst_map (fun p => (specFieldChunk px q p).2) fields]
        rw [List.map_map]
        rw [show (Prod.snd ∘ fun p : String × JSON => (p.1, (specFieldChunk px q p).2)) =
          (fun p => (specFieldChunk px q p).2) from rfl]
        rw [joinSep_fieldChunks px q (isortFst fields) hallsorted]
        simp only [specExpand]
    · intro px fs q hle hall
      cases fs with
      | nil => simp [objMemberChunks]
      | cons g rest =>
        obtain ⟨k, v⟩ := g
        have hszrest : sizeOf rest ≤ n := by
          simp only [List.cons.sizeOf_spec] at hle
          omega
        have hallrest : ∀ p ∈ rest, noEmpty p.2 = true := fun p hp =>
          hall p (List.mem_cons_of_mem _ hp)
        have hB := ihB px rest q hszrest hallrest
        have hv : noEmpty v = true := hall (k, v) (List.mem_cons_self _ _)
        have hszv : sizeOf v ≤ n := by
          simp only [List.cons.sizeOf_spec, Prod.mk.sizeOf_spec] at hle
          omega
        cases v with
        | obj fs2 =>
          have hc : processAnyJSONValue (px ++ "_" ++ k) (.obj fs2) q =
              .ok (specFieldChunk px q (k, JSON.obj fs2)).2 := by
            rw [ihA (px ++ "_" ++ k) (.obj fs2) q hszv hv rfl]
            rfl
          simp only [objMemberChunks, hc, hB, List.map_cons]
          rfl
        | arr es2 =>
          have hc : processAnyJSONValue (px ++ "_" ++ k) (.arr es2) q =
              .ok (specFieldChunk px q (k, JSON.arr es2)).2 := by
            rw [ihA (px ++ "_" ++ k) (.arr es2) q hszv hv rfl]
            rfl
          simp only [objMemberChunks, hc, hB, List.map_cons]
          rfl
        | str s =>
          have hc : formatJSONKeyValueResult px k (.str s) q =
              .ok (specFieldChunk px q (k, JSON.str s)).2 := by
            simp [formatJSONKeyValueResult, formatValueForEnvResult,
              specFieldChunk, specExpand, joinSep]
          simp only [objMemberChunks, hc, hB, List.map_cons]
          rfl
        | num n2 =>
          have hc : formatJSONKeyValueResult px k (.num n2) q =
              .ok (specFieldChunk px q (k, JSON.num n2)).2 := by
            simp [formatJSONKeyValueResult, formatValueForEnvResult,
              specFieldChunk, specExpand, joinSep, unwrapQuotes_intRepr]
          simp only [objMemberChunks, hc, hB, List.map_cons]
          rfl
        | bool b =>
          have hc : formatJSONKeyValueResult px k (.bool b) q =
              .ok (specFieldChunk px q (k, JSON.bool b)).2 := by
            cases b <;>
              simp [formatJSONKeyValueResult, formatValueForEnvResult,
                specFieldChunk, specExpand, joinSep,
                show unwrapQuotes "true" = "true" from rfl,
                show unwrapQuotes "false" = "false" from rfl]
          simp only [objMemberChunks, hc, hB, List.map_cons]
          rfl
        | null =>
          have hc : formatJSONKeyValueResult px k JSON.null q =
              .ok (specFieldChunk px q (k, JSON.null)).2 := by
            simp [formatJSONKeyValueResult, formatValueForEnvResult,
              specFieldChunk, specExpand, joinSep,
              show marshalJSON JSON.null = "null" from rfl,
              show unwrapQuotes "null" = "null" from rfl]
          simp only [objMemberChunks, hc, hB, List.map_cons]
          rfl
    · intro px i es q hle hall
      cases es with
      | nil => simp [arrElemChunks, specElemChunks]
      | cons v rest =>
        have hszrest : sizeOf rest ≤ n := by
          simp only [List.cons.sizeOf_spec] at hle
          omega
        have hallrest : ∀ w ∈ rest, noEmpty w = true := fun w hw =>
          hall w (List.mem_cons_of_mem _ hw)
        have hC := ihC px (i + 1) rest q hszrest hallrest
        have hv : noEmpty v = true := hall v (List.mem_cons_self _ _)
        have hszv : sizeOf v ≤ n := by
          simp only [List.cons.sizeOf_spec] at hle
          omega
        cases v with
        | obj fs2 =>
          have hc : processAnyJSONValue (px ++ "_" ++ natRepr i) (.obj fs2) q =
              .ok (joinSep "\n" ((specExpand (px ++ "_" ++ natRepr i)
                (JSON.obj fs2)).map fun r => formatKeyValuePair r.1 r.2 q)) := by
            rw [ihA (px ++ "_" ++ natRepr i) (.obj fs2) q hszv hv rfl]
          simp only [arrElemChunks, hc, hC]
          rfl
        | arr es2 =>
          have hc : processAnyJSONValue (px ++ "_" ++ natRepr i) (.arr es2) q =
              .ok (joinSep "\n" ((specExpand (px ++ "_" ++ natRepr i)
                (JSON.arr es2)).map fun r => formatKeyValuePair r.1 r.2 q)) := by
            rw [ihA (px ++ "_" ++ natRepr i) (.arr es2) q hszv hv rfl]
          simp only [arrElemChunks, hc, hC]
          rfl
        | str s =>
          have hc : formatValueForEnvResult (.str s) = .ok s := rfl
          simp only [arrElemChunks, hc, hC]
          simp [specElemChunks, specExpand, joinSep]
        | num n2 =>
          have hc : formatValueForEnvResult (.num n2) = .ok (intRepr n2) := rfl
          simp only [arrElemChunks, hc, hC]
          simp [specElemChunks, specExpand, joinSep, unwrapQuotes_intRepr]
        | bool b =>
          cases b <;>
            (simp only [arrElemChunks, hC]
             simp [specElemChunks, specExpand, joinSep, formatValueForEnvResult,
               show unwrapQuotes "true" = "true" from rfl,
               show unwrapQuotes "false" = "false" from rfl])
        | null =>
          simp only [arrElemChunks, hC]
          simp [specElemChunks, specExpand, joinSep, formatValueForEnvResult,
            show marshalJSON JSON.null = "null" from rfl,
            show unwrapQuotes "null" = "null" from rfl]

/-- C3 (amended): with no requested key and JSON expansion enabled, a
secret that parses as a JSON object or array containing no empty
composites is recursively expanded exactly as the spec describes — object
members as `prefix_memberName` in member-name-sorted order, array elements
as 0-based `prefix_index`, nested values recursing with the composite key,
numbers and booleans in natural text form and `null` as the literal
`null` — except that string leaves are first unwrapped of one layer of
surrounding quotes rather than emitted verbatim.  The spec's own scenario
holds: `{"a":1,"b":[10,20]}` under prefix `CFG` yields exactly
`CFG_a=1`, `CFG_b_0=10`, `CFG_b_1=20`. -/
theorem c3_recursive_expansion :
    (∀ (px : String) (j : JSON) (q : Bool), noEmpty j = true →
      isStrLeaf j = false →
      processAnyJSONValue px j q =
        .ok (joinSep "\n" ((specExpand px j).map
          fun p => formatKeyValuePair p.1 p.2 q))) ∧
    processAnyJSONValue "CFG"
      (.obj [("a", .num 1), ("b", .arr [.num 10, .num 20])]) false =
      .ok "CFG_a=1\nCFG_b_0=10\nCFG_b_1=20" := by
  constructor
  · intro px j q h hs
    exact (processAny_spec_aux (sizeOf j)).1 px j q (Nat.le_refl _) h hs
  · rfl

/-- C3 counterexample to the claim as stated: the object `{"a":"'v'"}`
under prefix `P` expands to `P_a=v`, not `P_a='v'` — the string leaf is
not taken verbatim; its surrounding quotes are unwrapped. -/
theorem c3_string_leaf_counterexample :
    processAnyJSONValue "P" (JSON.obj [("a", JSON.str "'v'")]) false =
      .ok "P_a=v" ∧
    ("P_a=v" : String) ≠ "P_a='v'" :=
  ⟨rfl, by decide⟩

/-- C3 witness: the amended refinement applied to the spec's `CFG`
scenario value. -/
theorem c3_recursive_expansion_witness :
    noEmpty (JSON.obj [("a", JSON.num 1),
      ("b", JSON.arr [JSON.num 10, JSON.num 20])]) = true ∧
    isStrLeaf (JSON.obj [("a", JSON.num 1),
      ("b", JSON.arr [JSON.num 10, JSON.num 20])]) = false ∧
    processAnyJSONValue "CFG" (JSON.obj [("a", JSON.num 1),
      ("b", JSON.arr [JSON.num 10, JSON.num 20])]) false =
      .ok (joinSep "\n" ((specExpand "CFG" (JSON.obj [("a", JSON.num 1),
        ("b", JSON.arr [JSON.num 10, JSON.num 20])])).map
          fun p => formatKeyValuePair p.1 p.2 false)) :=
  ⟨rfl, rfl, c3_recursive_expansion.1 "CFG"
    (JSON.obj [("a", JSON.num 1), ("b", JSON.arr [JSON.num 10, JSON.num 20])])
    false rfl rfl⟩

/-! ## C6: serialisation round-trip for parsed addresses -/

/-- Every character of the string is below U+0100 (the range in which the
byte-level model of `net/url` escaping is faithful). -/
def allBelow256 (s : String) : Bool :=
  s.data.all (fun c => decide (c.toNat < 256))

/-- The field grammar every address produced by `ParseResult` satisfies:
non-empty components, no separator characters where the grammar forbids
them, and version/region already in canonical (default-applied) form. -/
def ParsedShape (u : SecretURI) : Bool :=
  (!u.platform.data.isEmpty && !u.platform.data.contains ':' &&
    !u.platform.data.contains '/' && !u.platform.data.contains '?') &&
  (!u.service.data.isEmpty && !u.service.data.contains '/' &&
    !u.service.data.contains '?') &&
  (!u.account.data.isEmpty && !u.account.data.contains '/' &&
    !u.account.data.contains '?') &&
  (!u.secretName.data.isEmpty && !u.secretName.data.contains '?') &&
  (u.version == determineVersion u.platform u.version) &&
  (u.region == determineRegion u.platform u.region)

theorem hexVal_hexUpper (n : Nat) (h : n < 16) :
    hexVal (queryEscapeChar.hexUpper n) = some n := by
  revert h
  revert n
  decide

theorem queryEscapeChar_toNat_range (c : Char) (d : Char)
    (hd : d ∈ queryEscapeChar c) :
    (48 ≤ d.toNat ∧ d.toNat ≤ 57) ∨ (65 ≤ d.toNat ∧ d.toNat ≤ 90) ∨
    (97 ≤ d.toNat ∧ d.toNat ≤ 122) ∨ d.toNat = 37 ∨ d.toNat = 43 ∨
    d.toNat = 45 ∨ d.toNat = 95 ∨ d.toNat = 46 ∨ d.toNat = 126 := by
  unfold queryEscapeChar at hd
  split_ifs at hd with h1 h2
  · rcases List.mem_singleton.mp hd with rfl
    rcases h1 with ⟨ha, hb⟩ | ⟨ha, hb⟩ | ⟨ha, hb⟩ | rfl | rfl | rfl | rfl
    · exact Or.inr (Or.inl ⟨ha, hb⟩)
    · exact Or.inr (Or.inr (Or.inl ⟨ha, hb⟩))
    · exact Or.inl ⟨ha, hb⟩
    · decide
    · decide
    · decide
    · decide
  · rcases List.mem_singleton.mp hd with rfl
    decide
  · have hup : ∀ n, n < 16 →
        (48 ≤ (queryEscapeChar.hexUpper n).toNat ∧
            (queryEscapeChar.hexUpper n).toNat ≤ 57) ∨
        (65 ≤ (queryEscapeChar.hexUpper n).toNat ∧
            (queryEscapeChar.hexUpper n).toNat ≤ 70) := by decide
    rcases List.mem_cons.mp hd with rfl | hd2
    · decide
    rcases List.mem_cons.mp hd2 with rfl | hd3
    · rcases hup (c.toNat / 16 % 16) (Nat.mod_lt _ (by decide)) with ⟨ha, hb⟩ | ⟨ha, hb⟩
      · exact Or.inl ⟨ha, hb⟩
      · exact Or.inr (Or.inl ⟨ha, by omega⟩)
    rcases List.mem_cons.mp hd3 with rfl | hd4
    · rcases hup (c.toNat % 16) (Nat.mod_lt _ (by decide)) with ⟨ha, hb⟩ | ⟨ha, hb⟩
      · exact Or.inl ⟨ha, hb⟩
      · exact Or.inr (Or.inl ⟨ha, by omega⟩)
    · simp at hd4

theorem queryEscapeChar_ne_nil (c : Char) : queryEscapeChar c ≠ [] := by
  unfold queryEscapeChar
  split_ifs <;> simp

theorem queryEscape_mem_range (v : String) (d : Char)
    (hd : d ∈ (queryEscape v).data) :
    (48 ≤ d.toNat ∧ d.toNat ≤ 57) ∨ (65 ≤ d.toNat ∧ d.toNat ≤ 90) ∨
    (97 ≤ d.toNat ∧ d.toNat ≤ 122) ∨ d.toNat = 37 ∨ d.toNat = 43 ∨
    d.toNat = 45 ∨ d.toNat = 95 ∨ d.toNat = 46 ∨ d.toNat = 126 := by
  have hd2 : d ∈ v.data.flatMap queryEscapeChar := hd
  rcases List.mem_flatMap.mp hd2 with ⟨c, hc, hdc⟩
  exact queryEscapeChar_toNat_range c d hdc

/-- Unescaping inverts escaping for strings below U+0100. -/
theorem queryUnescape_flatMap_escape : ∀ (l : List Char),
    (∀ c ∈ l, c.toNat < 256) →
    queryUnescape (l.flatMap queryEscapeChar) = some l := by
  intro l
  induction l with
  | nil => intro _; rfl
  | cons c rest ih =>
    intro h256
    have hc256 : c.toNat < 256 := h256 c (List.mem_cons_self _ _)
    have ihr := ih (fun x hx => h256 x (List.mem_cons_of_mem _ hx))
    rw [List.flatMap_cons]
    by_cases h1 : (65 ≤ c.toNat ∧ c.toNat ≤ 90) ∨ (97 ≤ c.toNat ∧ c.toNat ≤ 122) ∨
        (48 ≤ c.toNat ∧ c.toNat ≤ 57) ∨ c = '-' ∨ c = '_' ∨ c = '.' ∨ c = '~'
    · have he : queryEscapeChar c = [c] := by
        unfold queryEscapeChar
        rw [if_pos h1]
      have hcp : c ≠ '%' ∧ c ≠ '+' := by
        constructor <;>
          (intro heq
           subst heq
           rcases h1 with ⟨ha, hb⟩ | ⟨ha, hb⟩ | ⟨ha, hb⟩ | h | h | h | h <;>
             first
               | exact absurd ha (by decide)
               | exact absurd h (by decide))
      rw [he, List.singleton_append]
      have hstep : queryUnescape (c :: rest.flatMap queryEscapeChar) =
          (queryUnescape (rest.flatMap queryEscapeChar)).map (c :: ·) := by
        conv_lhs => unfold queryUnescape
        rw [if_neg hcp.1, if_neg hcp.2]
      rw [hstep, ihr]
      rfl
    · by_cases h2 : c = ' '
      · have he : queryEscapeChar c = ['+'] := by
          unfold queryEscapeChar
          rw [if_neg h1, if_pos h2]
        rw [he, List.singleton_append]
        subst h2
        have hstep : queryUnescape ('+' :: rest.flatMap queryEscapeChar) =
            (queryUnescape (rest.flatMap queryEscapeChar)).map (' ' :: ·) := by
          conv_lhs => unfold queryUnescape
          rw [if_neg (by decide : ¬('+' : Char) = '%'), if_pos rfl]
        rw [hstep, ihr]
        rfl
      · have he : queryEscapeChar c = ['%',
            queryEscapeChar.hexUpper (c.toNat / 16 % 16),
            queryEscapeChar.hexUpper (c.toNat % 16)] := by
          unfold queryEscapeChar
          rw [if_neg h1, if_neg h2]
        rw [he, List.cons_append, List.cons_append, List.cons_append,
          List.nil_append]
        have hq : queryUnescape ('%' ::
            queryEscapeChar.hexUpper (c.toNat / 16 % 16) ::
            queryEscapeChar.hexUpper (c.toNat % 16) ::
            rest.flatMap queryEscapeChar) =
            (queryUnescape (rest.flatMap queryEscapeChar)).map
              (Char.ofNat (c.toNat / 16 % 16 * 16 + c.toNat % 16) :: ·) := by
          simp only [queryUnescape, if_pos rfl]
          rw [hexVal_hexUpper _ (Nat.mod_lt _ (by decide)),
            hexVal_hexUpper _ (Nat.mod_lt _ (by decide))]
          rfl
        rw [hq, ihr]
        simp only [Option.map_some']
        have harith : c.toNat / 16 % 16 * 16 + c.toNat % 16 = c.toNat := by omega
        rw [harith, Char.ofNat_toNat]

theorem queryEscape_data_ne_nil {v : String} (h : v ≠ "") :
    (queryEscape v).data ≠ [] := by
  cases hv : v.data with
  | nil =>
    exfalso
    apply h
    rw [String.ext_iff]
    exact hv
  | cons c cs =>
    show v.data.flatMap queryEscapeChar ≠ []
    rw [hv, List.flatMap_cons]
    intro hnil
    exact queryEscapeChar_ne_nil c (List.append_eq_nil.mp hnil).1

theorem param_dropped (name : String) :
    strEndsWith (name ++ "=" ++ queryEscape "") "=" = true := by
  show strEndsWith (name ++ "=" ++ "") "=" = true
  unfold strEndsWith
  rw [show (name ++ "=" ++ "").data = name.data ++ ['='] from by
    simp [String.data_append]]
  rw [List.reverse_append]
  simp [List.isPrefixOf]

theorem param_kept {v : String} (hv : v ≠ "") (name : String) :
    strEndsWith (name ++ "=" ++ queryEscape v) "=" = false := by
  have hne := queryEscape_data_ne_nil hv
  cases hrev : (queryEscape v).data.reverse with
  | nil => exact absurd (List.reverse_eq_nil_iff.mp hrev) hne
  | cons d t =>
    have hd : d ∈ (queryEscape v).data := by
      have hm : d ∈ (queryEscape v).data.reverse :=
        hrev ▸ List.mem_cons_self _ _
      exact List.mem_reverse.mp hm
    have h61 : ('=' : Char).toNat = 61 := rfl
    have hd61 : d.toNat ≠ 61 := by
      rcases queryEscape_mem_range v d hd with
        ⟨a, b⟩ | ⟨a, b⟩ | ⟨a, b⟩ | hh | hh | hh | hh | hh | hh <;> omega
    have hdne : ¬('=' : Char) = d := fun heq => hd61 (by rw [← heq]; exact h61)
    unfold strEndsWith
    have hdata : (name ++ "=" ++ queryEscape v).data.reverse =
        d :: (t ++ ('=' :: name.data.reverse)) := by
      rw [show (name ++ "=" ++ queryEscape v).data =
        (name.data ++ ['=']) ++ (queryEscape v).data from by
          simp [String.data_append]]
      rw [List.reverse_append, hrev, List.reverse_append]
      simp
    rw [hdata, show (("=" : String)).data.reverse = ['='] from rfl]
    simp only [List.isPrefixOf, Bool.and_eq_true, beq_iff_eq]
    simp [hdne]

theorem splitChar_no_sep {c : Char} : ∀ {l : List Char}, c ∉ l →
    splitChar c l = [l] := by
  intro l
  induction l with
  | nil => intro _; rfl
  | cons x xs ih =>
    intro h
    have hx : ¬x = c := fun heq => h (heq ▸ List.mem_cons_self _ _)
    have hxs := ih (fun hm => h (List.mem_cons_of_mem _ hm))
    simp only [splitChar, if_neg hx, hxs]

theorem splitChar_sep_append {c : Char} : ∀ {a : List Char}, c ∉ a →
    ∀ (b : List Char), splitChar c (a ++ c :: b) = a :: splitChar c b := by
  intro a
  induction a with
  | nil =>
    intro _ b
    simp [splitChar]
  | cons x xs ih =>
    intro h b
    have hx : ¬x = c := fun heq => h (heq ▸ List.mem_cons_self _ _)
    have ihx := ih (fun hm => h (List.mem_cons_of_mem _ hm)) b
    rw [List.cons_append]
    simp only [splitChar, if_neg hx, ihx]

theorem querySegPair_param (name v : String) (hne : '=' ∉ name.data)
    (hunesc : queryUnescape name.data = some name.data)
    (h256 : ∀ c ∈ v.data, c.toNat < 256) :
    querySegPair (name ++ "=" ++ queryEscape v).data = some (name, v) := by
  have hdata : (name ++ "=" ++ queryEscape v).data =
      name.data ++ '=' :: (queryEscape v).data := by
    simp [String.data_append]
  rw [hdata]
  unfold querySegPair
  rw [breakAtChar_build _ hne]
  show (match queryUnescape name.data,
      queryUnescape (v.data.flatMap queryEscapeChar) with
    | some k2, some v2 => some (⟨k2⟩, ⟨v2⟩)
    | _, _ => none) = some (name, v)
  rw [hunesc, queryUnescape_flatMap_escape v.data h256]

theorem goQueryPairs_params : ∀ (ps : List (String × String)),
    (∀ p ∈ ps, '=' ∉ p.1.data ∧ ';' ∉ p.1.data ∧ p.1.data ≠ [] ∧
      queryUnescape p.1.data = some p.1.data ∧ ∀ c ∈ p.2.data, c.toNat < 256) →
    goQueryPairs ((ps.map (fun p => p.1 ++ "=" ++ queryEscape p.2)).map
      String.data) = some ps := by
  intro ps
  induction ps with
  | nil => intro _; rfl
  | cons p rest ih =>
    intro hall
    obtain ⟨h1, h2, h3, h4, h5⟩ := hall p (List.mem_cons_self _ _)
    have ihr := ih (fun x hx => hall x (List.mem_cons_of_mem _ hx))
    simp only [List.map_cons]
    have hdata : (p.1 ++ "=" ++ queryEscape p.2).data =
        p.1.data ++ '=' :: (queryEscape p.2).data := by
      simp [String.data_append]
    have hsemimem : ';' ∉ (p.1 ++ "=" ++ queryEscape p.2).data := by
      rw [hdata]
      intro hm
      rcases List.mem_append.mp hm with hm1 | hm2
      · exact h2 hm1
      · rcases List.mem_cons.mp hm2 with heq | hm3
        · exact absurd heq (by decide)
        · have h59 : (';' : Char).toNat = 59 := rfl
          rcases queryEscape_mem_range p.2 ';' hm3 with
            ⟨a, b⟩ | ⟨a, b⟩ | ⟨a, b⟩ | hh | hh | hh | hh | hh | hh <;> omega
    have hsemi : ((p.1 ++ "=" ++ queryEscape p.2).data).contains ';' = false := by
      cases hcon : ((p.1 ++ "=" ++ queryEscape p.2).data).contains ';'
      · rfl
      · exact absurd (charListContains_iff.mp hcon) hsemimem
    have hsegne : (p.1 ++ "=" ++ queryEscape p.2).data ≠ [] := by
      rw [hdata]
      intro hn
      exact absurd (List.append_eq_nil.mp hn).2 (by simp)
    conv_lhs => unfold goQueryPairs
    rw [hsemi]
    simp only [Bool.false_eq_true, if_false]
    rw [if_neg hsegne, querySegPair_param p.1 p.2 h1 h4 h5, ihr]
    rfl

theorem param_no_special (name v : String) (c : Char) (hn : c ∉ name.data)
    (hc : c.toNat = 38 ∨ c.toNat = 63) :
    c ∉ (name ++ "=" ++ queryEscape v).data := by
  have hdata : (name ++ "=" ++ queryEscape v).data =
      name.data ++ '=' :: (queryEscape v).data := by
    simp [String.data_append]
  rw [hdata]
  intro hm
  rcases List.mem_append.mp hm with hm1 | hm2
  · exact hn hm1
  rcases List.mem_cons.mp hm2 with heq | hm3
  · have h61 : c.toNat = 61 := by rw [heq]; rfl
    omega
  · rcases queryEscape_mem_range v c hm3 with
      ⟨a, b⟩ | ⟨a, b⟩ | ⟨a, b⟩ | hh | hh | hh | hh | hh | hh <;> omega

theorem splitChar_joinSep_params : ∀ (parts : List String),
    (∀ p ∈ parts, '&' ∉ p.data) → parts ≠ [] →
    splitChar '&' (joinSep "&" parts).data = parts.map String.data := by
  intro parts
  induction parts with
  | nil => intro _ h; exact absurd rfl h
  | cons x rest ih =>
    intro hall _
    cases rest with
    | nil =>
      show splitChar '&' x.data = [x.data]
      exact splitChar_no_sep (hall x (List.mem_cons_self _ _))
    | cons y rest2 =>
      have hx : '&' ∉ x.data := hall x (List.mem_cons_self _ _)
      have hdata : (joinSep "&" (x :: y :: rest2)).data =
          x.data ++ '&' :: (joinSep "&" (y :: rest2)).data := by
        simp [joinSep, String.data_append]
      rw [hdata, splitChar_sep_append hx]
      rw [ih (fun p hp => hall p (List.mem_cons_of_mem _ hp)) (by simp)]
      rfl

theorem joinSep_data_head (sep x : String) (rest : List String) :
    ∃ t, (joinSep sep (x :: rest)).data = x.data ++ t := by
  cases rest with
  | nil => exact ⟨[], (List.append_nil _).symm⟩
  | cons y r2 =>
    refine ⟨sep.data ++ (joinSep sep (y :: r2)).data, ?_⟩
    simp [joinSep, String.data_append]

theorem determineVersion_idem (p v : String) :
    determineVersion p (determineVersion p v) = determineVersion p v := by
  by_cases hv : v = ""
  · subst hv
    by_cases hp : p = "aws"
    · subst hp
      rfl
    · by_cases hp2 : p = "googlecloud"
      · subst hp2
        rfl
      · have h1 : determineVersion p "" = "" := by
          unfold determineVersion
          rw [if_neg (by simp), if_neg hp, if_neg hp2]
        rw [h1, h1]
  · have h1 : determineVersion p v = v := by
      unfold determineVersion
      rw [if_pos hv]
    rw [h1, h1]

theorem determineRegion_idem (p v : String) :
    determineRegion p (determineRegion p v) = determineRegion p v := by
  by_cases hv : v = ""
  · subst hv
    by_cases hp : p = "aws"
    · subst hp
      rfl
    · have h1 : determineRegion p "" = "" := by
        unfold determineRegion
        rw [if_neg (by simp), if_neg hp]
      rw [h1, h1]
  · have h1 : determineRegion p v = v := by
      unfold determineRegion
      rw [if_pos hv]
    rw [h1, h1]

theorem createSecretURI_canonical (u : SecretURI)
    (hver : u.version = determineVersion u.platform u.version)
    (hreg : u.region = determineRegion u.platform u.region) :
    createSecretURI u.platform u.service u.account u.secretName
      u.version u.region u.key = u := by
  have hv2 : (if determineVersion u.platform u.version ≠ ""
      then determineVersion u.platform u.version else "") = u.version := by
    rw [← hver]
    by_cases h : u.version = ""
    · rw [if_neg (by simp [h]), h]
    · rw [if_pos h]
  have hr2 : (if determineRegion u.platform u.region ≠ ""
      then determineRegion u.platform u.region else "") = u.region := by
    rw [← hreg]
    by_cases h : u.region = ""
    · rw [if_neg (by simp [h]), h]
    · rw [if_pos h]
  have hk2 : (if u.key ≠ "" then u.key else "") = u.key := by
    by_cases h : u.key = ""
    · rw [if_neg (by simp [h]), h]
    · rw [if_pos h]
  unfold createSecretURI
  cases u with
  | mk p sv a n k v r =>
    simp only at hv2 hr2 hk2 ⊢
    simp only [SecretURI.mk.injEq, true_and]
    exact ⟨hk2, hv2, hr2⟩

theorem parseQueryParams_of_params (ps : List (String × String)) (hne : ps ≠ [])
    (hcond : ∀ p ∈ ps, '=' ∉ p.1.data ∧ ';' ∉ p.1.data ∧ '&' ∉ p.1.data ∧
      p.1.data ≠ [] ∧ queryUnescape p.1.data = some p.1.data ∧
      (∀ c ∈ p.2.data, c.toNat < 256)) :
    parseQueryParams
      (joinSep "&" (ps.map (fun p => p.1 ++ "=" ++ queryEscape p.2))) =
      .ok (queryGet ps "version", queryGet ps "region", queryGet ps "key") := by
  obtain ⟨p0, rest, rfl⟩ : ∃ p0 rest, ps = p0 :: rest := by
    cases ps with
    | nil => exact absurd rfl hne
    | cons p0 rest => exact ⟨p0, rest, rfl⟩
  have hamp : ∀ x ∈ (p0 :: rest).map (fun p => p.1 ++ "=" ++ queryEscape p.2),
      '&' ∉ x.data := by
    intro x hx
    rcases List.mem_map.mp hx with ⟨p, hp, rfl⟩
    exact param_no_special p.1 p.2 '&' (hcond p hp).2.2.1 (Or.inl rfl)
  have hsplit := splitChar_joinSep_params _ hamp (by simp)
  have hgo := goQueryPairs_params (p0 :: rest) (fun p hp =>
    ⟨(hcond p hp).1, (hcond p hp).2.1, (hcond p hp).2.2.2.1,
      (hcond p hp).2.2.2.2.1, (hcond p hp).2.2.2.2.2⟩)
  have hqne : joinSep "&"
      ((p0 :: rest).map (fun p => p.1 ++ "=" ++ queryEscape p.2)) ≠ "" := by
    rw [List.map_cons]
    rcases joinSep_data_head "&" (p0.1 ++ "=" ++ queryEscape p0.2)
      ((rest).map (fun p => p.1 ++ "=" ++ queryEscape p.2)) with ⟨t, ht⟩
    intro hq
    have hqd : (joinSep "&" ((p0.1 ++ "=" ++ queryEscape p0.2) ::
        rest.map (fun p => p.1 ++ "=" ++ queryEscape p.2))).data = [] := by
      rw [hq]
    rw [ht] at hqd
    have hpd : (p0.1 ++ "=" ++ queryEscape p0.2).data =
        p0.1.data ++ '=' :: (queryEscape p0.2).data := by
      simp [String.data_append]
    rw [hpd] at hqd
    rw [List.append_assoc] at hqd
    exact absurd (List.append_eq_nil.mp hqd).2 (by simp)
  unfold parseQueryParams
  rw [if_neg hqne, hsplit, hgo]

/-- Reparsing the query produced by `collectQueryParams` recovers exactly
the version, region and key of the address (below U+0100). -/
theorem parseQuery_roundtrip (u : SecretURI)
    (h1 : allBelow256 u.version = true) (h2 : allBelow256 u.key = true)
    (h3 : allBelow256 u.region = true) :
    parseQueryParams (joinSep "&" (collectQueryParams u)) =
      .ok (u.version, u.region, u.key) := by
  have hb1 : ∀ c ∈ u.version.data, c.toNat < 256 := by
    intro c hc
    simp only [allBelow256, List.all_eq_true, decide_eq_true_eq] at h1
    exact h1 c hc
  have hb2 : ∀ c ∈ u.key.data, c.toNat < 256 := by
    intro c hc
    simp only [allBelow256, List.all_eq_true, decide_eq_true_eq] at h2
    exact h2 c hc
  have hb3 : ∀ c ∈ u.region.data, c.toNat < 256 := by
    intro c hc
    simp only [allBelow256, List.all_eq_true, decide_eq_true_eq] at h3
    exact h3 c hc
  by_cases hv : u.version = "" <;> by_cases hk : u.key = "" <;>
    by_cases hr : u.region = ""
  · have e1 : (!strEndsWith ("version" ++ "=" ++ queryEscape u.version) "=") =
        false := by rw [hv, param_dropped "version"]; rfl
    have e2 : (!strEndsWith ("key" ++ "=" ++ queryEscape u.key) "=") =
        false := by rw [hk, param_dropped "key"]; rfl
    have e3 : (!strEndsWith ("region" ++ "=" ++ queryEscape u.region) "=") =
        false := by rw [hr, param_dropped "region"]; rfl
    have hcol : collectQueryParams u = [] := by
      unfold collectQueryParams
      simp only [List.map_cons, List.map_nil, List.filter_cons, List.filter_nil,
        e1, e2, e3]
      simp
    rw [hcol, hv, hk, hr]
    rfl
  · have e1 : (!strEndsWith ("version" ++ "=" ++ queryEscape u.version) "=") =
        false := by rw [hv, param_dropped "version"]; rfl
    have e2 : (!strEndsWith ("key" ++ "=" ++ queryEscape u.key) "=") =
        false := by rw [hk, param_dropped "key"]; rfl
    have e3 : (!strEndsWith ("region" ++ "=" ++ queryEscape u.region) "=") =
        true := by rw [param_kept hr "region"]; rfl
    have hcol : collectQueryParams u = [("region", u.region)].map
        (fun p => p.1 ++ "=" ++ queryEscape p.2) := by
      unfold collectQueryParams
      simp only [List.map_cons, List.map_nil, List.filter_cons, List.filter_nil,
        e1, e2, e3]
      simp
    rw [hcol, parseQueryParams_of_params [("region", u.region)] (by simp)
      (by
        intro p hp
        rcases List.mem_singleton.mp hp with rfl
        exact ⟨by show '=' ∉ ("region" : String).data; decide, by show ';' ∉ ("region" : String).data; decide, by show '&' ∉ ("region" : String).data; decide, by show ("region" : String).data ≠ []; decide, by rfl, hb3⟩)]
    rw [hv, hk]
    rfl
  · have e1 : (!strEndsWith ("version" ++ "=" ++ queryEscape u.version) "=") =
        false := by rw [hv, param_dropped "version"]; rfl
    have e2 : (!strEndsWith ("key" ++ "=" ++ queryEscape u.key) "=") =
        true := by rw [param_kept hk "key"]; rfl
    have e3 : (!strEndsWith ("region" ++ "=" ++ queryEscape u.region) "=") =
        false := by rw [hr, param_dropped "region"]; rfl
    have hcol : collectQueryParams u = [("key", u.key)].map
        (fun p => p.1 ++ "=" ++ queryEscape p.2) := by
      unfold collectQueryParams
      simp only [List.map_cons, List.map_nil, List.filter_cons, List.filter_nil,
        e1, e2, e3]
      simp
    rw [hcol, parseQueryParams_of_params [("key", u.key)] (by simp)
      (by
        intro p hp
        rcases List.mem_singleton.mp hp with rfl
        exact ⟨by show '=' ∉ ("key" : String).data; decide, by show ';' ∉ ("key" : String).data; decide, by show '&' ∉ ("key" : String).data; decide, by show ("key" : String).data ≠ []; decide, by rfl, hb2⟩)]
    rw [hv, hr]
    rfl
  · have e1 : (!strEndsWith ("version" ++ "=" ++ queryEscape u.version) "=") =
        false := by rw [hv, param_dropped "version"]; rfl
    have e2 : (!strEndsWith ("key" ++ "=" ++ queryEscape u.key) "=") =
        true := by rw [param_kept hk "key"]; rfl
    have e3 : (!strEndsWith ("region" ++ "=" ++ queryEscape u.region) "=") =
        true := by rw [param_kept hr "region"]; rfl
    have hcol : collectQueryParams u = [("key", u.key), ("region", u.region)].map
        (fun p => p.1 ++ "=" ++ queryEscape p.2) := by
      unfold collectQueryParams
      simp only [List.map_cons, List.map_nil, List.filter_cons, List.filter_nil,
        e1, e2, e3]
      simp
    rw [hcol, parseQueryParams_of_params [("key", u.key), ("region", u.region)]
      (by simp)
      (by
        intro p hp
        rcases List.mem_cons.mp hp with rfl | hp2
        · exact ⟨by show '=' ∉ ("key" : String).data; decide, by show ';' ∉ ("key" : String).data; decide, by show '&' ∉ ("key" : String).data; decide, by show ("key" : String).data ≠ []; decide, by rfl, hb2⟩
        rcases List.mem_singleton.mp hp2 with rfl
        exact ⟨by show '=' ∉ ("region" : String).data; decide, by show ';' ∉ ("region" : String).data; decide, by show '&' ∉ ("region" : String).data; decide, by show ("region" : String).data ≠ []; decide, by rfl, hb3⟩)]
    rw [hv]
    rfl
  · have e1 : (!strEndsWith ("version" ++ "=" ++ queryEscape u.version) "=") =
        true := by rw [param_kept hv "version"]; rfl
    have e2 : (!strEndsWith ("key" ++ "=" ++ queryEscape u.key) "=") =
        false := by rw [hk, param_dropped "key"]; rfl
    have e3 : (!strEndsWith ("region" ++ "=" ++ queryEscape u.region) "=") =
        false := by rw [hr, param_dropped "region"]; rfl
    have hcol : collectQueryParams u = [("version", u.version)].map
        (fun p => p.1 ++ "=" ++ queryEscape p.2) := by
      unfold collectQueryParams
      simp only [List.map_cons, List.map_nil, List.filter_cons, List.filter_nil,
        e1, e2, e3]
      simp
    rw [hcol, parseQueryParams_of_params [("version", u.version)] (by simp)
      (by
        intro p hp
        rcases List.mem_singleton.mp hp with rfl
        exact ⟨by show '=' ∉ ("version" : String).data; decide, by show ';' ∉ ("version" : String).data; decide, by show '&' ∉ ("version" : String).data; decide, by show ("version" : String).data ≠ []; decide, by rfl, hb1⟩)]
    rw [hk, hr]
    rfl
  · have e1 : (!strEndsWith ("version" ++ "=" ++ queryEscape u.version) "=") =
        true := by rw [param_kept hv "version"]; rfl
    have e2 : (!strEndsWith ("key" ++ "=" ++ queryEscape u.key) "=") =
        false := by rw [hk, param_dropped "key"]; rfl
    have e3 : (!strEndsWith ("region" ++ "=" ++ queryEscape u.region) "=") =
        true := by rw [param_kept hr "region"]; rfl
    have hcol : collectQueryParams u =
        [("version", u.version), ("region", u.region)].map
          (fun p => p.1 ++ "=" ++ queryEscape p.2) := by
      unfold collectQueryParams
      simp only [List.map_cons, List.map_nil, List.filter_cons, List.filter_nil,
        e1, e2, e3]
      simp
    rw [hcol, parseQueryParams_of_params
      [("version", u.version), ("region", u.region)] (by simp)
      (by
        intro p hp
        rcases List.mem_cons.mp hp with rfl | hp2
        · exact ⟨by show '=' ∉ ("version" : String).data; decide, by show ';' ∉ ("version" : String).data; decide, by show '&' ∉ ("version" : String).data; decide, by show ("version" : String).data ≠ []; decide, by rfl, hb1⟩
        rcases List.mem_singleton.mp hp2 with rfl
        exact ⟨by show '=' ∉ ("region" : String).data; decide, by show ';' ∉ ("region" : String).data; decide, by show '&' ∉ ("region" : String).data; decide, by show ("region" : String).data ≠ []; decide, by rfl, hb3⟩)]
    rw [hk]
    rfl
  · have e1 : (!strEndsWith ("version" ++ "=" ++ queryEscape u.version) "=") =
        true := by rw [param_kept hv "version"]; rfl
    have e2 : (!strEndsWith ("key" ++ "=" ++ queryEscape u.key) "=") =
        true := by rw [param_kept hk "key"]; rfl
    have e3 : (!strEndsWith ("region" ++ "=" ++ queryEscape u.region) "=") =
        false := by rw [hr, param_dropped "region"]; rfl
    have hcol : collectQueryParams u =
        [("version", u.version), ("key", u.key)].map
          (fun p => p.1 ++ "=" ++ queryEscape p.2) := by
      unfold collectQueryParams
      simp only [List.map_cons, List.map_nil, List.filter_cons, List.filter_nil,
        e1, e2, e3]
      simp
    rw [hcol, parseQueryParams_of_params
      [("version", u.version), ("key", u.key)] (by simp)
      (by
        intro p hp
        rcases List.mem_cons.mp hp with rfl | hp2
        · exact ⟨by show '=' ∉ ("version" : String).data; decide, by show ';' ∉ ("version" : String).data; decide, by show '&' ∉ ("version" : String).data; decide, by show ("version" : String).data ≠ []; decide, by rfl, hb1⟩
        rcases List.mem_singleton.mp hp2 with rfl
        exact ⟨by show '=' ∉ ("key" : String).data; decide, by show ';' ∉ ("key" : String).data; decide, by show '&' ∉ ("key" : String).data; decide, by show ("key" : String).data ≠ []; decide, by rfl, hb2⟩)]
    rw [hr]
    rfl
  · have e1 : (!strEndsWith ("version" ++ "=" ++ queryEscape u.version) "=") =
        true := by rw [param_kept hv "version"]; rfl
    have e2 : (!strEndsWith ("key" ++ "=" ++ queryEscape u.key) "=") =
        true := by rw [param_kept hk "key"]; rfl
    have e3 : (!strEndsWith ("region" ++ "=" ++ queryEscape u.region) "=") =
        true := by rw [param_kept hr "region"]; rfl
    have hcol : collectQueryParams u =
        [("version", u.version), ("key", u.key), ("region", u.region)].map
          (fun p => p.1 ++ "=" ++ queryEscape p.2) := by
      unfold collectQueryParams
      simp only [List.map_cons, List.map_nil, List.filter_cons, List.filter_nil,
        e1, e2, e3]
      simp
    rw [hcol, parseQueryParams_of_params
      [("version", u.version), ("key", u.key), ("region", u.region)] (by simp)
      (by
        intro p hp
        rcases List.mem_cons.mp hp with rfl | hp2
        · exact ⟨by show '=' ∉ ("version" : String).data; decide, by show ';' ∉ ("version" : String).data; decide, by show '&' ∉ ("version" : String).data; decide, by show ("version" : String).data ≠ []; decide, by rfl, hb1⟩
        rcases List.mem_cons.mp hp2 with rfl | hp3
        · exact ⟨by show '=' ∉ ("key" : String).data; decide, by show ';' ∉ ("key" : String).data; decide, by show '&' ∉ ("key" : String).data; decide, by show ("key" : String).data ≠ []; decide, by rfl, hb2⟩
        rcases List.mem_singleton.mp hp3 with rfl
        exact ⟨by show '=' ∉ ("region" : String).data; decide, by show ';' ∉ ("region" : String).data; decide, by show '&' ∉ ("region" : String).data; decide, by show ("region" : String).data ≠ []; decide, by rfl, hb3⟩)]
    rfl

theorem not_contains_of_bnot {l : List Char} {c : Char}
    (h : (!l.contains c) = true) : c ∉ l := by
  intro hm
  rw [charListContains_iff.mpr hm] at h
  exact absurd h (by decide)

theorem except_bind_ok {α β : Type} (a : α) (f : α → Except String β) :
    (Except.ok a >>= f) = f a := rfl

theorem checkScheme_append (R : String) :
    checkScheme (uriScheme ++ R) = .ok R := by
  unfold checkScheme
  have hsw : strStartsWith (uriScheme ++ R) uriScheme = true :=
    strStartsWith_append_self uriScheme R
  rw [if_pos hsw]
  rw [String.data_append, List.drop_left]

theorem parsePathComponents_roundtrip (p sv a n : String)
    (hp : p.data ≠ []) (hsv : sv.data ≠ []) (ha : a.data ≠ []) (hn : n.data ≠ [])
    (hpc : ':' ∉ p.data) (hps : '/' ∉ p.data) (hsvs : '/' ∉ sv.data)
    (has : '/' ∉ a.data) :
    parsePathComponents (p ++ ":" ++ sv ++ "/" ++ a ++ "/" ++ n) =
      .ok (p, sv, a, n) := by
  have hdata : (p ++ ":" ++ sv ++ "/" ++ a ++ "/" ++ n).data =
      (p.data ++ ':' :: sv.data) ++ '/' :: (a.data ++ '/' :: n.data) := by
    simp [String.data_append]
  have h0 : '/' ∉ p.data ++ ':' :: sv.data := by
    intro hm
    rcases List.mem_append.mp hm with h | h
    · exact hps h
    rcases List.mem_cons.mp h with he | h
    · exact absurd he (by decide)
    · exact hsvs h
  have hsp2 : splitNChar '/' 2 (a.data ++ '/' :: n.data) = [a.data, n.data] := by
    conv_lhs => unfold splitNChar
    rw [breakAtChar_build _ has]
    rfl
  have hsp3 : splitNChar '/' 3
      ((p.data ++ ':' :: sv.data) ++ '/' :: (a.data ++ '/' :: n.data)) =
      [p.data ++ ':' :: sv.data, a.data, n.data] := by
    conv_lhs => unfold splitNChar
    rw [breakAtChar_build _ h0]
    show (p.data ++ ':' :: sv.data) ::
      splitNChar '/' (1 + 1) (a.data ++ '/' :: n.data) = _
    rw [show splitNChar '/' (1 + 1) (a.data ++ '/' :: n.data) =
      [a.data, n.data] from hsp2]
  unfold parsePathComponents
  rw [hdata]
  simp only [hsp3]
  simp only [breakAtChar_build _ hpc]
  rw [if_neg (by simp [hp, hsv, ha, hn])]

theorem collect_nil_empty (u : SecretURI) (hcol : collectQueryParams u = []) :
    u.version = "" ∧ u.key = "" ∧ u.region = "" := by
  refine ⟨?_, ?_, ?_⟩
  · by_contra hne
    have hx : ("version" ++ "=" ++ queryEscape u.version) ∈ collectQueryParams u := by
      unfold collectQueryParams
      refine List.mem_filter.mpr ⟨?_, ?_⟩
      · exact List.mem_map.mpr ⟨("version", u.version), by simp, rfl⟩
      · rw [param_kept hne "version"]
        rfl
    rw [hcol] at hx
    simp at hx
  · by_contra hne
    have hx : ("key" ++ "=" ++ queryEscape u.key) ∈ collectQueryParams u := by
      unfold collectQueryParams
      refine List.mem_filter.mpr ⟨?_, ?_⟩
      · exact List.mem_map.mpr ⟨("key", u.key), by simp, rfl⟩
      · rw [param_kept hne "key"]
        rfl
    rw [hcol] at hx
    simp at hx
  · by_contra hne
    have hx : ("region" ++ "=" ++ queryEscape u.region) ∈ collectQueryParams u := by
      unfold collectQueryParams
      refine List.mem_filter.mpr ⟨?_, ?_⟩
      · exact List.mem_map.mpr ⟨("region", u.region), by simp, rfl⟩
      · rw [param_kept hne "region"]
        rfl
    rw [hcol] at hx
    simp at hx

/-- Serialising a canonically-shaped address and parsing it back yields
the identical address, whenever serialisation is stable under the
parser's initial trim and the query fields are below U+0100. -/
theorem getUri_roundtrip (u : SecretURI) (hshape : ParsedShape u = true)
    (h1 : allBelow256 u.version = true) (h2 : allBelow256 u.key = true)
    (h3 : allBelow256 u.region = true)
    (hclean : cleanURI (getUri u) = getUri u) :
    parseResult (getUri u) = .ok u := by
  simp only [ParsedShape, Bool.and_eq_true, beq_iff_eq] at hshape
  obtain ⟨⟨⟨⟨⟨hP, hS⟩, hA⟩, hN⟩, hver⟩, hreg⟩ := hshape
  obtain ⟨⟨⟨hP1, hP2⟩, hP3⟩, hP4⟩ := hP
  obtain ⟨⟨hS1, hS2⟩, hS3⟩ := hS
  obtain ⟨⟨hA1, hA2⟩, hA3⟩ := hA
  obtain ⟨hN1, hN2⟩ := hN
  have hpe : u.platform.data ≠ [] := (not_isEmpty_iff _).mp hP1
  have hpc : ':' ∉ u.platform.data := not_contains_of_bnot hP2
  have hps : '/' ∉ u.platform.data := not_contains_of_bnot hP3
  have hpq : '?' ∉ u.platform.data := not_contains_of_bnot hP4
  have hse : u.service.data ≠ [] := (not_isEmpty_iff _).mp hS1
  have hss : '/' ∉ u.service.data := not_contains_of_bnot hS2
  have hsq : '?' ∉ u.service.data := not_contains_of_bnot hS3
  have hae : u.account.data ≠ [] := (not_isEmpty_iff _).mp hA1
  have has : '/' ∉ u.account.data := not_contains_of_bnot hA2
  have haq : '?' ∉ u.account.data := not_contains_of_bnot hA3
  have hne2 : u.secretName.data ≠ [] := (not_isEmpty_iff _).mp hN1
  have hnq : '?' ∉ u.secretName.data := not_contains_of_bnot hN2
  have hPne : '?' ∉ (u.platform ++ ":" ++ u.service ++ "/" ++ u.account ++
      "/" ++ u.secretName).data := by
    rw [show (u.platform ++ ":" ++ u.service ++ "/" ++ u.account ++ "/" ++
        u.secretName).data = u.platform.data ++ ':' :: (u.service.data ++
        '/' :: (u.account.data ++ '/' :: u.secretName.data)) from by
      simp [String.data_append]]
    intro hm
    rcases List.mem_append.mp hm with h | h
    · exact hpq h
    rcases List.mem_cons.mp h with he | h
    · exact absurd he (by decide)
    rcases List.mem_append.mp h with h | h
    · exact hsq h
    rcases List.mem_cons.mp h with he | h
    · exact absurd he (by decide)
    rcases List.mem_append.mp h with h | h
    · exact haq h
    rcases List.mem_cons.mp h with he | h
    · exact absurd he (by decide)
    · exact hnq h
  have hpath := parsePathComponents_roundtrip u.platform u.service u.account
    u.secretName hpe hse hae hne2 hpc hps hss has
  have hquery := parseQuery_roundtrip u h1 h2 h3
  have hfinal := createSecretURI_canonical u hver hreg
  cases hcol : collectQueryParams u with
  | nil =>
    obtain ⟨hv0, hk0, hr0⟩ := collect_nil_empty u hcol
    have hgu : getUri u = uriScheme ++ (u.platform ++ ":" ++ u.service ++
        "/" ++ u.account ++ "/" ++ u.secretName) := by
      unfold getUri appendParamsIfNeeded
      rw [hcol]
      simp [String.append_assoc]
    have hsch := checkScheme_append (u.platform ++ ":" ++ u.service ++ "/" ++
      u.account ++ "/" ++ u.secretName)
    have hsplit : splitPathAndQuery (u.platform ++ ":" ++ u.service ++ "/" ++
        u.account ++ "/" ++ u.secretName) = (u.platform ++ ":" ++ u.service ++
        "/" ++ u.account ++ "/" ++ u.secretName, "") := by
      unfold splitPathAndQuery goCut
      rw [breakAtChar_none hPne]
    unfold parseResult
    rw [hclean, hgu, hsch]
    simp only [except_bind_ok, hsplit, hpath,
      show parseQueryParams "" = .ok ("", "", "") from rfl]
    rw [hv0, hr0, hk0] at hfinal
    exact congrArg Except.ok hfinal
  | cons p0 ps0 =>
    have hgu : getUri u = uriScheme ++ ((u.platform ++ ":" ++ u.service ++
        "/" ++ u.account ++ "/" ++ u.secretName) ++ "?" ++
        joinSep "&" (p0 :: ps0)) := by
      unfold getUri appendParamsIfNeeded
      rw [hcol]
      simp [String.append_assoc]
    have hsch := checkScheme_append ((u.platform ++ ":" ++ u.service ++ "/" ++
      u.account ++ "/" ++ u.secretName) ++ "?" ++ joinSep "&" (p0 :: ps0))
    have hsplit : splitPathAndQuery ((u.platform ++ ":" ++ u.service ++ "/" ++
        u.account ++ "/" ++ u.secretName) ++ "?" ++ joinSep "&" (p0 :: ps0)) =
        (u.platform ++ ":" ++ u.service ++ "/" ++ u.account ++ "/" ++
          u.secretName, joinSep "&" (p0 :: ps0)) := by
      unfold splitPathAndQuery goCut
      rw [show ((u.platform ++ ":" ++ u.service ++ "/" ++ u.account ++ "/" ++
          u.secretName) ++ "?" ++ joinSep "&" (p0 :: ps0)).data =
          (u.platform ++ ":" ++ u.service ++ "/" ++ u.account ++ "/" ++
            u.secretName).data ++ '?' :: (joinSep "&" (p0 :: ps0)).data from by
        simp [String.data_append]]
      rw [breakAtChar_build _ hPne]
    have hq2 : parseQueryParams (joinSep "&" (p0 :: ps0)) =
        .ok (u.version, u.region, u.key) := by
      rw [← hcol]
      exact hquery
    unfold parseResult
    rw [hclean, hgu, hsch]
    simp only [except_bind_ok, hsplit, hpath, hq2]
    exact congrArg Except.ok hfinal

theorem bnot_contains_of_not_mem {l : List Char} {c : Char} (h : c ∉ l) :
    (!l.contains c) = true := by
  cases hc : l.contains c
  · rfl
  · exact absurd (charListContains_iff.mp hc) h

theorem splitNChar_3_inv {c : Char} {l : List Char} {x y z : List Char}
    (h : splitNChar c 3 l = [x, y, z]) :
    ∃ b, breakAtChar c l = some (x, b) ∧ breakAtChar c b = some (y, z) := by
  have h' : (match breakAtChar c l with
      | none => [l]
      | some (a, b) => a :: splitNChar c 2 b) = [x, y, z] := h
  cases hb : breakAtChar c l with
  | none =>
    rw [hb] at h'
    simp at h'
  | some ab =>
    obtain ⟨a, b⟩ := ab
    rw [hb] at h'
    have h'' : a :: splitNChar c 2 b = [x, y, z] := h'
    injection h'' with h1 h2
    subst h1
    have h2' : (match breakAtChar c b with
        | none => [b]
        | some (a2, b2) => a2 :: splitNChar c 1 b2) = [y, z] := h2
    cases hb2 : breakAtChar c b with
    | none =>
      rw [hb2] at h2'
      simp at h2'
    | some ab2 =>
      obtain ⟨a2, b2⟩ := ab2
      rw [hb2] at h2'
      have h3 : a2 :: [b2] = [y, z] := h2'
      injection h3 with h4 h5
      injection h5 with h6 h7
      subst h4
      subst h6
      exact ⟨b, rfl, hb2⟩

theorem splitPathAndQuery_no_q (t : String) :
    '?' ∉ ((splitPathAndQuery t).1).data := by
  unfold splitPathAndQuery goCut
  cases hb : breakAtChar '?' t.data with
  | none =>
    intro hm
    have hs := breakAtChar_isSome_of_mem hm
    rw [hb] at hs
    simp at hs
  | some ab =>
    obtain ⟨x, y⟩ := ab
    exact (breakAtChar_spec hb).2

/-- Everything `parsePathComponents` accepts satisfies the path grammar:
non-empty components, the separators confined to their places, and every
component drawn from the path's own characters. -/
theorem parsePathComponents_shape {path p sv a n : String}
    (h : parsePathComponents path = .ok (p, sv, a, n)) :
    p.data ≠ [] ∧ sv.data ≠ [] ∧ a.data ≠ [] ∧ n.data ≠ [] ∧
    ':' ∉ p.data ∧ '/' ∉ p.data ∧ '/' ∉ sv.data ∧ '/' ∉ a.data ∧
    (∀ c, c ∈ p.data → c ∈ path.data) ∧
    (∀ c, c ∈ sv.data → c ∈ path.data) ∧
    (∀ c, c ∈ a.data → c ∈ path.data) ∧
    (∀ c, c ∈ n.data → c ∈ path.data) := by
  unfold parsePathComponents at h
  cases hsp : splitNChar '/' 3 path.data with
  | nil =>
    rw [hsp] at h
    have h2 : (Except.error "invalid URI path: expected format" :
        Except String (String × String × String × String)) = .ok (p, sv, a, n) := h
    cases h2
  | cons p0 t1 =>
    cases t1 with
    | nil =>
      rw [hsp] at h
      have h2 : (Except.error "invalid URI path: expected format" :
          Except String (String × String × String × String)) = .ok (p, sv, a, n) := h
      cases h2
    | cons p1 t2 =>
      cases t2 with
      | nil =>
        rw [hsp] at h
        have h2 : (Except.error "invalid URI path: expected format" :
            Except String (String × String × String × String)) = .ok (p, sv, a, n) := h
        cases h2
      | cons p2 t3 =>
        cases t3 with
        | cons p3 t4 =>
          rw [hsp] at h
          have h2 : (Except.error "invalid URI path: expected format" :
              Except String (String × String × String × String)) = .ok (p, sv, a, n) := h
          cases h2
        | nil =>
          rw [hsp] at h
          have h' : (match breakAtChar ':' p0 with
              | some (pl, sv2) =>
                if pl = [] ∨ sv2 = [] ∨ p1 = [] ∨ p2 = [] then
                  (Except.error "invalid URI: missing required fields" :
                    Except String (String × String × String × String))
                else .ok (⟨pl⟩, ⟨sv2⟩, ⟨p1⟩, ⟨p2⟩)
              | none => Except.error "invalid URI: missing required fields") =
              .ok (p, sv, a, n) := h
          cases hbc : breakAtChar ':' p0 with
          | none =>
            rw [hbc] at h'
            cases h'
          | some plsv =>
            obtain ⟨pl2, svl⟩ := plsv
            rw [hbc] at h'
            have h2 : (if pl2 = [] ∨ svl = [] ∨ p1 = [] ∨ p2 = [] then
                (Except.error "invalid URI: missing required fields" :
                  Except String (String × String × String × String))
              else .ok (⟨pl2⟩, ⟨svl⟩, ⟨p1⟩, ⟨p2⟩)) = .ok (p, sv, a, n) := h'
            split_ifs at h2 with hcond
            cases h2
            push_neg at hcond
            obtain ⟨hc1, hc2, hc3, hc4⟩ := hcond
            obtain ⟨b, hb1, hb2⟩ := splitNChar_3_inv hsp
            obtain ⟨hpath1, hnos1⟩ := breakAtChar_spec hb1
            obtain ⟨hbdec, hnos2⟩ := breakAtChar_spec hb2
            obtain ⟨hp0, hnoc⟩ := breakAtChar_spec hbc
            have hmem0 : ∀ c, c ∈ p0 → c ∈ path.data := by
              intro c hc
              rw [hpath1]
              exact List.mem_append.mpr (Or.inl hc)
            have hmemb : ∀ c, c ∈ b → c ∈ path.data := by
              intro c hc
              rw [hpath1]
              exact List.mem_append.mpr (Or.inr (List.mem_cons_of_mem _ hc))
            refine ⟨hc1, hc2, hc3, hc4, hnoc, ?_, ?_, hnos2, ?_, ?_, ?_, ?_⟩
            · intro hm
              rw [hp0] at hnos1
              exact hnos1 (List.mem_append.mpr (Or.inl hm))
            · intro hm
              rw [hp0] at hnos1
              exact hnos1 (List.mem_append.mpr
                (Or.inr (List.mem_cons_of_mem _ hm)))
            · intro c hc
              exact hmem0 c (hp0 ▸ List.mem_append.mpr (Or.inl hc))
            · intro c hc
              exact hmem0 c (hp0 ▸ List.mem_append.mpr
                (Or.inr (List.mem_cons_of_mem _ hc)))
            · intro c hc
              exact hmemb c (hbdec ▸ List.mem_append.mpr (Or.inl hc))
            · intro c hc
              exact hmemb c (hbdec ▸ List.mem_append.mpr
                (Or.inr (List.mem_cons_of_mem _ hc)))

/-- Every address `ParseResult` accepts has the canonical field shape. -/
theorem parseResult_shape {s : String} {u : SecretURI}
    (h : parseResult s = .ok u) : ParsedShape u = true := by
  unfold parseResult at h
  cases hcs : checkScheme (cleanURI s) with
  | error e =>
    rw [hcs] at h
    have h2 : (Except.error e : Except String SecretURI) = .ok u := h
    cases h2
  | ok trimmed =>
    rw [hcs, except_bind_ok] at h
    have hnoq0 := splitPathAndQuery_no_q trimmed
    cases hsq : splitPathAndQuery trimmed with
    | mk path query =>
      rw [hsq] at h hnoq0
      have hnoq : '?' ∉ path.data := hnoq0
      have h' : (parsePathComponents path >>= fun quad =>
          match quad with
          | (pl, sv, a, n) => parseQueryParams query >>= fun trip =>
            match trip with
            | (qv, qr, qk) =>
              pure (createSecretURI pl sv a n qv qr qk)) = Except.ok u := h
      cases hpp : parsePathComponents path with
      | error e =>
        rw [hpp] at h'
        have h2 : (Except.error e : Except String SecretURI) = .ok u := h'
        cases h2
      | ok quad =>
        obtain ⟨pl, sv, a, n⟩ := quad
        rw [hpp, except_bind_ok] at h'
        have h'' : (parseQueryParams query >>= fun trip =>
            match trip with
            | (qv, qr, qk) =>
              (pure (createSecretURI pl sv a n qv qr qk) :
                Except String SecretURI)) = Except.ok u := h'
        cases hqp : parseQueryParams query with
        | error e =>
          rw [hqp] at h''
          have h2 : (Except.error e : Except String SecretURI) = .ok u := h''
          cases h2
        | ok trip =>
          obtain ⟨qv, qr, qk⟩ := trip
          rw [hqp, except_bind_ok] at h''
          have h3 : (Except.ok (createSecretURI pl sv a n qv qr qk) :
              Except String SecretURI) = .ok u := h''
          injection h3 with h4
          subst h4
          obtain ⟨hs1, hs2, hs3, hs4, hs5, hs6, hs7, hs8, hm1, hm2, hm3, hm4⟩ :=
            parsePathComponents_shape hpp
          have hv : (createSecretURI pl sv a n qv qr qk).version =
              determineVersion pl qv := by
            unfold createSecretURI
            by_cases hx : determineVersion pl qv = "" <;> simp [hx]
          have hr : (createSecretURI pl sv a n qv qr qk).region =
              determineRegion pl qr := by
            unfold createSecretURI
            by_cases hx : determineRegion pl qr = "" <;> simp [hx]
          simp only [ParsedShape, Bool.and_eq_true, beq_iff_eq]
          refine ⟨⟨⟨⟨⟨⟨⟨⟨?_, ?_⟩, ?_⟩, ?_⟩, ⟨⟨?_, ?_⟩, ?_⟩⟩,
            ⟨⟨?_, ?_⟩, ?_⟩⟩, ⟨?_, ?_⟩⟩, ?_⟩, ?_⟩
          · exact (not_isEmpty_iff _).mpr hs1
          · exact bnot_contains_of_not_mem hs5
          · exact bnot_contains_of_not_mem hs6
          · exact bnot_contains_of_not_mem (fun hm => hnoq (hm1 _ hm))
          · exact (not_isEmpty_iff _).mpr hs2
          · exact bnot_contains_of_not_mem hs7
          · exact bnot_contains_of_not_mem (fun hm => hnoq (hm2 _ hm))
          · exact (not_isEmpty_iff _).mpr hs3
          · exact bnot_contains_of_not_mem hs8
          · exact bnot_contains_of_not_mem (fun hm => hnoq (hm3 _ hm))
          · exact (not_isEmpty_iff _).mpr hs4
          · exact bnot_contains_of_not_mem (fun hm => hnoq (hm4 _ hm))
          · rw [hv]
            exact (determineVersion_idem pl qv).symm
          · rw [hr]
            exact (determineRegion_idem pl qr).symm

/-- C6 (amended): every address the parser accepts has the canonical
field shape (non-empty components, separators confined to their places,
version and region already default-applied), and serialising such an
address parses back to the **identical** record — same platform, service,
account and secretName, and version/key/region exactly the canonical
values — provided the serialised form is stable under the parser's
initial whitespace trim (a secret name with trailing whitespace and no
emitted query parameters breaks the round-trip) and the version, key and
region lie below U+0100, the range where the byte-level model of
`net/url` escaping is faithful. -/
theorem c6_serialize_parse_roundtrip :
    (∀ (s : String) (u : SecretURI), parseResult s = .ok u →
      ParsedShape u = true) ∧
    (∀ u : SecretURI, ParsedShape u = true →
      allBelow256 u.version = true → allBelow256 u.key = true →
      allBelow256 u.region = true →
      cleanURI (getUri u) = getUri u →
      parseResult (getUri u) = .ok u) :=
  ⟨fun _ _ h => parseResult_shape h,
   fun u hs h1 h2 h3 hc => getUri_roundtrip u hs h1 h2 h3 hc⟩

/-- C6 counterexample to the claim as stated: `sem://p:s/a/n ?foo=1`
parses successfully with secret name `"n "`, but serialising the parsed
address drops the unknown parameter, leaving the trailing space at the
end of the URI where the parser's initial trim removes it — the
round-trip changes the secret name to `"n"`. -/
theorem c6_trailing_space_counterexample :
    parseResult "sem://p:s/a/n ?foo=1" =
      .ok ⟨"p", "s", "a", "n ", "", "", ""⟩ ∧
    parseResult (getUri ⟨"p", "s", "a", "n ", "", "", ""⟩) =
      .ok ⟨"p", "s", "a", "n", "", "", ""⟩ ∧
    ("n" : String) ≠ "n " :=
  ⟨rfl, rfl, by decide⟩

/-- C6 witness: a parsed aws address (defaults applied by the parser)
serialises and reparses to the identical record. -/
theorem c6_serialize_parse_roundtrip_witness :
    parseResult "sem://aws:secretsmanager/dev/db/creds?key=password" =
      .ok ⟨"aws", "secretsmanager", "dev", "db/creds", "password",
        "AWSCURRENT", "ap-northeast-1"⟩ ∧
    ParsedShape ⟨"aws", "secretsmanager", "dev", "db/creds", "password",
      "AWSCURRENT", "ap-northeast-1"⟩ = true ∧
    parseResult (getUri ⟨"aws", "secretsmanager", "dev", "db/creds",
      "password", "AWSCURRENT", "ap-northeast-1"⟩) =
      .ok ⟨"aws", "secretsmanager", "dev", "db/creds", "password",
        "AWSCURRENT", "ap-northeast-1"⟩ :=
  ⟨rfl,
   c6_serialize_parse_roundtrip.1
     "sem://aws:secretsmanager/dev/db/creds?key=password"
     ⟨"aws", "secretsmanager", "dev", "db/creds", "password",
       "AWSCURRENT", "ap-northeast-1"⟩ rfl,
   c6_serialize_parse_roundtrip.2
     ⟨"aws", "secretsmanager", "dev", "db/creds", "password",
       "AWSCURRENT", "ap-northeast-1"⟩
     (c6_serialize_parse_roundtrip.1
       "sem://aws:secretsmanager/dev/db/creds?key=password"
       ⟨"aws", "secretsmanager", "dev", "db/creds", "password",
         "AWSCURRENT", "ap-northeast-1"⟩ rfl)
     rfl rfl rfl rfl⟩

end SEM
